import Mathlib

/-!
A verification development for the vexy-json forgiving JSON engine.

The repository ships only the Python adapter layer and its tests; the engine
itself (tokenizer, tolerant recursive-descent parser, repair strategy,
streaming wrapper, serializer) is specified in `spec.md` sections 3-8.
Everything in the `VexyJson` namespace below is therefore modelled from the
spec: the Value model, the Options record, the token stream, the parser with
its depth limit and bounded repair, and the canonical serializer.

Modelling conventions:
* text is a `List Char` internally; `String` only at the API boundary;
* floating-point numbers are kept as exact scaled decimals `m / 10^k`
  (constructor `Value.float m k`), normalised so that `k = 0` or
  `m % 10 ≠ 0`; this realises the spec's "round-trip-safe representation"
  without machine floats;
* `ParseError` carries the kind from the spec's error taxonomy (section 7);
  source positions are omitted, no claim mentions them;
* the tokenizer and the parser are fuel-indexed so that every function is a
  plain computable recursion the kernel can evaluate.
-/

namespace VexyJson

/-- Modelled from the spec: the closed Value variant of section 3.  A number is
either an exact integer or a scaled decimal `m / 10^k` (the floating-point
alternative); objects are ordered key/value lists, insertion order significant,
a repeated key kept as written. -/
inductive Value where
  | null
  | bool (b : Bool)
  | int (n : Int)
  | float (m : Int) (k : Nat)
  | str (s : String)
  | arr (items : List Value)
  | obj (pairs : List (String × Value))

/-- Modelled from the spec: the Options record of section 3, booleans default
true, `max_depth` 128, repair on with a budget of 100. -/
structure Options where
  allow_comments : Bool
  allow_trailing_commas : Bool
  allow_unquoted_keys : Bool
  allow_single_quotes : Bool
  implicit_top_level : Bool
  newline_as_comma : Bool
  max_depth : Nat
  enable_repair : Bool
  max_repairs : Nat
  fast_repair : Bool
  report_repairs : Bool

/-- Modelled from the spec: the "default" preset (section 4.4). -/
def Options.default : Options :=
  ⟨true, true, true, true, true, true, 128, true, 100, false, false⟩

/-- Modelled from the spec: the "strict" preset (section 4.4): every forgiving
boolean off and repair disabled. -/
def Options.strict : Options :=
  ⟨false, false, false, false, false, false, 128, false, 100, false, false⟩

/-- Modelled from the spec: the error taxonomy of section 7. -/
inductive ParseError where
  | UnexpectedToken
  | UnterminatedString
  | UnbalancedBrackets
  | MissingSeparator
  | MissingValue
  | MaxDepthExceeded
  | RepairBudgetExceeded
  | InvalidNumberLiteral
  | EmptyInput
  | ConfigurationError
  | UnserializableValue
deriving DecidableEq

/-- Modelled from the spec: one corrective edit recorded by the Repair Engine
(section 4.3); the position is omitted, the edit kind kept. -/
inductive Repair where
  | insertedNull
  | insertedRBrace
  | insertedRBracket
deriving DecidableEq

/-- Modelled from the spec: the lexical tokens of section 4.1.  `EndOfInput` is
represented by the end of the token list. -/
inductive Tok where
  | lbrace
  | rbrace
  | lbracket
  | rbracket
  | colon
  | comma
  | str (s : String)
  | int (n : Int)
  | float (m : Int) (k : Nat)
  | tru
  | fals
  | null
  | ident (s : String)
  | newline

/-! ### Character classes and small helpers -/

def isWs (c : Char) : Bool :=
  c = ' ' || c = '\t' || c = '\r'

def isDigitC (c : Char) : Bool :=
  '0' ≤ c && c ≤ '9'

def isIdentStart (c : Char) : Bool :=
  c.isAlpha || c = '_'

def isIdentChar (c : Char) : Bool :=
  c.isAlpha || c.isDigit || c = '_'

def digToNat (c : Char) : Nat := c.toNat - 48

def hexVal (c : Char) : Option Nat :=
  if isDigitC c then some (digToNat c)
  else if 'a' ≤ c && c ≤ 'f' then some (c.toNat - 87)
  else if 'A' ≤ c && c ≤ 'F' then some (c.toNat - 55)
  else none

/-- Skip spaces, tabs and carriage returns ('\n' is handled separately). -/
def skipWs : List Char → List Char
  | [] => []
  | c :: cs => if isWs c then skipWs cs else c :: cs

/-- Consume a maximal run of decimal digits. -/
def readDigits : List Char → List Char × List Char
  | [] => ([], [])
  | c :: cs =>
    if isDigitC c then
      let p := readDigits cs
      (c :: p.1, p.2)
    else ([], c :: cs)

/-- Numeric value of a big-endian digit run. -/
def natOfDigits (ds : List Char) : Nat :=
  ds.foldl (fun a c => 10 * a + digToNat c) 0

/-- Consume a maximal identifier run (letters, digits, underscore). -/
def readIdentRun : List Char → List Char × List Char
  | [] => ([], [])
  | c :: cs =>
    if isIdentChar c then
      let p := readIdentRun cs
      (c :: p.1, p.2)
    else ([], c :: cs)

/-- Decode a simple (non-`\u`) escape. -/
def escDecode (c : Char) : Option Char :=
  if c = '"' then some '"'
  else if c = '\\' then some '\\'
  else if c = '/' then some '/'
  else if c = '\'' then some '\''
  else if c = 'b' then some (Char.ofNat 8)
  else if c = 'f' then some (Char.ofNat 12)
  else if c = 'n' then some '\n'
  else if c = 'r' then some '\r'
  else if c = 't' then some '\t'
  else none

/-- Read string content up to an unescaped closing quote `q`, decoding the
standard escape sequences of section 4.1; an unterminated string is a lexical
error. -/
def readString (q : Char) : List Char → Except ParseError (List Char × List Char)
  | [] => .error .UnterminatedString
  | c :: cs =>
    if c = q then .ok ([], cs)
    else if c = '\\' then
      match cs with
      | [] => .error .UnterminatedString
      | 'u' :: h1 :: h2 :: h3 :: h4 :: cs3 =>
        match hexVal h1, hexVal h2, hexVal h3, hexVal h4 with
        | some a, some b, some c2, some d =>
          let n := ((a * 16 + b) * 16 + c2) * 16 + d
          if n.isValidChar then
            match readString q cs3 with
            | .ok (content, rest) => .ok (Char.ofNat n :: content, rest)
            | .error e => .error e
          else .error .UnexpectedToken
        | _, _, _, _ => .error .UnexpectedToken
      | e :: cs2 =>
        match escDecode e with
        | some d =>
          match readString q cs2 with
          | .ok (content, rest) => .ok (d :: content, rest)
          | .error e2 => .error e2
        | none => .error .UnexpectedToken
    else
      match readString q cs with
      | .ok (content, rest) => .ok (c :: content, rest)
      | .error e => .error e

/-- Strip a trailing-zero scaled decimal down to its normal form:
`k = 0` or the mantissa does not end in `0`. -/
def normFloat : Int → Nat → Int × Nat
  | m, 0 => (m, 0)
  | m, k + 1 => if m % 10 = 0 then normFloat (m / 10) k else (m, k + 1)

/-- Apply a decimal exponent `e` to a scaled decimal `m / 10^k`. -/
def applyExp (m : Int) (k : Nat) (e : Int) : Int × Nat :=
  if 0 ≤ e then
    if e.toNat ≤ k then (m, k - e.toNat)
    else (m * (10 : Int) ^ (e.toNat - k), 0)
  else (m, k + e.natAbs)

/-- Build the number token: integer when the literal had no '.' and no
exponent, otherwise a normalised scaled decimal (section 4.1). -/
def mkNumTok (neg : Bool) (ids fds : List Char) (hasDot hasExp : Bool) (e : Int) : Tok :=
  let i : Nat := natOfDigits ids
  let f : Nat := natOfDigits fds
  let mag : Nat := i * 10 ^ fds.length + f
  let m : Int := if neg then -(mag : Int) else (mag : Int)
  if hasDot || hasExp then
    let p := applyExp m fds.length e
    let p2 := normFloat p.1 p.2
    .float p2.1 p2.2
  else
    .int m

/-- Read the exponent part (if present) and finish the number token. -/
def readExpPart (neg : Bool) (ids fds : List Char) (hasDot : Bool)
    (rest : List Char) : Except ParseError (Tok × List Char) :=
  match rest with
  | [] => .ok (mkNumTok neg ids fds hasDot false 0, [])
  | c :: cs =>
    if c = 'e' ∨ c = 'E' then
      let sp : Bool × List Char :=
        match cs with
        | [] => (false, [])
        | c2 :: cs2 =>
          if c2 = '-' then (true, cs2)
          else if c2 = '+' then (false, cs2)
          else (false, c2 :: cs2)
      let dp := readDigits sp.2
      if dp.1.isEmpty then .error .InvalidNumberLiteral
      else
        let eAbs : Int := (natOfDigits dp.1 : Int)
        let e : Int := if sp.1 then -eAbs else eAbs
        .ok (mkNumTok neg ids fds hasDot true e, dp.2)
    else .ok (mkNumTok neg ids fds hasDot false 0, c :: cs)

/-- Read the optional fraction part, then the optional exponent. -/
def readFracPart (neg : Bool) (ids : List Char) (rest : List Char) :
    Except ParseError (Tok × List Char) :=
  match rest with
  | [] => readExpPart neg ids [] false []
  | c3 :: cs3 =>
    if c3 = '.' then
      let fp := readDigits cs3
      if fp.1.isEmpty then .error .InvalidNumberLiteral
      else readExpPart neg ids fp.1 true fp.2
    else readExpPart neg ids [] false (c3 :: cs3)

/-- Read a numeric literal following the standard JSON numeric grammar
(optional '-', integer part, optional fraction, optional exponent). -/
def readNumber (cs : List Char) : Except ParseError (Tok × List Char) :=
  let sp : Bool × List Char :=
    match cs with
    | [] => (false, [])
    | c :: cs1 => if c = '-' then (true, cs1) else (false, c :: cs1)
  let ip := readDigits sp.2
  if ip.1.isEmpty then .error .InvalidNumberLiteral
  else readFracPart sp.1 ip.1 ip.2

/-- Skip a `//` comment up to (and excluding) the next newline. -/
def skipLine : List Char → List Char
  | [] => []
  | c :: cs => if c = '\n' then c :: cs else skipLine cs

/-- Skip a block comment body after `/*`; `none` when unterminated. -/
def skipBlock : List Char → Option (List Char)
  | [] => none
  | '*' :: '/' :: cs => some cs
  | _ :: cs => skipBlock cs

/-- One step of the tokenizer: a token, a skip (comment or insignificant
newline), or end of input. -/
inductive NextRes where
  | tok (t : Tok) (rest : List Char)
  | skip (rest : List Char)
  | eoi

/-- Produce the next lexical event from the text (section 4.1).  Comments are
recognised only under `allow_comments`; single-quoted strings only under
`allow_single_quotes`; identifier runs that are not `true`/`false`/`null` only
under `allow_unquoted_keys`; a newline becomes a token only under
`newline_as_comma`, otherwise it is whitespace. -/
def nextTok (o : Options) (cs0 : List Char) : Except ParseError NextRes :=
  match skipWs cs0 with
  | [] => .ok .eoi
  | c :: r =>
    if c = '\n' then
      if o.newline_as_comma then .ok (.tok .newline r) else .ok (.skip r)
    else if c = '{' then .ok (.tok .lbrace r)
    else if c = '}' then .ok (.tok .rbrace r)
    else if c = '[' then .ok (.tok .lbracket r)
    else if c = ']' then .ok (.tok .rbracket r)
    else if c = ':' then .ok (.tok .colon r)
    else if c = ',' then .ok (.tok .comma r)
    else if c = '"' then
      match readString '"' r with
      | .ok (content, rest) => .ok (.tok (.str (String.mk content)) rest)
      | .error e => .error e
    else if c = '\'' then
      if o.allow_single_quotes then
        match readString '\'' r with
        | .ok (content, rest) => .ok (.tok (.str (String.mk content)) rest)
        | .error e => .error e
      else .error .UnexpectedToken
    else if c = '/' then
      if o.allow_comments then
        match r with
        | [] => .error .UnexpectedToken
        | c2 :: r2 =>
          if c2 = '/' then .ok (.skip (skipLine r2))
          else if c2 = '*' then
            match skipBlock r2 with
            | some r3 => .ok (.skip r3)
            | none => .error .UnterminatedString
          else .error .UnexpectedToken
      else .error .UnexpectedToken
    else if isDigitC c ∨ c = '-' then
      match readNumber (c :: r) with
      | .ok (t, rest) => .ok (.tok t rest)
      | .error e => .error e
    else if isIdentStart c then
      let p := readIdentRun (c :: r)
      let w := String.mk p.1
      if w = "true" then .ok (.tok .tru p.2)
      else if w = "false" then .ok (.tok .fals p.2)
      else if w = "null" then .ok (.tok .null p.2)
      else if o.allow_unquoted_keys then .ok (.tok (.ident w) p.2)
      else .error .UnexpectedToken
    else .error .UnexpectedToken

/-- Fuel-indexed tokenizer loop; every step consumes at least one character,
so `length + 1` fuel always suffices. -/
def tokenizeAux (o : Options) : Nat → List Char → Except ParseError (List Tok)
  | 0, _ => .error .UnexpectedToken
  | fuel + 1, cs =>
    match nextTok o cs with
    | .ok .eoi => .ok []
    | .ok (.tok t rest) =>
      match tokenizeAux o fuel rest with
      | .ok ts => .ok (t :: ts)
      | .error e => .error e
    | .ok (.skip rest) => tokenizeAux o fuel rest
    | .error e => .error e

/-- Modelled from the spec: the Tokenizer contract of section 4.1 — UTF-8 text
and Options to a finite token sequence (end of input = end of list). -/
def tokenize (o : Options) (s : String) : Except ParseError (List Tok) :=
  tokenizeAux o (s.data.length + 1) s.data

/-! ### Parser

Recursive-descent consumer of the token stream (section 4.2).  Newline tokens
are skipped as whitespace at every position, and count as a separator between
elements/pairs when `newline_as_comma` is set; the depth counter is bumped on
every entry into an Array/Object and exceeding `max_depth` is fatal; repair
(section 4.3, priority "close innermost unterminated container / insert
missing value") fires on end of input after a pair's colon (insert `null`)
and, once a repair is pending, on end of input where a separator or closing
bracket is expected (close the innermost container); every edit is recorded.
The functions are fuel-indexed: fuel only ever falls by one on calls that
have consumed at least one token, so the `parseDoc` budget always suffices. -/

/-- Skip leading newline tokens; the Bool is whether any was skipped. -/
def skipNL : List Tok → Bool × List Tok
  | .newline :: rest => (true, (skipNL rest).2)
  | ts => (false, ts)

/-- The parser result: value, unconsumed tokens, recorded repairs so far. -/
abbrev PRes := Except ParseError (Value × List Tok × List Repair)

mutual

def parseValue (o : Options) : Nat → Nat → List Tok → List Repair → PRes
  | 0, _, _, _ => .error .UnexpectedToken
  | fuel + 1, d, ts, reps =>
    match (skipNL ts).2 with
    | [] => .error .MissingValue
    | .lbrace :: r =>
      if o.max_depth < d + 1 then .error .MaxDepthExceeded
      else parsePairs o fuel (d + 1) r reps []
    | .lbracket :: r =>
      if o.max_depth < d + 1 then .error .MaxDepthExceeded
      else parseElems o fuel (d + 1) r reps []
    | .str s :: r => .ok (.str s, r, reps)
    | .int n :: r => .ok (.int n, r, reps)
    | .float m k :: r => .ok (.float m k, r, reps)
    | .tru :: r => .ok (.bool true, r, reps)
    | .fals :: r => .ok (.bool false, r, reps)
    | .null :: r => .ok (.null, r, reps)
    | .rbrace :: _ => .error .MissingValue
    | .rbracket :: _ => .error .MissingValue
    | .colon :: _ => .error .UnexpectedToken
    | .comma :: _ => .error .UnexpectedToken
    | .ident _ :: _ => .error .UnexpectedToken
    | .newline :: _ => .error .UnexpectedToken

termination_by structural fuel => fuel

def parseElems (o : Options) : Nat → Nat → List Tok → List Repair → List Value → PRes
  | 0, _, _, _, _ => .error .UnexpectedToken
  | fuel + 1, d, ts, reps, acc =>
    match (skipNL ts).2 with
    | .rbracket :: r => .ok (.arr acc.reverse, r, reps)
    | ts0 =>
      match parseValue o fuel d ts0 reps with
      | .error e => .error e
      | .ok (v, r1, reps1) => parseElemSep o fuel d r1 reps1 (v :: acc)

termination_by structural fuel => fuel

def parseElemSep (o : Options) : Nat → Nat → List Tok → List Repair → List Value → PRes
  | 0, _, _, _, _ => .error .UnexpectedToken
  | fuel + 1, d, ts, reps, acc =>
    let p := skipNL ts
    match p.2 with
    | .rbracket :: r => .ok (.arr acc.reverse, r, reps)
    | .comma :: r2 =>
      match (skipNL r2).2 with
      | .rbracket :: r3 =>
        if o.allow_trailing_commas then .ok (.arr acc.reverse, r3, reps)
        else .error .MissingValue
      | q => parseElems o fuel d q reps acc
    | [] =>
      if o.enable_repair ∧ reps ≠ [] ∧ reps.length < o.max_repairs then
        .ok (.arr acc.reverse, [], reps ++ [.insertedRBracket])
      else .error .UnbalancedBrackets
    | _ =>
      if o.newline_as_comma ∧ p.1 then parseElems o fuel d p.2 reps acc
      else .error .MissingSeparator

termination_by structural fuel => fuel

def parsePairs (o : Options) : Nat → Nat → List Tok → List Repair → List (String × Value) → PRes
  | 0, _, _, _, _ => .error .UnexpectedToken
  | fuel + 1, d, ts, reps, acc =>
    match (skipNL ts).2 with
    | .rbrace :: r => .ok (.obj acc.reverse, r, reps)
    | .str k :: r => parsePairVal o fuel d k r reps acc
    | .ident k :: r => parsePairVal o fuel d k r reps acc
    | [] => .error .UnbalancedBrackets
    | _ => .error .UnexpectedToken

termination_by structural fuel => fuel

def parsePairVal (o : Options) : Nat → Nat → String → List Tok → List Repair →
    List (String × Value) → PRes
  | 0, _, _, _, _, _ => .error .UnexpectedToken
  | fuel + 1, d, k, ts, reps, acc =>
    match (skipNL ts).2 with
    | .colon :: r =>
      match (skipNL r).2 with
      | [] =>
        if o.enable_repair then
          if reps.length < o.max_repairs then
            parsePairSep o fuel d (k, .null) [] (reps ++ [.insertedNull]) acc
          else .error .RepairBudgetExceeded
        else .error .MissingValue
      | .ident s :: r2 => parsePairSep o fuel d (k, .str s) r2 reps acc
      | r0 =>
        match parseValue o fuel d r0 reps with
        | .error e => .error e
        | .ok (v, r2, reps2) => parsePairSep o fuel d (k, v) r2 reps2 acc
    | _ => .error .MissingSeparator

termination_by structural fuel => fuel

def parsePairSep (o : Options) : Nat → Nat → String × Value → List Tok → List Repair →
    List (String × Value) → PRes
  | 0, _, _, _, _, _ => .error .UnexpectedToken
  | fuel + 1, d, kv, ts, reps, acc =>
    let p := skipNL ts
    match p.2 with
    | .rbrace :: r => .ok (.obj (kv :: acc).reverse, r, reps)
    | .comma :: r2 =>
      match (skipNL r2).2 with
      | .rbrace :: r3 =>
        if o.allow_trailing_commas then .ok (.obj (kv :: acc).reverse, r3, reps)
        else .error .MissingValue
      | q => parsePairs o fuel d q reps (kv :: acc)
    | [] =>
      if o.enable_repair ∧ reps ≠ [] ∧ reps.length < o.max_repairs then
        .ok (.obj (kv :: acc).reverse, [], reps ++ [.insertedRBrace])
      else .error .UnbalancedBrackets
    | _ =>
      if o.newline_as_comma ∧ p.1 then parsePairs o fuel d p.2 reps (kv :: acc)
      else .error .MissingSeparator

termination_by structural fuel => fuel
end

/-! Implicit top-level sequences (section 4.2): a bare comma/newline-separated
sequence of `key: value` pairs (implicit Object) or of values (implicit
Array), terminated by end of input. -/

mutual

def parseImpPairs (o : Options) : Nat → List Tok → List Repair →
    List (String × Value) → Except ParseError (List (String × Value) × List Repair)
  | 0, _, _, _ => .error .UnexpectedToken
  | fuel + 1, ts, reps, acc =>
    match (skipNL ts).2 with
    | .str k :: r => parseImpPairVal o fuel k r reps acc
    | .ident k :: r => parseImpPairVal o fuel k r reps acc
    | [] => .error .MissingValue
    | _ => .error .UnexpectedToken

termination_by structural fuel => fuel

def parseImpPairVal (o : Options) : Nat → String → List Tok → List Repair →
    List (String × Value) → Except ParseError (List (String × Value) × List Repair)
  | 0, _, _, _, _ => .error .UnexpectedToken
  | fuel + 1, k, ts, reps, acc =>
    match (skipNL ts).2 with
    | .colon :: r =>
      match (skipNL r).2 with
      | [] =>
        if o.enable_repair then
          if reps.length < o.max_repairs then
            parseImpPairSep o fuel (k, .null) [] (reps ++ [.insertedNull]) acc
          else .error .RepairBudgetExceeded
        else .error .MissingValue
      | .ident s :: r2 => parseImpPairSep o fuel (k, .str s) r2 reps acc
      | r0 =>
        match parseValue o fuel 1 r0 reps with
        | .error e => .error e
        | .ok (v, r2, reps2) => parseImpPairSep o fuel (k, v) r2 reps2 acc
    | _ => .error .MissingSeparator

termination_by structural fuel => fuel

def parseImpPairSep (o : Options) : Nat → String × Value → List Tok → List Repair →
    List (String × Value) → Except ParseError (List (String × Value) × List Repair)
  | 0, _, _, _, _ => .error .UnexpectedToken
  | fuel + 1, kv, ts, reps, acc =>
    let p := skipNL ts
    match p.2 with
    | [] => .ok ((kv :: acc).reverse, reps)
    | .comma :: r2 =>
      match (skipNL r2).2 with
      | [] =>
        if o.allow_trailing_commas then .ok ((kv :: acc).reverse, reps)
        else .error .MissingValue
      | q => parseImpPairs o fuel q reps (kv :: acc)
    | _ =>
      if o.newline_as_comma ∧ p.1 then parseImpPairs o fuel p.2 reps (kv :: acc)
      else .error .MissingSeparator

termination_by structural fuel => fuel
end

mutual

def parseImpElems (o : Options) : Nat → List Tok → List Repair → List Value →
    Except ParseError (List Value × List Repair)
  | 0, _, _, _ => .error .UnexpectedToken
  | fuel + 1, ts, reps, acc =>
    match (skipNL ts).2 with
    | [] => .error .MissingValue
    | ts0 =>
      match parseValue o fuel 1 ts0 reps with
      | .error e => .error e
      | .ok (v, r1, reps1) => parseImpElemSep o fuel r1 reps1 (v :: acc)

termination_by structural fuel => fuel

def parseImpElemSep (o : Options) : Nat → List Tok → List Repair → List Value →
    Except ParseError (List Value × List Repair)
  | 0, _, _, _ => .error .UnexpectedToken
  | fuel + 1, ts, reps, acc =>
    let p := skipNL ts
    match p.2 with
    | [] => .ok (acc.reverse, reps)
    | .comma :: r2 =>
      match (skipNL r2).2 with
      | [] =>
        if o.allow_trailing_commas then .ok (acc.reverse, reps)
        else .error .MissingValue
      | q => parseImpElems o fuel q reps acc
    | _ =>
      if o.newline_as_comma ∧ p.1 then parseImpElems o fuel p.2 reps acc
      else .error .MissingSeparator

termination_by structural fuel => fuel
end

/-- The fuel budget given to a parse of a token list. -/
def pFuel (ts : List Tok) : Nat := 2 * ts.length + 4

/-- Modelled from the spec: a document is a single Value or, under
`implicit_top_level`, a bare sequence of pairs (implicit Object) or of values
(implicit Array); empty input is `EmptyInput` (section 4.2, section 7).
`MaxDepthExceeded` is always fatal (section 7): parsing never continues into
the implicit-top-level fallback past it, and the implicit-Object attempt's
`MaxDepthExceeded` is never superseded by the implicit-Array attempt. -/
def parseDoc (o : Options) (ts : List Tok) : Except ParseError (Value × List Repair) :=
  match (skipNL ts).2 with
  | [] => .error .EmptyInput
  | _ =>
    let fuel := pFuel ts
    let imp : Except ParseError (Value × List Repair) :=
      match parseImpPairs o fuel ts [] [] with
      | .ok (ps, reps) => .ok (.obj ps, reps)
      | .error e =>
        if e = .MaxDepthExceeded then .error .MaxDepthExceeded
        else
          match parseImpElems o fuel ts [] [] with
          | .ok (vs, reps) => .ok (.arr vs, reps)
          | .error e2 => .error e2
    match parseValue o fuel 0 ts [] with
    | .ok (v, rest, reps) =>
      if (skipNL rest).2.isEmpty then .ok (v, reps)
      else if o.implicit_top_level then imp
      else .error .UnexpectedToken
    | .error e =>
      if e = .MaxDepthExceeded then .error .MaxDepthExceeded
      else if o.implicit_top_level then imp
      else .error e

/-- Modelled from the spec: `parse_with_options(text, options)` — tokenize
then parse, returning the Value and the recorded Repairs (section 6). -/
def parse_with_options (o : Options) (s : String) : Except ParseError (Value × List Repair) :=
  match tokenize o s with
  | .ok ts => parseDoc o ts
  | .error e => .error e

/-- Modelled from the spec: `parse(text)` — `parse_with_options` under the
default Options, surfacing only the Value (section 6). -/
def parse (s : String) : Except ParseError Value :=
  (parse_with_options Options.default s).map Prod.fst

/-- Mirrors `loads = parse` from `src/bindings/python/src/vexy_json/__init__.py`
and `src/crates/python/python/vexy_json/__init__.py`: `loads` is the very
assignment of `parse` to another module attribute. -/
def loads : String → Except ParseError Value := parse

/-- Modelled from the spec: `is_valid(text)` — true iff `parse` would succeed
with default Options (section 6). -/
def is_valid (s : String) : Bool :=
  match parse s with
  | .ok _ => true
  | .error _ => false

/-- Modelled from the spec: the Streaming Parser's `parse_lines` (section 4.5)
— one result per logical unit, a failing unit yielding its ParseError without
aborting the remaining units. -/
def parse_lines (lines : List String) : List (Except ParseError Value) :=
  lines.map parse

/-! ### Serializer

Canonical text emission (section 4.6), factored through the token list of a
value: `serialize` renders the canonical token sequence with no insignificant
whitespace.  Integers are printed without a decimal point; a scaled decimal
`m / 10^k` is printed with its fractional digits (`m.0` when `k = 0`), which
is a lossless round-trip-safe form; strings are escaped by the standard JSON
rules. -/

def digitChar (d : Nat) : Char := Char.ofNat (48 + d)

/-- Big-endian decimal digit characters of a natural number. -/
def natChars (n : Nat) : List Char :=
  if n = 0 then ['0'] else ((Nat.digits 10 n).map digitChar).reverse

def renderInt (n : Int) : List Char :=
  if n < 0 then '-' :: natChars n.natAbs else natChars n.natAbs

/-- The digits of `|m|`, left-padded with zeros to at least `k + 1` digits. -/
def padded (m : Int) (k : Nat) : List Char :=
  List.replicate (k + 1 - (natChars m.natAbs).length) '0' ++ natChars m.natAbs

/-- Render a scaled decimal `m / 10^k` with exactly `k` fractional digits
(one zero digit when `k = 0`, so the float tag survives the round trip). -/
def renderFloat (m : Int) (k : Nat) : List Char :=
  if k = 0 then renderInt m ++ ['.', '0']
  else
    (if m < 0 then ['-'] else []) ++
      (padded m k).take ((padded m k).length - k) ++
      '.' :: (padded m k).drop ((padded m k).length - k)

def hexDigit (d : Nat) : Char :=
  if d < 10 then digitChar d else Char.ofNat (87 + d)

/-- Escape one character per standard JSON string-escaping rules. -/
def escChar1 (c : Char) : List Char :=
  if c = '"' then ['\\', '"']
  else if c = '\\' then ['\\', '\\']
  else if c = '\n' then ['\\', 'n']
  else if c = '\r' then ['\\', 'r']
  else if c = '\t' then ['\\', 't']
  else if c.toNat = 8 then ['\\', 'b']
  else if c.toNat = 12 then ['\\', 'f']
  else if c.toNat < 32 then
    ['\\', 'u', '0', '0', hexDigit (c.toNat / 16), hexDigit (c.toNat % 16)]
  else [c]

def escChars (cs : List Char) : List Char := cs.flatMap escChar1

/-- Render one token back to text. -/
def renderTok : Tok → List Char
  | .lbrace => ['{']
  | .rbrace => ['}']
  | .lbracket => ['[']
  | .rbracket => [']']
  | .colon => [':']
  | .comma => [',']
  | .newline => ['\n']
  | .tru => ['t', 'r', 'u', 'e']
  | .fals => ['f', 'a', 'l', 's', 'e']
  | .null => ['n', 'u', 'l', 'l']
  | .str s => '"' :: escChars s.data ++ ['"']
  | .ident s => s.data
  | .int n => renderInt n
  | .float m k => renderFloat m k

def renderToks (ts : List Tok) : List Char := ts.flatMap renderTok

mutual

/-- The canonical (compact) token sequence of a Value. -/
def tokensOfValue : Value → List Tok
  | .null => [.null]
  | .bool true => [.tru]
  | .bool false => [.fals]
  | .int n => [.int n]
  | .float m k => [.float m k]
  | .str s => [.str s]
  | .arr items => .lbracket :: tokensOfElems items ++ [.rbracket]
  | .obj ps => .lbrace :: tokensOfPairs ps ++ [.rbrace]

def tokensOfElems : List Value → List Tok
  | [] => []
  | [x] => tokensOfValue x
  | x :: y :: xs => tokensOfValue x ++ .comma :: tokensOfElems (y :: xs)

def tokensOfPairs : List (String × Value) → List Tok
  | [] => []
  | [(k, v)] => .str k :: .colon :: tokensOfValue v
  | (k, v) :: p :: ps => .str k :: .colon :: tokensOfValue v ++ .comma :: tokensOfPairs (p :: ps)

end

/-- Modelled from the spec: `serialize(value)` — canonical compact text
emission from a Value tree (section 4.6). -/
def serialize (v : Value) : String :=
  String.mk (renderToks (tokensOfValue v))

/-- The adapters name `serialize` as `dumps` (section 6). -/
def dumps : Value → String := serialize

/-! ### Digit lemmas -/

theorem digToNat_digitChar (d : Nat) (h : d < 10) : digToNat (digitChar d) = d := by
  interval_cases d <;> rfl

theorem isDigitC_digitChar (d : Nat) (h : d < 10) : isDigitC (digitChar d) = true := by
  interval_cases d <;> rfl

/-- The running-accumulator form of `natOfDigits`. -/
theorem natOfDigits_foldl (a : Nat) (ds : List Char) :
    ds.foldl (fun x c => 10 * x + digToNat c) a =
      a * 10 ^ ds.length + natOfDigits ds := by
  induction ds generalizing a with
  | nil => simp [natOfDigits]
  | cons c cs ih =>
    simp only [List.foldl_cons, natOfDigits, List.length_cons]
    rw [ih (10 * a + digToNat c), ih (10 * 0 + digToNat c)]
    ring

theorem natOfDigits_append (a b : List Char) :
    natOfDigits (a ++ b) = natOfDigits a * 10 ^ b.length + natOfDigits b := by
  simp only [natOfDigits, List.foldl_append]
  rw [natOfDigits_foldl]
  rfl

theorem natOfDigits_snoc (a : List Char) (c : Char) :
    natOfDigits (a ++ [c]) = 10 * natOfDigits a + digToNat c := by
  rw [natOfDigits_append]
  simp [natOfDigits]
  ring

/-- Reading back the digits of `n` yields `n`. -/
theorem natOfDigits_digits (L : List Nat) (hL : ∀ d ∈ L, d < 10) :
    natOfDigits ((L.map digitChar).reverse) = Nat.ofDigits 10 L := by
  induction L with
  | nil => simp [natOfDigits, Nat.ofDigits]
  | cons d L ih =>
    simp only [List.map_cons, List.reverse_cons, Nat.ofDigits_cons]
    rw [natOfDigits_snoc, ih (fun x hx => hL x (List.mem_cons_of_mem _ hx)),
      digToNat_digitChar d (hL d (List.mem_cons_self _ _))]
    ring

theorem natOfDigits_natChars (n : Nat) : natOfDigits (natChars n) = n := by
  unfold natChars
  by_cases h : n = 0
  · subst h; rfl
  · simp only [h, if_false]
    rw [natOfDigits_digits _ (fun d hd => Nat.digits_lt_base (by norm_num) hd)]
    exact Nat.ofDigits_digits 10 n

theorem natChars_digits (n : Nat) : ∀ c ∈ natChars n, isDigitC c = true := by
  intro c hc
  unfold natChars at hc
  by_cases h : n = 0
  · subst h; simp at hc; subst hc; rfl
  · simp only [h, if_false, List.mem_reverse, List.mem_map] at hc
    obtain ⟨d, hd, rfl⟩ := hc
    exact isDigitC_digitChar d (Nat.digits_lt_base (by norm_num) hd)

theorem natChars_ne_nil (n : Nat) : natChars n ≠ [] := by
  unfold natChars
  by_cases h : n = 0
  · simp [h]
  · simp only [h, if_false, ne_eq, List.reverse_eq_nil_iff, List.map_eq_nil_iff]
    exact Nat.digits_ne_nil_iff_ne_zero.mpr h

theorem charToNat_ofNat (n : Nat) (h : n.isValidChar) : (Char.ofNat n).toNat = n := by
  simp only [Char.ofNat, h, dif_pos, Char.toNat, Char.ofNatAux]
  have hlt : n < 2 ^ 32 := by
    rcases h with h | h
    · omega
    · omega
  simp [UInt32.toNat, UInt32.ofNatCore, BitVec.toNat_ofNat, Nat.mod_eq_of_lt hlt]

/-- `readDigits` consumes exactly a digit run when what follows cannot extend
it. -/
def noDigitHead : List Char → Prop
  | [] => True
  | c :: _ => isDigitC c = false

theorem readDigits_exact (ds rest : List Char) (hds : ∀ c ∈ ds, isDigitC c = true)
    (hrest : noDigitHead rest) : readDigits (ds ++ rest) = (ds, rest) := by
  induction ds with
  | nil =>
    simp only [List.nil_append]
    cases rest with
    | nil => rfl
    | cons c cs =>
      simp only [noDigitHead] at hrest
      simp [readDigits, hrest]
  | cons c cs ih =>
    simp only [List.cons_append, readDigits, hds c (List.mem_cons_self _ _), if_true]
    have h2 := ih (fun x hx => hds x (List.mem_cons_of_mem _ hx))
    rw [show cs.append rest = cs ++ rest from rfl, h2]

/-! ### String escaping round trip -/

theorem hexVal_hexDigit : ∀ d < 16, hexVal (hexDigit d) = some d := by decide

/-- Reading back an escaped string body recovers the original characters. -/
theorem readString_esc (cs rest : List Char) :
    readString '"' (escChars cs ++ '"' :: rest) = .ok (cs, rest) := by
  induction cs with
  | nil =>
    show readString '"' ([] ++ '"' :: rest) = .ok ([], rest)
    rw [List.nil_append, readString.eq_def]
    simp only [reduceIte]
  | cons c cs ih =>
    have hstep : escChars (c :: cs) = escChar1 c ++ escChars cs := by
      simp [escChars]
    rw [hstep, List.append_assoc]
    by_cases h1 : c = '"'
    · subst h1
      simp only [escChar1, Char.reduceEq, reduceIte, List.cons_append, List.nil_append]
      rw [readString]
      simp only [Char.reduceEq, reduceIte, readString, escDecode, ih]
      exact fun _ _ _ _ _ h _ => absurd h (by decide)
    by_cases h2 : c = '\\'
    · subst h2
      simp only [escChar1, Char.reduceEq, reduceIte, List.cons_append, List.nil_append]
      rw [readString]
      simp only [Char.reduceEq, reduceIte, readString, escDecode, ih]
      exact fun _ _ _ _ _ h _ => absurd h (by decide)
    by_cases h3 : c = '\n'
    · subst h3
      simp only [escChar1, Char.reduceEq, reduceIte, List.cons_append, List.nil_append]
      rw [readString]
      simp only [Char.reduceEq, reduceIte, readString, escDecode, ih]
      exact fun _ _ _ _ _ h _ => absurd h (by decide)
    by_cases h4 : c = '\r'
    · subst h4
      simp only [escChar1, Char.reduceEq, reduceIte, List.cons_append, List.nil_append]
      rw [readString]
      simp only [Char.reduceEq, reduceIte, readString, escDecode, ih]
      exact fun _ _ _ _ _ h _ => absurd h (by decide)
    by_cases h5 : c = '\t'
    · subst h5
      simp only [escChar1, Char.reduceEq, reduceIte, List.cons_append, List.nil_append]
      rw [readString]
      simp only [Char.reduceEq, reduceIte, readString, escDecode, ih]
      exact fun _ _ _ _ _ h _ => absurd h (by decide)
    by_cases h6 : c.toNat = 8
    · have hc : c = Char.ofNat 8 := by
        have h0 := Char.ofNat_toNat c
        rw [h6] at h0
        exact h0.symm
      subst hc
      simp only [escChar1, Char.reduceEq, reduceIte, List.cons_append, List.nil_append,
        show ((Char.ofNat 8).toNat = 8) = True by simp, if_true]
      rw [readString]
      simp only [Char.reduceEq, reduceIte, readString, escDecode, ih]
      exact fun _ _ _ _ _ h _ => absurd h (by decide)
    by_cases h7 : c.toNat = 12
    · have hc : c = Char.ofNat 12 := by
        have h0 := Char.ofNat_toNat c
        rw [h7] at h0
        exact h0.symm
      subst hc
      simp only [escChar1, Char.reduceEq, reduceIte, List.cons_append, List.nil_append,
        show ((Char.ofNat 12).toNat = 8) = False by simp,
        show ((Char.ofNat 12).toNat = 12) = True by simp, if_true, if_false]
      rw [readString]
      simp only [Char.reduceEq, reduceIte, readString, escDecode, ih]
      exact fun _ _ _ _ _ h _ => absurd h (by decide)
    by_cases h8 : c.toNat < 32
    · have hesc : escChar1 c =
          ['\\', 'u', '0', '0', hexDigit (c.toNat / 16), hexDigit (c.toNat % 16)] := by
        simp [escChar1, h1, h2, h3, h4, h5, h6, h7, h8]
      rw [hesc]
      have hv1 : hexVal (hexDigit (c.toNat / 16)) = some (c.toNat / 16) :=
        hexVal_hexDigit _ (by omega)
      have hv2 : hexVal (hexDigit (c.toNat % 16)) = some (c.toNat % 16) :=
        hexVal_hexDigit _ (by omega)
      have hvalid : c.toNat.isValidChar := Or.inl (by omega)
      have h0 : hexVal '0' = some 0 := by decide
      have hn2 : c.toNat / 16 * 16 + c.toNat % 16 = c.toNat := by omega
      simp only [List.cons_append, List.nil_append]
      rw [readString]
      simp only [Char.reduceEq, reduceIte, h0, hv1, hv2,
        Nat.zero_mul, Nat.zero_add, Nat.add_zero, Nat.mul_zero, hn2, hvalid,
        if_true, Char.ofNat_toNat, ih]
    · have hesc : escChar1 c = [c] := by
        simp [escChar1, h1, h2, h3, h4, h5, h6, h7, h8]
      rw [hesc]
      simp only [List.cons_append, List.nil_append]
      rw [readString.eq_def]
      simp only [h1, h2, reduceIte, ih]

/-! ### Number rendering round trip -/

/-- What may legally follow a rendered number or keyword: nothing, or a
character that cannot extend the literal. -/
def noNumExtHead : List Char → Prop
  | [] => True
  | c :: _ => isDigitC c = false ∧ c ≠ '.' ∧ c ≠ 'e' ∧ c ≠ 'E'

theorem isDigit_ne {c ch : Char} (h : isDigitC c = true) (h2 : isDigitC ch = false) :
    c ≠ ch := by
  intro he
  rw [he, h2] at h
  exact Bool.false_ne_true h

theorem natOfDigits_cons_zero (L : List Char) :
    natOfDigits ('0' :: L) = natOfDigits L := by
  show List.foldl (fun a c => 10 * a + digToNat c) (10 * 0 + digToNat '0') L
    = natOfDigits L
  have h : 10 * 0 + digToNat '0' = 0 := by decide
  rw [h]
  rfl

theorem natOfDigits_replicate_zero (z : Nat) (L : List Char) :
    natOfDigits (List.replicate z '0' ++ L) = natOfDigits L := by
  induction z with
  | zero => rfl
  | succ z ih =>
    rw [List.replicate_succ, List.cons_append, natOfDigits_cons_zero, ih]

theorem readDigits_stop (ds rest : List Char) (hds : ∀ c ∈ ds, isDigitC c = true)
    (hrest : noNumExtHead rest) : readDigits (ds ++ rest) = (ds, rest) := by
  apply readDigits_exact _ _ hds
  cases rest with
  | nil => trivial
  | cons c cs => exact hrest.1

/-- `readExpPart` with no exponent characters in front just finishes. -/
theorem readExpPart_none (neg : Bool) (ids fds : List Char) (hasDot : Bool)
    (rest : List Char) (hrest : noNumExtHead rest) :
    readExpPart neg ids fds hasDot rest = .ok (mkNumTok neg ids fds hasDot false 0, rest) := by
  cases rest with
  | nil => rfl
  | cons c cs =>
    obtain ⟨-, -, he, hE⟩ := hrest
    show (if c = 'e' ∨ c = 'E' then _ else
      Except.ok (mkNumTok neg ids fds hasDot false 0, c :: cs)) = _
    rw [if_neg]
    intro h
    rcases h with h | h
    · exact he h
    · exact hE h

/-- `readFracPart` with no fraction or exponent in front just finishes. -/
theorem readFracPart_none (neg : Bool) (ids : List Char)
    (rest : List Char) (hrest : noNumExtHead rest) :
    readFracPart neg ids rest = .ok (mkNumTok neg ids [] false false 0, rest) := by
  cases rest with
  | nil => rfl
  | cons c3 cs3 =>
    show (if c3 = '.' then _ else readExpPart neg ids [] false (c3 :: cs3)) = _
    rw [if_neg hrest.2.1, readExpPart_none _ _ _ _ _ hrest]

theorem mkNumTok_int (neg : Bool) (ids : List Char) :
    mkNumTok neg ids [] false false 0 =
      .int (if neg then -(natOfDigits ids : Int) else (natOfDigits ids : Int)) := by
  simp [mkNumTok, natOfDigits]

/-- The sign and integer-digit phases of `readNumber` on a sign-then-digits
prefix reduce to `readFracPart`. -/
theorem readNumber_signDigits (neg : Bool) (ds tail : List Char)
    (hds : ∀ c ∈ ds, isDigitC c = true) (hne : ds ≠ []) (htail : noDigitHead tail) :
    readNumber ((if neg then ['-'] else []) ++ (ds ++ tail)) = readFracPart neg ds tail := by
  obtain ⟨d, ds', hcons⟩ : ∃ d ds', ds = d :: ds' := by
    cases ds with
    | nil => exact absurd rfl hne
    | cons d ds' => exact ⟨d, ds', rfl⟩
  have hd : isDigitC d = true := hds d (by rw [hcons]; exact List.mem_cons_self _ _)
  have hdm : ¬ d = '-' := isDigit_ne hd (by decide)
  have hrd : readDigits (ds ++ tail) = (ds, tail) := readDigits_exact _ _ hds htail
  have hnonempty : ds.isEmpty = false := by rw [hcons]; rfl
  cases neg with
  | true =>
    simp only [if_pos rfl]
    rw [readNumber.eq_def]
    simp only [List.cons_append, List.nil_append, Char.reduceEq, reduceIte, hrd,
      hnonempty, Bool.false_eq_true, if_false]
  | false =>
    simp only [Bool.false_eq_true, if_false, List.nil_append]
    rw [hcons, List.cons_append, readNumber.eq_def]
    simp only [if_neg hdm]
    rw [show d :: (ds' ++ tail) = ds ++ tail by rw [hcons]; rfl, hrd]
    simp only [hnonempty, Bool.false_eq_true, if_false]
    rw [hcons]

theorem applyExp_zero (m : Int) (l : Nat) : applyExp m l 0 = (m, l) := by
  simp [applyExp]

/-- `mkNumTok` for a literal with a fraction and no exponent. -/
theorem mkNumTok_dot (neg : Bool) (ids fds : List Char) :
    mkNumTok neg ids fds true false 0 =
      .float (normFloat (if neg then
          -((natOfDigits ids * 10 ^ fds.length + natOfDigits fds : Nat) : Int)
        else ((natOfDigits ids * 10 ^ fds.length + natOfDigits fds : Nat) : Int)) fds.length).1
        (normFloat (if neg then
          -((natOfDigits ids * 10 ^ fds.length + natOfDigits fds : Nat) : Int)
        else ((natOfDigits ids * 10 ^ fds.length + natOfDigits fds : Nat) : Int)) fds.length).2 := by
  simp only [mkNumTok, Bool.true_or, if_true, applyExp_zero]

/-- Reading back a rendered scaled decimal yields the float token, provided
the pair is in normal form. -/
theorem readNumber_renderFloat (m : Int) (k : Nat) (rest : List Char)
    (hnorm : normFloat m k = (m, k)) (hrest : noNumExtHead rest) :
    readNumber (renderFloat m k ++ rest) = .ok (.float m k, rest) := by
  have hsign : ∀ L : List Char, (if m < 0 then ['-'] else []) ++ L
      = (if decide (m < 0) then ['-'] else []) ++ L := by
    intro L
    by_cases hm : m < 0 <;> simp [hm]
  have hnegval : ∀ M : Nat, M = m.natAbs →
      (if decide (m < 0) then -(M : Int) else (M : Int)) = m := by
    intro M hM
    subst hM
    by_cases hm : m < 0
    · have hd2 : decide (m < 0) = true := by simpa using hm
      rw [hd2, if_pos rfl]
      omega
    · have hd2 : decide (m < 0) = false := by simpa using hm
      rw [hd2]
      simp only [Bool.false_eq_true, if_false]
      omega
  by_cases hk : k = 0
  · subst hk
    have hrender : renderFloat m 0 ++ rest
        = (if decide (m < 0) then ['-'] else []) ++ (natChars m.natAbs ++ ('.' :: '0' :: rest)) := by
      rw [renderFloat, if_pos rfl, renderInt]
      by_cases hm : m < 0 <;> simp [hm]
    rw [hrender]
    rw [readNumber_signDigits _ _ ('.' :: '0' :: rest) (natChars_digits _)
      (natChars_ne_nil _) (by exact rfl)]
    rw [readFracPart]
    simp only [Char.reduceEq, reduceIte]
    have hzero : readDigits ('0' :: rest) = (['0'], rest) := by
      have h0 : ('0' :: rest) = ['0'] ++ rest := rfl
      rw [h0]
      apply readDigits_exact
      · intro c hc
        simp at hc
        subst hc
        rfl
      · cases rest with
        | nil => exact trivial
        | cons c cs => exact hrest.1
    rw [hzero]
    simp only [List.isEmpty_cons, Bool.false_eq_true, if_false]
    rw [readExpPart_none _ _ _ _ _ hrest, mkNumTok_dot]
    have hval0 : natOfDigits (natChars m.natAbs) * 10 ^ (['0'] : List Char).length
        + natOfDigits ['0'] = m.natAbs * 10 := by
      rw [natOfDigits_natChars]
      rfl
    rw [hval0]
    have hM : (if decide (m < 0) then -((m.natAbs * 10 : Nat) : Int)
        else ((m.natAbs * 10 : Nat) : Int)) = 10 * m := by
      by_cases hm : m < 0
      · have hd2 : decide (m < 0) = true := by simpa using hm
        rw [hd2, if_pos rfl]
        omega
      · have hd2 : decide (m < 0) = false := by simpa using hm
        rw [hd2]
        simp only [Bool.false_eq_true, if_false]
        omega
    rw [hM]
    have hnf : normFloat (10 * m) (['0'] : List Char).length = (m, 0) := by
      show normFloat (10 * m) 1 = (m, 0)
      rw [normFloat]
      simp only [Int.mul_emod_right, if_pos rfl]
      rw [show (10 : Int) * m / 10 = m by omega]
      rfl
    rw [hnf]
  · have hkpos : 0 < k := Nat.pos_of_ne_zero hk
    have hpaddig : ∀ c ∈ padded m k, isDigitC c = true := by
      intro c hc
      rcases List.mem_append.mp hc with h | h
      · rw [List.eq_of_mem_replicate h]; rfl
      · exact natChars_digits _ c h
    have hpadlen : k + 1 ≤ (padded m k).length := by
      rw [padded]
      simp only [List.length_append, List.length_replicate]
      omega
    have hipfp : (padded m k).take ((padded m k).length - k)
        ++ (padded m k).drop ((padded m k).length - k) = padded m k :=
      List.take_append_drop _ _
    have hfplen : ((padded m k).drop ((padded m k).length - k)).length = k := by
      rw [List.length_drop]
      omega
    have hiplen : 0 < ((padded m k).take ((padded m k).length - k)).length := by
      rw [List.length_take]
      omega
    have hipne : (padded m k).take ((padded m k).length - k) ≠ [] := by
      intro h
      rw [h] at hiplen
      exact absurd hiplen (by simp)
    have hipdig : ∀ c ∈ (padded m k).take ((padded m k).length - k), isDigitC c = true :=
      fun c hc => hpaddig c (List.take_subset _ _ hc)
    have hfpdig : ∀ c ∈ (padded m k).drop ((padded m k).length - k), isDigitC c = true :=
      fun c hc => hpaddig c (List.drop_subset _ _ hc)
    have hrender : renderFloat m k ++ rest
        = (if decide (m < 0) then ['-'] else []) ++
          ((padded m k).take ((padded m k).length - k) ++
            ('.' :: ((padded m k).drop ((padded m k).length - k) ++ rest))) := by
      rw [renderFloat, if_neg hk, hsign]
      simp [List.append_assoc]
    rw [hrender]
    rw [readNumber_signDigits _ _ _ hipdig hipne (by exact rfl)]
    rw [readFracPart]
    simp only [Char.reduceEq, reduceIte]
    have hfprd : readDigits ((padded m k).drop ((padded m k).length - k) ++ rest)
        = ((padded m k).drop ((padded m k).length - k), rest) :=
      readDigits_stop _ _ hfpdig hrest
    rw [hfprd]
    have hfpne : ((padded m k).drop ((padded m k).length - k)).isEmpty = false := by
      cases hfp : (padded m k).drop ((padded m k).length - k) with
      | nil => rw [hfp] at hfplen; simp at hfplen; omega
      | cons a b => rfl
    simp only [hfpne, Bool.false_eq_true, if_false]
    rw [readExpPart_none _ _ _ _ _ hrest, mkNumTok_dot]
    have hval : natOfDigits ((padded m k).take ((padded m k).length - k))
        * 10 ^ ((padded m k).drop ((padded m k).length - k)).length
        + natOfDigits ((padded m k).drop ((padded m k).length - k)) = m.natAbs := by
      have h1 := natOfDigits_append ((padded m k).take ((padded m k).length - k))
        ((padded m k).drop ((padded m k).length - k))
      rw [hipfp] at h1
      have h2 : natOfDigits (padded m k) = m.natAbs := by
        rw [show padded m k
          = List.replicate (k + 1 - (natChars m.natAbs).length) '0' ++ natChars m.natAbs
          from rfl, natOfDigits_replicate_zero, natOfDigits_natChars]
      omega
    rw [hval, hnegval _ rfl, hfplen, hnorm]


/-- Reading back a rendered integer literal yields the integer token. -/
theorem readNumber_renderInt (n : Int) (rest : List Char) (hrest : noNumExtHead rest) :
    readNumber (renderInt n ++ rest) = .ok (.int n, rest) := by
  have hdigits := natChars_digits n.natAbs
  have hne := natChars_ne_nil n.natAbs
  have hval := natOfDigits_natChars n.natAbs
  obtain ⟨d, ds, hds⟩ : ∃ d ds, natChars n.natAbs = d :: ds := by
    cases hcs : natChars n.natAbs with
    | nil => exact absurd hcs hne
    | cons d ds => exact ⟨d, ds, rfl⟩
  have hd : isDigitC d = true := hdigits d (by rw [hds]; exact List.mem_cons_self _ _)
  have hdm : ¬ d = '-' := isDigit_ne hd (by decide)
  have hrd : readDigits (natChars n.natAbs ++ rest) = (natChars n.natAbs, rest) :=
    readDigits_stop _ _ hdigits hrest
  have hnonempty : (natChars n.natAbs).isEmpty = false := by
    rw [hds]; rfl
  by_cases hn : n < 0
  · have hrender : renderInt n = '-' :: natChars n.natAbs := by
      simp [renderInt, hn]
    rw [hrender]
    show readNumber ('-' :: (natChars n.natAbs ++ rest)) = _
    rw [readNumber]
    simp only [Char.reduceEq, reduceIte, if_pos rfl, hrd, hnonempty,
      Bool.false_eq_true, if_false]
    rw [readFracPart_none _ _ _ hrest, mkNumTok_int]
    simp only [hval, reduceIte]
    have h2 : -(n.natAbs : Int) = n := by omega
    rw [h2]
  · have hrender : renderInt n = natChars n.natAbs := by
      simp [renderInt, hn]
    rw [hrender, hds]
    show readNumber (d :: (ds ++ rest)) = _
    rw [readNumber]
    simp only [if_neg hdm]
    rw [show d :: (ds ++ rest) = natChars n.natAbs ++ rest by rw [hds]; rfl, hrd]
    simp only [hnonempty, Bool.false_eq_true, if_false]
    rw [readFracPart_none _ _ _ hrest, mkNumTok_int]
    simp only [hval, Bool.false_eq_true, if_false]
    have h2 : (n.natAbs : Int) = n := by omega
    rw [h2]

/-! ### Lexing rendered tokens -/

def noIdentHead : List Char → Prop
  | [] => True
  | c :: _ => isIdentChar c = false

theorem readIdentRun_exact (ws rest : List Char) (hws : ∀ c ∈ ws, isIdentChar c = true)
    (hrest : noIdentHead rest) : readIdentRun (ws ++ rest) = (ws, rest) := by
  induction ws with
  | nil =>
    simp only [List.nil_append]
    cases rest with
    | nil => rfl
    | cons c cs =>
      simp only [noIdentHead] at hrest
      simp [readIdentRun, hrest]
  | cons c cs ih =>
    simp only [List.cons_append, readIdentRun, hws c (List.mem_cons_self _ _), if_true]
    have h2 := ih (fun x hx => hws x (List.mem_cons_of_mem _ hx))
    rw [show cs.append rest = cs ++ rest from rfl, h2]

theorem skipWs_no (c : Char) (cs : List Char) (h : isWs c = false) :
    skipWs (c :: cs) = c :: cs := by
  simp [skipWs, h]

theorem strMk_data (s : String) : String.mk s.data = s := by
  cases s
  rfl

/-- Conditions for a token to be safely re-lexable from its rendered text. -/
def tokGood : Tok → Prop
  | .ident _ => False
  | .newline => False
  | .float m k => normFloat m k = (m, k)
  | _ => True

/-- Tokens whose rendering could be extended by a following digit or letter. -/
def needsCloser : Tok → Bool
  | .int _ => true
  | .float _ _ => true
  | .tru => true
  | .fals => true
  | .null => true
  | _ => false

/-- The next token starts with a character that closes a number or keyword. -/
def headCloser : List Tok → Prop
  | [] => True
  | t :: _ => t = .comma ∨ t = .rbrace ∨ t = .rbracket ∨ t = .colon

/-- A token list whose compact rendering re-lexes unambiguously. -/
def tokOK : List Tok → Prop
  | [] => True
  | t :: rest => tokGood t ∧ (needsCloser t = true → headCloser rest) ∧ tokOK rest

theorem renderToks_cons (t : Tok) (ts : List Tok) :
    renderToks (t :: ts) = renderTok t ++ renderToks ts := by
  simp [renderToks]

/-- Rendered text of a closer-headed token list cannot extend a number or a
keyword. -/
theorem closer_heads (ts : List Tok) (h : headCloser ts) :
    noNumExtHead (renderToks ts) ∧ noIdentHead (renderToks ts) := by
  cases ts with
  | nil => exact ⟨trivial, trivial⟩
  | cons t ts' =>
    rw [renderToks_cons]
    rcases h with h | h | h | h
    · subst h
      show (isDigitC ',' = false ∧ ',' ≠ '.' ∧ ',' ≠ 'e' ∧ ',' ≠ 'E') ∧ isIdentChar ',' = false
      decide
    · subst h
      show (isDigitC '}' = false ∧ '}' ≠ '.' ∧ '}' ≠ 'e' ∧ '}' ≠ 'E') ∧ isIdentChar '}' = false
      decide
    · subst h
      show (isDigitC ']' = false ∧ ']' ≠ '.' ∧ ']' ≠ 'e' ∧ ']' ≠ 'E') ∧ isIdentChar ']' = false
      decide
    · subst h
      show (isDigitC ':' = false ∧ ':' ≠ '.' ∧ ':' ≠ 'e' ∧ ':' ≠ 'E') ∧ isIdentChar ':' = false
      decide

/-- `nextTok` on text beginning with a number literal. -/
theorem nextTok_ofNumber (o : Options) (c : Char) (r rest : List Char) (t : Tok)
    (hc : isDigitC c = true ∨ c = '-')
    (hread : readNumber (c :: r) = .ok (t, rest)) :
    nextTok o (c :: r) = .ok (.tok t rest) := by
  rcases hc with hd | hm
  · have hws : isWs c = false := by
      cases hx : isWs c with
      | false => rfl
      | true =>
        exfalso
        simp only [isWs, Bool.or_eq_true, decide_eq_true_eq] at hx
        rcases hx with (h | h) | h <;> (subst h; exact absurd hd (by decide))
    have e1 : ¬ c = '\n' := isDigit_ne hd (by decide)
    have e2 : ¬ c = '{' := isDigit_ne hd (by decide)
    have e3 : ¬ c = '}' := isDigit_ne hd (by decide)
    have e4 : ¬ c = '[' := isDigit_ne hd (by decide)
    have e5 : ¬ c = ']' := isDigit_ne hd (by decide)
    have e6 : ¬ c = ':' := isDigit_ne hd (by decide)
    have e7 : ¬ c = ',' := isDigit_ne hd (by decide)
    have e8 : ¬ c = '"' := isDigit_ne hd (by decide)
    have e9 : ¬ c = '\'' := isDigit_ne hd (by decide)
    have e10 : ¬ c = '/' := isDigit_ne hd (by decide)
    rw [nextTok, skipWs_no c r hws]
    simp only [e1, e2, e3, e4, e5, e6, e7, e8, e9, e10, if_false, hd, true_or,
      if_true, hread]
  · subst hm
    rw [nextTok, skipWs_no _ r (by decide)]
    simp only [Char.reduceEq, if_false, reduceIte, or_true, if_true, hread]

theorem renderInt_head (n : Int) :
    ∃ c r0, renderInt n = c :: r0 ∧ (isDigitC c = true ∨ c = '-') := by
  rw [renderInt]
  by_cases hn : n < 0
  · rw [if_pos hn]
    exact ⟨'-', natChars n.natAbs, rfl, Or.inr rfl⟩
  · rw [if_neg hn]
    obtain ⟨d, ds, hds⟩ : ∃ d ds, natChars n.natAbs = d :: ds := by
      cases hcs : natChars n.natAbs with
      | nil => exact absurd hcs (natChars_ne_nil _)
      | cons d ds => exact ⟨d, ds, rfl⟩
    exact ⟨d, ds, hds, Or.inl (natChars_digits _ d (by rw [hds]; exact List.mem_cons_self _ _))⟩

theorem renderFloat_head (m : Int) (k : Nat) :
    ∃ c r0, renderFloat m k = c :: r0 ∧ (isDigitC c = true ∨ c = '-') := by
  rw [renderFloat]
  by_cases hk : k = 0
  · rw [if_pos hk]
    obtain ⟨c, r0, hcr, hc⟩ := renderInt_head m
    exact ⟨c, r0 ++ ['.', '0'], by rw [hcr]; rfl, hc⟩
  · rw [if_neg hk]
    by_cases hm : m < 0
    · rw [if_pos hm]
      exact ⟨'-', _, rfl, Or.inr rfl⟩
    · rw [if_neg hm]
      have hpadlen : k + 1 ≤ (padded m k).length := by
        rw [padded]
        simp only [List.length_append, List.length_replicate]
        omega
      have hiplen : 0 < ((padded m k).take ((padded m k).length - k)).length := by
        rw [List.length_take]
        omega
      obtain ⟨d, ds, hds⟩ : ∃ d ds, (padded m k).take ((padded m k).length - k) = d :: ds := by
        cases hcs : (padded m k).take ((padded m k).length - k) with
        | nil => rw [hcs] at hiplen; exact absurd hiplen (by simp)
        | cons d ds => exact ⟨d, ds, rfl⟩
      have hd : isDigitC d = true := by
        have hmem : d ∈ padded m k := by
          apply List.take_subset
          rw [hds]
          exact List.mem_cons_self _ _
        rcases List.mem_append.mp hmem with h | h
        · rw [List.eq_of_mem_replicate h]; rfl
        · exact natChars_digits _ d h
      refine ⟨d, ds ++ '.' :: (padded m k).drop ((padded m k).length - k), ?_, Or.inl hd⟩
      rw [List.nil_append, hds]
      rfl

/-- Re-lexing the rendered text of a safe token recovers the token. -/
theorem nextTok_render (o : Options) (t : Tok) (ts : List Tok)
    (hgood : tokGood t) (hcloser : needsCloser t = true → headCloser ts) :
    nextTok o (renderTok t ++ renderToks ts) = .ok (.tok t (renderToks ts)) := by
  cases t with
  | lbrace =>
    show nextTok o ('{' :: renderToks ts) = _
    rw [nextTok, skipWs_no _ _ (by decide)]
    simp only [Char.reduceEq, reduceIte]
  | rbrace =>
    show nextTok o ('}' :: renderToks ts) = _
    rw [nextTok, skipWs_no _ _ (by decide)]
    simp only [Char.reduceEq, reduceIte]
  | lbracket =>
    show nextTok o ('[' :: renderToks ts) = _
    rw [nextTok, skipWs_no _ _ (by decide)]
    simp only [Char.reduceEq, reduceIte]
  | rbracket =>
    show nextTok o (']' :: renderToks ts) = _
    rw [nextTok, skipWs_no _ _ (by decide)]
    simp only [Char.reduceEq, reduceIte]
  | colon =>
    show nextTok o (':' :: renderToks ts) = _
    rw [nextTok, skipWs_no _ _ (by decide)]
    simp only [Char.reduceEq, reduceIte]
  | comma =>
    show nextTok o (',' :: renderToks ts) = _
    rw [nextTok, skipWs_no _ _ (by decide)]
    simp only [Char.reduceEq, reduceIte]
  | str s =>
    show nextTok o ('"' :: ((escChars s.data ++ ['"']) ++ renderToks ts))
      = Except.ok (.tok (.str s) (renderToks ts))
    rw [List.append_assoc, List.singleton_append]
    rw [nextTok, skipWs_no _ _ (by decide)]
    simp only [Char.reduceEq, reduceIte]
    rw [readString_esc]
  | int n =>
    obtain ⟨c, r0, hcr, hc⟩ := renderInt_head n
    have hnum : noNumExtHead (renderToks ts) := (closer_heads ts (hcloser rfl)).1
    have hread : readNumber (c :: (r0 ++ renderToks ts)) = .ok (.int n, renderToks ts) := by
      rw [show c :: (r0 ++ renderToks ts) = renderInt n ++ renderToks ts from by
        rw [hcr]; rfl]
      exact readNumber_renderInt n _ hnum
    rw [show renderTok (.int n) ++ renderToks ts = c :: (r0 ++ renderToks ts) from by
      show renderInt n ++ renderToks ts = _
      rw [hcr]; rfl]
    exact nextTok_ofNumber o c _ _ _ hc hread
  | float m k =>
    obtain ⟨c, r0, hcr, hc⟩ := renderFloat_head m k
    have hnum : noNumExtHead (renderToks ts) := (closer_heads ts (hcloser rfl)).1
    have hread : readNumber (c :: (r0 ++ renderToks ts)) = .ok (.float m k, renderToks ts) := by
      rw [show c :: (r0 ++ renderToks ts) = renderFloat m k ++ renderToks ts from by
        rw [hcr]; rfl]
      exact readNumber_renderFloat m k _ hgood hnum
    rw [show renderTok (.float m k) ++ renderToks ts = c :: (r0 ++ renderToks ts) from by
      show renderFloat m k ++ renderToks ts = _
      rw [hcr]; rfl]
    exact nextTok_ofNumber o c _ _ _ hc hread
  | tru =>
    have hident : noIdentHead (renderToks ts) := (closer_heads ts (hcloser rfl)).2
    show nextTok o ('t' :: ('r' :: 'u' :: 'e' :: renderToks ts)) = _
    rw [nextTok, skipWs_no _ _ (by decide)]
    simp only [Char.reduceEq, reduceIte]
    rw [show ('t' :: 'r' :: 'u' :: 'e' :: renderToks ts)
      = ['t', 'r', 'u', 'e'] ++ renderToks ts from rfl]
    rw [readIdentRun_exact _ _ (by decide) hident]
    simp only [or_false, eq_false (by decide : ¬ isDigitC 't' = true),
      eq_true (by decide : isIdentStart 't' = true),
      eq_true (by decide : String.mk ['t', 'r', 'u', 'e'] = "true"),
      if_false, if_true]
  | fals =>
    have hident : noIdentHead (renderToks ts) := (closer_heads ts (hcloser rfl)).2
    show nextTok o ('f' :: ('a' :: 'l' :: 's' :: 'e' :: renderToks ts)) = _
    rw [nextTok, skipWs_no _ _ (by decide)]
    simp only [Char.reduceEq, reduceIte]
    rw [show ('f' :: 'a' :: 'l' :: 's' :: 'e' :: renderToks ts)
      = ['f', 'a', 'l', 's', 'e'] ++ renderToks ts from rfl]
    rw [readIdentRun_exact _ _ (by decide) hident]
    simp only [or_false, eq_false (by decide : ¬ isDigitC 'f' = true),
      eq_true (by decide : isIdentStart 'f' = true),
      eq_false (by decide : ¬(String.mk ['f', 'a', 'l', 's', 'e'] = "true")),
      eq_true (by decide : String.mk ['f', 'a', 'l', 's', 'e'] = "false"),
      if_false, if_true]
  | null =>
    have hident : noIdentHead (renderToks ts) := (closer_heads ts (hcloser rfl)).2
    show nextTok o ('n' :: ('u' :: 'l' :: 'l' :: renderToks ts)) = _
    rw [nextTok, skipWs_no _ _ (by decide)]
    simp only [Char.reduceEq, reduceIte]
    rw [show ('n' :: 'u' :: 'l' :: 'l' :: renderToks ts)
      = ['n', 'u', 'l', 'l'] ++ renderToks ts from rfl]
    rw [readIdentRun_exact _ _ (by decide) hident]
    simp only [or_false, eq_false (by decide : ¬ isDigitC 'n' = true),
      eq_true (by decide : isIdentStart 'n' = true),
      eq_false (by decide : ¬(String.mk ['n', 'u', 'l', 'l'] = "true")),
      eq_false (by decide : ¬(String.mk ['n', 'u', 'l', 'l'] = "false")),
      eq_true (by decide : String.mk ['n', 'u', 'l', 'l'] = "null"),
      if_false, if_true]
  | ident s => exact False.elim hgood
  | newline => exact False.elim hgood

theorem renderTok_pos (t : Tok) (hgood : tokGood t) : 0 < (renderTok t).length := by
  cases t with
  | str s => simp [renderTok]
  | int n =>
    obtain ⟨c, r0, hcr, -⟩ := renderInt_head n
    show 0 < (renderInt n).length
    rw [hcr]
    simp
  | float m k =>
    obtain ⟨c, r0, hcr, -⟩ := renderFloat_head m k
    show 0 < (renderFloat m k).length
    rw [hcr]
    simp
  | ident s => exact False.elim hgood
  | newline => exact False.elim hgood
  | lbrace => decide
  | rbrace => decide
  | lbracket => decide
  | rbracket => decide
  | colon => decide
  | comma => decide
  | tru => decide
  | fals => decide
  | null => decide

theorem renderToks_length (ts : List Tok) (hok : tokOK ts) :
    ts.length ≤ (renderToks ts).length := by
  induction ts with
  | nil => simp [renderToks]
  | cons t ts ih =>
    rw [renderToks_cons]
    have h1 := renderTok_pos t hok.1
    have h2 := ih hok.2.2
    simp only [List.length_cons, List.length_append]
    omega

theorem tokenizeAux_render (o : Options) (ts : List Tok) (fuel : Nat)
    (hok : tokOK ts) (hfuel : ts.length < fuel) :
    tokenizeAux o fuel (renderToks ts) = .ok ts := by
  induction ts generalizing fuel with
  | nil =>
    cases fuel with
    | zero => omega
    | succ f =>
      show tokenizeAux o (f + 1) [] = .ok []
      rw [tokenizeAux]
      rfl
  | cons t ts ih =>
    cases fuel with
    | zero => simp at hfuel
    | succ f =>
      rw [renderToks_cons, tokenizeAux]
      rw [nextTok_render o t ts hok.1 hok.2.1]
      show (match tokenizeAux o f (renderToks ts) with
        | Except.ok ts2 => Except.ok (t :: ts2)
        | Except.error e => Except.error e) = Except.ok (t :: ts)
      rw [ih f hok.2.2 (by simp only [List.length_cons] at hfuel; omega)]

/-- Tokenizing the rendered text of a safe token list recovers the list,
under any Options. -/
theorem tokenize_render (o : Options) (ts : List Tok) (hok : tokOK ts) :
    tokenize o (String.mk (renderToks ts)) = .ok ts := by
  rw [tokenize]
  show tokenizeAux o ((renderToks ts).length + 1) (renderToks ts) = .ok ts
  exact tokenizeAux_render o ts _ hok (by have := renderToks_length ts hok; omega)

/-! ### Value predicates and induction -/

/-- An induction principle for `Value` giving hypotheses on every element of
a nested list. -/
theorem Value.myInduction (motive : Value → Prop)
    (hnull : motive .null) (hbool : ∀ b, motive (.bool b))
    (hint : ∀ n, motive (.int n)) (hfloat : ∀ m k, motive (.float m k))
    (hstr : ∀ s, motive (.str s))
    (harr : ∀ items, (∀ x ∈ items, motive x) → motive (.arr items))
    (hobj : ∀ ps, (∀ kv ∈ ps, motive kv.2) → motive (.obj ps)) :
    ∀ v, motive v := by
  have H : ∀ n (v : Value), sizeOf v ≤ n → motive v := by
    intro n
    induction n with
    | zero =>
      intro v hv
      exfalso
      cases v <;> simp at hv
    | succ n ih =>
      intro v hv
      cases v with
      | null => exact hnull
      | bool b => exact hbool b
      | int n2 => exact hint n2
      | float m k => exact hfloat m k
      | str s => exact hstr s
      | arr items =>
        apply harr
        intro x hx
        apply ih
        have h2 := List.sizeOf_lt_of_mem hx
        have h3 : sizeOf (Value.arr items) = 1 + sizeOf items := by simp
        omega
      | obj ps =>
        apply hobj
        intro kv hkv
        apply ih
        have h2 := List.sizeOf_lt_of_mem hkv
        have h3 : sizeOf (Value.obj ps) = 1 + sizeOf ps := by simp
        have h4 : sizeOf kv.2 < sizeOf kv := by
          obtain ⟨a, b⟩ := kv
          have h5 : sizeOf (a, b) = 1 + sizeOf a + sizeOf b := rfl
          have h6 : 0 < sizeOf a := by
            cases a
            simp
          simp only [h5]
          omega
        omega
  exact fun v => H (sizeOf v) v le_rfl

/-- The value `v` nests within depth `md` when placed at depth `d` (section
4.2: every entry into a nested Array/Object increments the counter). -/
inductive DepthOK (md : Nat) : Nat → Value → Prop where
  | null (d) : DepthOK md d .null
  | bool (d b) : DepthOK md d (.bool b)
  | int (d n) : DepthOK md d (.int n)
  | float (d m k) : DepthOK md d (.float m k)
  | str (d s) : DepthOK md d (.str s)
  | arr (d items) : d + 1 ≤ md → (∀ x ∈ items, DepthOK md (d + 1) x) →
      DepthOK md d (.arr items)
  | obj (d ps) : d + 1 ≤ md → (∀ kv ∈ ps, DepthOK md (d + 1) kv.2) →
      DepthOK md d (.obj ps)

/-- Well-formed values: every scaled decimal is in normal form (exactly the
values the parser can produce, since the tokenizer normalises literals). -/
inductive WFV : Value → Prop where
  | null : WFV .null
  | bool (b) : WFV (.bool b)
  | int (n) : WFV (.int n)
  | float (m k) : normFloat m k = (m, k) → WFV (.float m k)
  | str (s) : WFV (.str s)
  | arr (items) : (∀ x ∈ items, WFV x) → WFV (.arr items)
  | obj (ps) : (∀ kv ∈ ps, WFV kv.2) → WFV (.obj ps)

/-! ### The canonical token sequence parses back -/

def noNLHead : List Tok → Prop
  | [] => True
  | t :: _ => t ≠ Tok.newline

theorem skipNL_no (ts : List Tok) (h : noNLHead ts) : skipNL ts = (false, ts) := by
  cases ts with
  | nil => rfl
  | cons t tl => cases t <;> first | rfl | exact absurd rfl h

/-- Tokens that can begin the canonical rendering of a value. -/
def valueStart : Tok → Prop
  | .lbrace => True
  | .lbracket => True
  | .str _ => True
  | .int _ => True
  | .float _ _ => True
  | .tru => True
  | .fals => True
  | .null => True
  | _ => False

theorem tokensOfValue_head (v : Value) :
    ∃ t rest, tokensOfValue v = t :: rest ∧ valueStart t := by
  cases v with
  | null => exact ⟨.null, [], by simp [tokensOfValue], trivial⟩
  | bool b =>
    cases b with
    | true => exact ⟨.tru, [], by simp [tokensOfValue], trivial⟩
    | false => exact ⟨.fals, [], by simp [tokensOfValue], trivial⟩
  | int n => exact ⟨.int n, [], by simp [tokensOfValue], trivial⟩
  | float m k => exact ⟨.float m k, [], by simp [tokensOfValue], trivial⟩
  | str s => exact ⟨.str s, [], by simp [tokensOfValue], trivial⟩
  | arr items =>
    exact ⟨.lbracket, tokensOfElems items ++ [.rbracket], by simp [tokensOfValue], trivial⟩
  | obj ps =>
    exact ⟨.lbrace, tokensOfPairs ps ++ [.rbrace], by simp [tokensOfValue], trivial⟩

theorem tokensOfElems_cons (y : Value) (ys : List Value) :
    ∃ tl, tokensOfElems (y :: ys) = tokensOfValue y ++ tl := by
  cases ys with
  | nil => exact ⟨[], by simp [tokensOfElems]⟩
  | cons z zs => exact ⟨.comma :: tokensOfElems (z :: zs), by simp [tokensOfElems]⟩

theorem tokensOfPairs_cons (kv : String × Value) (ps : List (String × Value)) :
    ∃ tl, tokensOfPairs (kv :: ps) = .str kv.1 :: .colon :: (tokensOfValue kv.2 ++ tl) := by
  obtain ⟨k, v⟩ := kv
  cases ps with
  | nil => exact ⟨[], by simp [tokensOfPairs]⟩
  | cons p ps' => exact ⟨.comma :: tokensOfPairs (p :: ps'), by simp [tokensOfPairs]⟩

/-- Entering the element loop at a non-bracket token parses a value. -/
theorem parseElems_cons_val (o : Options) (fuel d : Nat) (t : Tok) (tl : List Tok)
    (reps : List Repair) (acc : List Value) (hv : valueStart t) (hnb : t ≠ .rbracket) :
    parseElems o (fuel + 1) d (t :: tl) reps acc =
      (match parseValue o fuel d (t :: tl) reps with
       | .error e => .error e
       | .ok (v, r1, reps1) => parseElemSep o fuel d r1 reps1 (v :: acc)) := by
  cases t <;> first | exact hv.elim | exact absurd rfl hnb | rfl

/-- After a comma in the element loop, a value-start token continues the loop. -/
theorem parseElemSep_comma_val (o : Options) (fuel d : Nat) (t : Tok) (tl : List Tok)
    (reps : List Repair) (acc : List Value) (hv : valueStart t) (hnb : t ≠ .rbracket) :
    parseElemSep o (fuel + 1) d (.comma :: (t :: tl)) reps acc =
      parseElems o fuel d (t :: tl) reps acc := by
  cases t <;> first | exact hv.elim | exact absurd rfl hnb | rfl

/-- After a colon, a value-start token is parsed as the pair's value. -/
theorem parsePairVal_colon_val (o : Options) (fuel d : Nat) (k : String) (t : Tok)
    (tl : List Tok) (reps : List Repair) (acc : List (String × Value)) (hv : valueStart t) :
    parsePairVal o (fuel + 1) d k (.colon :: (t :: tl)) reps acc =
      (match parseValue o fuel d (t :: tl) reps with
       | .error e => .error e
       | .ok (v, r2, reps2) => parsePairSep o fuel d (k, v) r2 reps2 acc) := by
  cases t <;> first | exact hv.elim | rfl

/-- The statement of parser completeness on the canonical tokens of a value. -/
def PVal (o : Options) (x : Value) : Prop :=
  ∀ (fuel d : Nat) (rest : List Tok) (reps : List Repair),
    DepthOK o.max_depth d x → 2 * (tokensOfValue x).length ≤ fuel →
    parseValue o fuel d (tokensOfValue x ++ rest) reps = .ok (x, rest, reps)

theorem P_elems (o : Options) (items : List Value)
    (IH : ∀ x ∈ items, PVal o x) :
    ∀ (fuel d : Nat) (rest : List Tok) (reps : List Repair) (acc : List Value),
      (∀ x ∈ items, DepthOK o.max_depth d x) →
      2 * (tokensOfElems items).length + 2 ≤ fuel →
      parseElems o fuel d (tokensOfElems items ++ .rbracket :: rest) reps acc
        = .ok (.arr (acc.reverse ++ items), rest, reps) := by
  induction items with
  | nil =>
    intro fuel d rest reps acc hdep hfuel
    cases fuel with
    | zero => omega
    | succ f =>
      rw [show tokensOfElems [] = [] from by simp [tokensOfElems], List.nil_append]
      show Except.ok (Value.arr acc.reverse, rest, reps) = _
      rw [List.append_nil]
  | cons x xs ih =>
    intro fuel d rest reps acc hdep hfuel
    obtain ⟨t, tr, htv, hstart⟩ := tokensOfValue_head x
    have hlenx : 1 ≤ (tokensOfValue x).length := by rw [htv]; simp
    have hnbt : t ≠ Tok.rbracket := by
      cases t <;> first | exact hstart.elim | simp
    cases xs with
    | nil =>
      have hE : tokensOfElems [x] = tokensOfValue x := by simp [tokensOfElems]
      rw [hE] at hfuel ⊢
      cases fuel with
      | zero => omega
      | succ f =>
        rw [htv, List.cons_append]
        rw [parseElems_cons_val o f d t _ reps acc hstart hnbt]
        have hx := IH x (List.mem_cons_self _ _) f d (.rbracket :: rest) reps
          (hdep x (List.mem_cons_self _ _)) (by omega)
        rw [show t :: (tr ++ Tok.rbracket :: rest)
          = tokensOfValue x ++ Tok.rbracket :: rest from by rw [htv]; rfl, hx]
        cases f with
        | zero => omega
        | succ f2 =>
          show parseElemSep o (f2 + 1) d (Tok.rbracket :: rest) reps (x :: acc) = _
          show Except.ok (Value.arr (x :: acc).reverse, rest, reps) = _
          rw [List.reverse_cons]
    | cons y ys =>
      have hE : tokensOfElems (x :: y :: ys)
          = tokensOfValue x ++ .comma :: tokensOfElems (y :: ys) := by
        simp [tokensOfElems]
      rw [hE] at hfuel ⊢
      have hfuel2 : 2 * ((tokensOfValue x).length + 1 + (tokensOfElems (y :: ys)).length) + 2
          ≤ fuel := by
        simp only [List.length_append, List.length_cons] at hfuel
        omega
      cases fuel with
      | zero => omega
      | succ f =>
        rw [List.append_assoc, List.cons_append, htv, List.cons_append]
        rw [parseElems_cons_val o f d t _ reps acc hstart hnbt]
        have hx := IH x (List.mem_cons_self _ _) f d
          (.comma :: (tokensOfElems (y :: ys) ++ .rbracket :: rest)) reps
          (hdep x (List.mem_cons_self _ _)) (by omega)
        rw [show t :: (tr ++ (Tok.comma :: (tokensOfElems (y :: ys) ++ Tok.rbracket :: rest)))
          = tokensOfValue x ++ (Tok.comma :: (tokensOfElems (y :: ys) ++ Tok.rbracket :: rest))
          from by rw [htv]; rfl, hx]
        cases f with
        | zero => omega
        | succ f2 =>
          show parseElemSep o (f2 + 1) d
            (Tok.comma :: (tokensOfElems (y :: ys) ++ Tok.rbracket :: rest)) reps (x :: acc) = _
          obtain ⟨t2, tr2, htv2, hstart2⟩ := tokensOfValue_head y
          obtain ⟨tl2, htl2⟩ := tokensOfElems_cons y ys
          have hnbt2 : t2 ≠ Tok.rbracket := by
            cases t2 <;> first | exact hstart2.elim | simp
          have hshape : tokensOfElems (y :: ys) ++ Tok.rbracket :: rest
              = t2 :: (tr2 ++ (tl2 ++ Tok.rbracket :: rest)) := by
            rw [htl2, htv2]
            simp
          rw [hshape]
          rw [parseElemSep_comma_val o f2 d t2 _ reps (x :: acc) hstart2 hnbt2]
          rw [← hshape]
          have hrec := ih (fun z hz => IH z (List.mem_cons_of_mem _ hz)) f2 d rest reps
            (x :: acc) (fun z hz => hdep z (List.mem_cons_of_mem _ hz)) (by omega)
          rw [hrec]
          rw [List.reverse_cons, List.append_assoc]
          rfl

theorem P_pairs (o : Options) (ps : List (String × Value))
    (IH : ∀ kv ∈ ps, PVal o kv.2) :
    ∀ (fuel d : Nat) (rest : List Tok) (reps : List Repair) (acc : List (String × Value)),
      (∀ kv ∈ ps, DepthOK o.max_depth d kv.2) →
      2 * (tokensOfPairs ps).length + 2 ≤ fuel →
      parsePairs o fuel d (tokensOfPairs ps ++ .rbrace :: rest) reps acc
        = .ok (.obj (acc.reverse ++ ps), rest, reps) := by
  induction ps with
  | nil =>
    intro fuel d rest reps acc hdep hfuel
    cases fuel with
    | zero => omega
    | succ f =>
      rw [show tokensOfPairs [] = [] from by simp [tokensOfPairs], List.nil_append]
      show Except.ok (Value.obj acc.reverse, rest, reps) = _
      rw [List.append_nil]
  | cons kv ps' ih =>
    obtain ⟨k, v⟩ := kv
    intro fuel d rest reps acc hdep hfuel
    obtain ⟨t, tr, htv, hstart⟩ := tokensOfValue_head v
    have hlenv : 1 ≤ (tokensOfValue v).length := by rw [htv]; simp
    cases ps' with
    | nil =>
      have hE : tokensOfPairs [(k, v)] = .str k :: .colon :: tokensOfValue v := by
        simp [tokensOfPairs]
      rw [hE] at hfuel ⊢
      have hflen : 2 * (tokensOfValue v).length + 6 ≤ fuel := by
        simp only [List.length_cons] at hfuel
        omega
      cases fuel with
      | zero => omega
      | succ f =>
        rw [show (Tok.str k :: Tok.colon :: tokensOfValue v) ++ Tok.rbrace :: rest
          = Tok.str k :: (Tok.colon :: (tokensOfValue v ++ Tok.rbrace :: rest)) from by simp]
        show parsePairVal o f d k (Tok.colon :: (tokensOfValue v ++ Tok.rbrace :: rest))
          reps acc = _
        cases f with
        | zero => omega
        | succ f2 =>
          rw [htv, List.cons_append]
          rw [parsePairVal_colon_val o f2 d k t _ reps acc hstart]
          have hx := IH (k, v) (List.mem_cons_self _ _) f2 d (.rbrace :: rest) reps
            (hdep (k, v) (List.mem_cons_self _ _))
            (by show 2 * (tokensOfValue v).length ≤ f2; omega)
          rw [show t :: (tr ++ Tok.rbrace :: rest)
            = tokensOfValue v ++ Tok.rbrace :: rest from by rw [htv]; rfl, hx]
          cases f2 with
          | zero => omega
          | succ f3 =>
            show Except.ok (Value.obj ((k, v) :: acc).reverse, rest, reps) = _
            rw [List.reverse_cons]
    | cons p ps'' =>
      have hE : tokensOfPairs ((k, v) :: p :: ps'')
          = .str k :: .colon :: (tokensOfValue v ++ .comma :: tokensOfPairs (p :: ps'')) := by
        simp [tokensOfPairs]
      rw [hE] at hfuel ⊢
      have hflen : 2 * ((tokensOfValue v).length + (tokensOfPairs (p :: ps'')).length) + 8
          ≤ fuel := by
        simp only [List.length_cons, List.length_append] at hfuel
        omega
      cases fuel with
      | zero => omega
      | succ f =>
        rw [show (Tok.str k :: Tok.colon ::
            (tokensOfValue v ++ Tok.comma :: tokensOfPairs (p :: ps''))) ++ Tok.rbrace :: rest
          = Tok.str k :: (Tok.colon :: (tokensOfValue v ++
            (Tok.comma :: (tokensOfPairs (p :: ps'') ++ Tok.rbrace :: rest)))) from by simp]
        show parsePairVal o f d k (Tok.colon :: (tokensOfValue v ++
          (Tok.comma :: (tokensOfPairs (p :: ps'') ++ Tok.rbrace :: rest)))) reps acc = _
        cases f with
        | zero => omega
        | succ f2 =>
          rw [htv, List.cons_append]
          rw [parsePairVal_colon_val o f2 d k t _ reps acc hstart]
          have hx := IH (k, v) (List.mem_cons_self _ _) f2 d
            (.comma :: (tokensOfPairs (p :: ps'') ++ Tok.rbrace :: rest)) reps
            (hdep (k, v) (List.mem_cons_self _ _))
            (by show 2 * (tokensOfValue v).length ≤ f2; omega)
          rw [show t :: (tr ++ (Tok.comma :: (tokensOfPairs (p :: ps'') ++ Tok.rbrace :: rest)))
            = tokensOfValue v ++ (Tok.comma :: (tokensOfPairs (p :: ps'') ++ Tok.rbrace :: rest))
            from by rw [htv]; rfl, hx]
          cases f2 with
          | zero => omega
          | succ f3 =>
            obtain ⟨tl2, htl2⟩ := tokensOfPairs_cons p ps''
            rw [show tokensOfPairs (p :: ps'') ++ Tok.rbrace :: rest
              = Tok.str p.1 :: (Tok.colon :: (tokensOfValue p.2 ++ (tl2 ++ Tok.rbrace :: rest)))
              from by rw [htl2]; simp]
            show parsePairs o f3 d
              (Tok.str p.1 :: (Tok.colon :: (tokensOfValue p.2 ++ (tl2 ++ Tok.rbrace :: rest))))
              reps ((k, v) :: acc) = _
            rw [show Tok.str p.1 :: (Tok.colon ::
                (tokensOfValue p.2 ++ (tl2 ++ Tok.rbrace :: rest)))
              = tokensOfPairs (p :: ps'') ++ Tok.rbrace :: rest from by rw [htl2]; simp]
            have hrec := ih (fun z hz => IH z (List.mem_cons_of_mem _ hz)) f3 d rest reps
              ((k, v) :: acc) (fun z hz => hdep z (List.mem_cons_of_mem _ hz)) (by omega)
            rw [hrec]
            rw [List.reverse_cons, List.append_assoc]
            rfl

/-- Parser completeness: the canonical token sequence of a value parses back
to that value, leaving the rest of the stream and the repair log untouched,
under any Options whose depth limit accommodates it. -/
theorem parseValue_tokensOf (o : Options) (v : Value) : PVal o v := by
  induction v using Value.myInduction with
  | hnull =>
    intro fuel d rest reps hdep hfuel
    rw [show tokensOfValue .null = [.null] from by simp [tokensOfValue]] at hfuel ⊢
    cases fuel with
    | zero => simp at hfuel
    | succ f => rfl
  | hbool b =>
    intro fuel d rest reps hdep hfuel
    cases b with
    | true =>
      rw [show tokensOfValue (.bool true) = [.tru] from by simp [tokensOfValue]] at hfuel ⊢
      cases fuel with
      | zero => simp at hfuel
      | succ f => rfl
    | false =>
      rw [show tokensOfValue (.bool false) = [.fals] from by simp [tokensOfValue]] at hfuel ⊢
      cases fuel with
      | zero => simp at hfuel
      | succ f => rfl
  | hint n =>
    intro fuel d rest reps hdep hfuel
    rw [show tokensOfValue (.int n) = [.int n] from by simp [tokensOfValue]] at hfuel ⊢
    cases fuel with
    | zero => simp at hfuel
    | succ f => rfl
  | hfloat m k =>
    intro fuel d rest reps hdep hfuel
    rw [show tokensOfValue (.float m k) = [.float m k] from by simp [tokensOfValue]] at hfuel ⊢
    cases fuel with
    | zero => simp at hfuel
    | succ f => rfl
  | hstr s =>
    intro fuel d rest reps hdep hfuel
    rw [show tokensOfValue (.str s) = [.str s] from by simp [tokensOfValue]] at hfuel ⊢
    cases fuel with
    | zero => simp at hfuel
    | succ f => rfl
  | harr items IH =>
    intro fuel d rest reps hdep hfuel
    cases hdep with
    | arr _ _ h1 h2 =>
      rw [show tokensOfValue (.arr items) = .lbracket :: (tokensOfElems items ++ [.rbracket])
        from by simp [tokensOfValue]] at hfuel ⊢
      have hflen : 2 * (tokensOfElems items).length + 4 ≤ fuel := by
        simp only [List.length_cons, List.length_append, List.length_singleton] at hfuel
        omega
      cases fuel with
      | zero => omega
      | succ f =>
        rw [show (Tok.lbracket :: (tokensOfElems items ++ [Tok.rbracket])) ++ rest
          = Tok.lbracket :: (tokensOfElems items ++ Tok.rbracket :: rest) from by simp]
        show (if o.max_depth < d + 1 then (Except.error .MaxDepthExceeded : PRes)
          else parseElems o f (d + 1) (tokensOfElems items ++ Tok.rbracket :: rest) reps []) = _
        rw [if_neg (by omega)]
        rw [P_elems o items IH f (d + 1) rest reps [] h2 (by omega)]
        rfl
  | hobj ps IH =>
    intro fuel d rest reps hdep hfuel
    cases hdep with
    | obj _ _ h1 h2 =>
      rw [show tokensOfValue (.obj ps) = .lbrace :: (tokensOfPairs ps ++ [.rbrace])
        from by simp [tokensOfValue]] at hfuel ⊢
      have hflen : 2 * (tokensOfPairs ps).length + 4 ≤ fuel := by
        simp only [List.length_cons, List.length_append, List.length_singleton] at hfuel
        omega
      cases fuel with
      | zero => omega
      | succ f =>
        rw [show (Tok.lbrace :: (tokensOfPairs ps ++ [Tok.rbrace])) ++ rest
          = Tok.lbrace :: (tokensOfPairs ps ++ Tok.rbrace :: rest) from by simp]
        show (if o.max_depth < d + 1 then (Except.error .MaxDepthExceeded : PRes)
          else parsePairs o f (d + 1) (tokensOfPairs ps ++ Tok.rbrace :: rest) reps []) = _
        rw [if_neg (by omega)]
        rw [P_pairs o ps IH f (d + 1) rest reps [] h2 (by omega)]
        rfl

/-! ### Parser soundness: produced values are well formed and depth bounded -/

/-- Every float token in the stream is in normal form (what the tokenizer
guarantees). -/
def TokNorm (ts : List Tok) : Prop :=
  ∀ m k, Tok.float m k ∈ ts → normFloat m k = (m, k)

theorem TokNorm_of_sub {ts ts' : List Tok} (hsub : ∀ x ∈ ts', x ∈ ts)
    (h : TokNorm ts) : TokNorm ts' :=
  fun m k hm => h m k (hsub _ hm)

theorem skipNL_subset (ts : List Tok) : ∀ x ∈ (skipNL ts).2, x ∈ ts := by
  induction ts with
  | nil => intro x hx; exact hx
  | cons t tl ih =>
    cases t <;>
      first
        | (intro x hx; exact hx)
        | (intro x hx
           simp only [skipNL] at hx
           exact List.mem_cons_of_mem _ (ih x hx))

theorem TokNorm_skipNL {ts : List Tok} (h : TokNorm ts) : TokNorm (skipNL ts).2 :=
  TokNorm_of_sub (skipNL_subset ts) h

theorem TokNorm_tail {t : Tok} {ts : List Tok} (h : TokNorm (t :: ts)) : TokNorm ts :=
  TokNorm_of_sub (fun _ hx => List.mem_cons_of_mem _ hx) h

def IVstmt (fuel : Nat) : Prop :=
  ∀ (o : Options) (d : Nat) (ts : List Tok) (reps : List Repair) (v : Value)
    (rest : List Tok) (reps2 : List Repair),
    TokNorm ts → parseValue o fuel d ts reps = .ok (v, rest, reps2) →
    WFV v ∧ DepthOK o.max_depth d v ∧ TokNorm rest

def IEstmt (fuel : Nat) : Prop :=
  ∀ (o : Options) (d : Nat) (ts : List Tok) (reps : List Repair) (acc : List Value)
    (v : Value) (rest : List Tok) (reps2 : List Repair),
    TokNorm ts → (∀ x ∈ acc, WFV x ∧ DepthOK o.max_depth d x) →
    parseElems o fuel d ts reps acc = .ok (v, rest, reps2) →
    (∃ items, v = .arr items ∧ ∀ x ∈ items, WFV x ∧ DepthOK o.max_depth d x) ∧ TokNorm rest

def IESstmt (fuel : Nat) : Prop :=
  ∀ (o : Options) (d : Nat) (ts : List Tok) (reps : List Repair) (acc : List Value)
    (v : Value) (rest : List Tok) (reps2 : List Repair),
    TokNorm ts → (∀ x ∈ acc, WFV x ∧ DepthOK o.max_depth d x) →
    parseElemSep o fuel d ts reps acc = .ok (v, rest, reps2) →
    (∃ items, v = .arr items ∧ ∀ x ∈ items, WFV x ∧ DepthOK o.max_depth d x) ∧ TokNorm rest

def IPstmt (fuel : Nat) : Prop :=
  ∀ (o : Options) (d : Nat) (ts : List Tok) (reps : List Repair)
    (acc : List (String × Value)) (v : Value) (rest : List Tok) (reps2 : List Repair),
    TokNorm ts → (∀ kv ∈ acc, WFV kv.2 ∧ DepthOK o.max_depth d kv.2) →
    parsePairs o fuel d ts reps acc = .ok (v, rest, reps2) →
    (∃ ps, v = .obj ps ∧ ∀ kv ∈ ps, WFV kv.2 ∧ DepthOK o.max_depth d kv.2) ∧ TokNorm rest

def IPVstmt (fuel : Nat) : Prop :=
  ∀ (o : Options) (d : Nat) (k : String) (ts : List Tok) (reps : List Repair)
    (acc : List (String × Value)) (v : Value) (rest : List Tok) (reps2 : List Repair),
    TokNorm ts → (∀ kv ∈ acc, WFV kv.2 ∧ DepthOK o.max_depth d kv.2) →
    parsePairVal o fuel d k ts reps acc = .ok (v, rest, reps2) →
    (∃ ps, v = .obj ps ∧ ∀ kv ∈ ps, WFV kv.2 ∧ DepthOK o.max_depth d kv.2) ∧ TokNorm rest

def IPSstmt (fuel : Nat) : Prop :=
  ∀ (o : Options) (d : Nat) (kv0 : String × Value) (ts : List Tok) (reps : List Repair)
    (acc : List (String × Value)) (v : Value) (rest : List Tok) (reps2 : List Repair),
    TokNorm ts → WFV kv0.2 ∧ DepthOK o.max_depth d kv0.2 →
    (∀ kv ∈ acc, WFV kv.2 ∧ DepthOK o.max_depth d kv.2) →
    parsePairSep o fuel d kv0 ts reps acc = .ok (v, rest, reps2) →
    (∃ ps, v = .obj ps ∧ ∀ kv ∈ ps, WFV kv.2 ∧ DepthOK o.max_depth d kv.2) ∧ TokNorm rest

theorem TokNorm_nil : TokNorm [] := fun m k hm => absurd hm (by simp)

/-- The joint soundness induction over the six parsing functions. -/
theorem parser_inv : ∀ fuel, IVstmt fuel ∧ IEstmt fuel ∧ IESstmt fuel ∧ IPstmt fuel ∧
    IPVstmt fuel ∧ IPSstmt fuel := by
  intro fuel
  induction fuel with
  | zero =>
    refine ⟨fun o d ts reps v rest reps2 hn h => ?_,
      fun o d ts reps acc v rest reps2 hn ha h => ?_,
      fun o d ts reps acc v rest reps2 hn ha h => ?_,
      fun o d ts reps acc v rest reps2 hn ha h => ?_,
      fun o d k ts reps acc v rest reps2 hn ha h => ?_,
      fun o d kv0 ts reps acc v rest reps2 hn hkv ha h => ?_⟩ <;>
    simp [parseValue, parseElems, parseElemSep, parsePairs, parsePairVal,
      parsePairSep] at h
  | succ f ih =>
    obtain ⟨iv, ie, ies, ip, ipv, ips⟩ := ih
    refine ⟨?_, ?_, ?_, ?_, ?_, ?_⟩
    · -- parseValue
      intro o d ts reps v rest reps2 hn h
      have hn0 : TokNorm (skipNL ts).2 := TokNorm_skipNL hn
      simp only [parseValue] at h
      split at h
      · simp at h
      · next r heq =>
        rw [heq] at hn0
        split at h
        · simp at h
        · next hdok =>
          obtain ⟨⟨ps, hv, hps⟩, hrest⟩ :=
            ip o (d + 1) r reps [] v rest reps2 (TokNorm_tail hn0) (by simp) h
          subst hv
          exact ⟨WFV.obj ps (fun kv hkv => (hps kv hkv).1),
            DepthOK.obj d ps (by omega) (fun kv hkv => (hps kv hkv).2), hrest⟩
      · next r heq =>
        rw [heq] at hn0
        split at h
        · simp at h
        · next hdok =>
          obtain ⟨⟨items, hv, hitems⟩, hrest⟩ :=
            ie o (d + 1) r reps [] v rest reps2 (TokNorm_tail hn0) (by simp) h
          subst hv
          exact ⟨WFV.arr items (fun x hx => (hitems x hx).1),
            DepthOK.arr d items (by omega) (fun x hx => (hitems x hx).2), hrest⟩
      · next s r heq =>
        rw [heq] at hn0
        simp only [Except.ok.injEq, Prod.mk.injEq] at h
        obtain ⟨h1, h2, h3⟩ := h
        subst h1
        subst h2
        exact ⟨WFV.str s, DepthOK.str d s, TokNorm_tail hn0⟩
      · next n r heq =>
        rw [heq] at hn0
        simp only [Except.ok.injEq, Prod.mk.injEq] at h
        obtain ⟨h1, h2, h3⟩ := h
        subst h1
        subst h2
        exact ⟨WFV.int n, DepthOK.int d n, TokNorm_tail hn0⟩
      · next m k r heq =>
        rw [heq] at hn0
        simp only [Except.ok.injEq, Prod.mk.injEq] at h
        obtain ⟨h1, h2, h3⟩ := h
        subst h1
        subst h2
        exact ⟨WFV.float m k (hn0 m k (List.mem_cons_self _ _)),
          DepthOK.float d m k, TokNorm_tail hn0⟩
      · next r heq =>
        rw [heq] at hn0
        simp only [Except.ok.injEq, Prod.mk.injEq] at h
        obtain ⟨h1, h2, h3⟩ := h
        subst h1
        subst h2
        exact ⟨WFV.bool true, DepthOK.bool d true, TokNorm_tail hn0⟩
      · next r heq =>
        rw [heq] at hn0
        simp only [Except.ok.injEq, Prod.mk.injEq] at h
        obtain ⟨h1, h2, h3⟩ := h
        subst h1
        subst h2
        exact ⟨WFV.bool false, DepthOK.bool d false, TokNorm_tail hn0⟩
      · next r heq =>
        rw [heq] at hn0
        simp only [Except.ok.injEq, Prod.mk.injEq] at h
        obtain ⟨h1, h2, h3⟩ := h
        subst h1
        subst h2
        exact ⟨WFV.null, DepthOK.null d, TokNorm_tail hn0⟩
      · simp at h
      · simp at h
      · simp at h
      · simp at h
      · simp at h
      · simp at h
    · -- parseElems
      intro o d ts reps acc v rest reps2 hn ha h
      have hn0 : TokNorm (skipNL ts).2 := TokNorm_skipNL hn
      simp only [parseElems] at h
      split at h
      · next r heq =>
        rw [heq] at hn0
        simp only [Except.ok.injEq, Prod.mk.injEq] at h
        obtain ⟨h1, h2, h3⟩ := h
        subst h1
        subst h2
        exact ⟨⟨acc.reverse, rfl, fun x hx => ha x (List.mem_reverse.mp hx)⟩,
          TokNorm_tail hn0⟩
      · split at h
        · simp at h
        · next v' r1 reps1 heq2 =>
          obtain ⟨hwf', hdep', hnr1⟩ := iv o d _ reps v' r1 reps1 hn0 heq2
          refine ies o d r1 reps1 (v' :: acc) v rest reps2 hnr1 ?_ h
          intro x hx
          rcases List.mem_cons.mp hx with hx1 | hx2
          · subst hx1
            exact ⟨hwf', hdep'⟩
          · exact ha x hx2
    · -- parseElemSep
      intro o d ts reps acc v rest reps2 hn ha h
      have hn0 : TokNorm (skipNL ts).2 := TokNorm_skipNL hn
      simp only [parseElemSep] at h
      split at h
      · next r heq =>
        rw [heq] at hn0
        simp only [Except.ok.injEq, Prod.mk.injEq] at h
        obtain ⟨h1, h2, h3⟩ := h
        subst h1
        subst h2
        exact ⟨⟨acc.reverse, rfl, fun x hx => ha x (List.mem_reverse.mp hx)⟩,
          TokNorm_tail hn0⟩
      · next r2 heq =>
        rw [heq] at hn0
        have hnr2 : TokNorm (skipNL r2).2 := TokNorm_skipNL (TokNorm_tail hn0)
        split at h
        · next r3 heq2 =>
          rw [heq2] at hnr2
          split at h
          · simp only [Except.ok.injEq, Prod.mk.injEq] at h
            obtain ⟨h1, h2, h3⟩ := h
            subst h1
            subst h2
            exact ⟨⟨acc.reverse, rfl, fun x hx => ha x (List.mem_reverse.mp hx)⟩,
              TokNorm_tail hnr2⟩
          · simp at h
        · exact ie o d _ reps acc v rest reps2 hnr2 ha h
      · split at h
        · simp only [Except.ok.injEq, Prod.mk.injEq] at h
          obtain ⟨h1, h2, h3⟩ := h
          subst h1
          subst h2
          exact ⟨⟨acc.reverse, rfl, fun x hx => ha x (List.mem_reverse.mp hx)⟩,
            TokNorm_nil⟩
        · simp at h
      · split at h
        · exact ie o d _ reps acc v rest reps2 hn0 ha h
        · simp at h
    · -- parsePairs
      intro o d ts reps acc v rest reps2 hn ha h
      have hn0 : TokNorm (skipNL ts).2 := TokNorm_skipNL hn
      simp only [parsePairs] at h
      split at h
      · next r heq =>
        rw [heq] at hn0
        simp only [Except.ok.injEq, Prod.mk.injEq] at h
        obtain ⟨h1, h2, h3⟩ := h
        subst h1
        subst h2
        exact ⟨⟨acc.reverse, rfl, fun kv hkv => ha kv (List.mem_reverse.mp hkv)⟩,
          TokNorm_tail hn0⟩
      · next k r heq =>
        rw [heq] at hn0
        exact ipv o d k r reps acc v rest reps2 (TokNorm_tail hn0) ha h
      · next k r heq =>
        rw [heq] at hn0
        exact ipv o d k r reps acc v rest reps2 (TokNorm_tail hn0) ha h
      · simp at h
      · simp at h
    · -- parsePairVal
      intro o d k ts reps acc v rest reps2 hn ha h
      have hn0 : TokNorm (skipNL ts).2 := TokNorm_skipNL hn
      simp only [parsePairVal] at h
      split at h
      · next r heq =>
        rw [heq] at hn0
        have hnr : TokNorm (skipNL r).2 := TokNorm_skipNL (TokNorm_tail hn0)
        split at h
        · split at h
          · split at h
            · refine ips o d (k, .null) [] _ acc v rest reps2 TokNorm_nil
                ⟨WFV.null, DepthOK.null d⟩ ha h
            · simp at h
          · simp at h
        · next s r2 heq2 =>
          rw [heq2] at hnr
          exact ips o d (k, .str s) r2 reps acc v rest reps2 (TokNorm_tail hnr)
            ⟨WFV.str s, DepthOK.str d s⟩ ha h
        · split at h
          · simp at h
          · next v' r2 reps3 heq3 =>
            obtain ⟨hwf', hdep', hnr2⟩ := iv o d _ reps v' r2 reps3 hnr heq3
            exact ips o d (k, v') r2 reps3 acc v rest reps2 hnr2 ⟨hwf', hdep'⟩ ha h
      · simp at h
    · -- parsePairSep
      intro o d kv0 ts reps acc v rest reps2 hn hkv ha h
      have hn0 : TokNorm (skipNL ts).2 := TokNorm_skipNL hn
      have hacc : ∀ kv ∈ kv0 :: acc, WFV kv.2 ∧ DepthOK o.max_depth d kv.2 := by
        intro kv hkv2
        rcases List.mem_cons.mp hkv2 with h1 | h2
        · subst h1
          exact hkv
        · exact ha kv h2
      simp only [parsePairSep] at h
      split at h
      · next r heq =>
        rw [heq] at hn0
        simp only [Except.ok.injEq, Prod.mk.injEq] at h
        obtain ⟨h1, h2, h3⟩ := h
        subst h1
        subst h2
        exact ⟨⟨(kv0 :: acc).reverse, rfl,
          fun kv hkv2 => hacc kv (List.mem_reverse.mp hkv2)⟩, TokNorm_tail hn0⟩
      · next r2 heq =>
        rw [heq] at hn0
        have hnr2 : TokNorm (skipNL r2).2 := TokNorm_skipNL (TokNorm_tail hn0)
        split at h
        · next r3 heq2 =>
          rw [heq2] at hnr2
          split at h
          · simp only [Except.ok.injEq, Prod.mk.injEq] at h
            obtain ⟨h1, h2, h3⟩ := h
            subst h1
            subst h2
            exact ⟨⟨(kv0 :: acc).reverse, rfl,
              fun kv hkv2 => hacc kv (List.mem_reverse.mp hkv2)⟩, TokNorm_tail hnr2⟩
          · simp at h
        · exact ip o d _ reps (kv0 :: acc) v rest reps2 hnr2 hacc h
      · split at h
        · simp only [Except.ok.injEq, Prod.mk.injEq] at h
          obtain ⟨h1, h2, h3⟩ := h
          subst h1
          subst h2
          exact ⟨⟨(kv0 :: acc).reverse, rfl,
            fun kv hkv2 => hacc kv (List.mem_reverse.mp hkv2)⟩, TokNorm_nil⟩
        · simp at h
      · split at h
        · exact ip o d _ reps (kv0 :: acc) v rest reps2 hn0 hacc h
        · simp at h

/-- A single token is float-normalised. -/
def floatNorm (t : Tok) : Prop :=
  ∀ m k, t = Tok.float m k → normFloat m k = (m, k)

theorem normFloat_idem (m : Int) (k : Nat) :
    normFloat (normFloat m k).1 (normFloat m k).2 = normFloat m k := by
  induction k generalizing m with
  | zero => simp [normFloat]
  | succ k ih =>
    simp only [normFloat]
    split
    · exact ih (m / 10)
    · next hne =>
      show normFloat m (k + 1) = (m, k + 1)
      simp only [normFloat, if_neg hne]

theorem mkNumTok_floatNorm (neg : Bool) (ids fds : List Char) (hd he : Bool)
    (e : Int) : floatNorm (mkNumTok neg ids fds hd he e) := by
  intro m k heq
  simp only [mkNumTok] at heq
  split at heq
  · simp only [Tok.float.injEq] at heq
    obtain ⟨h1, h2⟩ := heq
    subst h1
    subst h2
    rw [normFloat_idem]
  · simp at heq

theorem readExpPart_floatNorm {neg : Bool} {ids fds : List Char} {hd : Bool}
    {rest : List Char} {t : Tok} {r : List Char}
    (h : readExpPart neg ids fds hd rest = .ok (t, r)) : floatNorm t := by
  simp only [readExpPart] at h
  repeat' split at h
  all_goals first
    | (simp at h
       done)
    | (simp only [Except.ok.injEq, Prod.mk.injEq] at h
       obtain ⟨h1, h2⟩ := h
       subst h1
       exact mkNumTok_floatNorm _ _ _ _ _ _)

theorem readFracPart_floatNorm {neg : Bool} {ids : List Char}
    {rest : List Char} {t : Tok} {r : List Char}
    (h : readFracPart neg ids rest = .ok (t, r)) : floatNorm t := by
  simp only [readFracPart] at h
  repeat' split at h
  all_goals first
    | (simp at h
       done)
    | exact readExpPart_floatNorm h

theorem readNumber_floatNorm {cs : List Char} {t : Tok} {r : List Char}
    (h : readNumber cs = .ok (t, r)) : floatNorm t := by
  simp only [readNumber] at h
  repeat' split at h
  all_goals first
    | (simp at h
       done)
    | exact readFracPart_floatNorm h

theorem nextTok_floatNorm {o : Options} {cs : List Char} {t : Tok}
    {rest : List Char} (h : nextTok o cs = .ok (.tok t rest)) : floatNorm t := by
  simp only [nextTok] at h
  split at h
  · simp at h
  · next c r heq =>
    by_cases h1 : c = '\n'
    · rw [if_pos h1] at h
      split at h
      · simp only [Except.ok.injEq, NextRes.tok.injEq] at h
        obtain ⟨ha, hb⟩ := h
        subst ha
        exact fun m k heq2 => by simp at heq2
      · simp at h
    · rw [if_neg h1] at h
      by_cases h2 : c = '{'
      · rw [if_pos h2] at h
        simp only [Except.ok.injEq, NextRes.tok.injEq] at h
        obtain ⟨ha, hb⟩ := h
        subst ha
        exact fun m k heq2 => by simp at heq2
      · rw [if_neg h2] at h
        by_cases h3 : c = '}'
        · rw [if_pos h3] at h
          simp only [Except.ok.injEq, NextRes.tok.injEq] at h
          obtain ⟨ha, hb⟩ := h
          subst ha
          exact fun m k heq2 => by simp at heq2
        · rw [if_neg h3] at h
          by_cases h4 : c = '['
          · rw [if_pos h4] at h
            simp only [Except.ok.injEq, NextRes.tok.injEq] at h
            obtain ⟨ha, hb⟩ := h
            subst ha
            exact fun m k heq2 => by simp at heq2
          · rw [if_neg h4] at h
            by_cases h5 : c = ']'
            · rw [if_pos h5] at h
              simp only [Except.ok.injEq, NextRes.tok.injEq] at h
              obtain ⟨ha, hb⟩ := h
              subst ha
              exact fun m k heq2 => by simp at heq2
            · rw [if_neg h5] at h
              by_cases h6 : c = ':'
              · rw [if_pos h6] at h
                simp only [Except.ok.injEq, NextRes.tok.injEq] at h
                obtain ⟨ha, hb⟩ := h
                subst ha
                exact fun m k heq2 => by simp at heq2
              · rw [if_neg h6] at h
                by_cases h7 : c = ','
                · rw [if_pos h7] at h
                  simp only [Except.ok.injEq, NextRes.tok.injEq] at h
                  obtain ⟨ha, hb⟩ := h
                  subst ha
                  exact fun m k heq2 => by simp at heq2
                · rw [if_neg h7] at h
                  by_cases h8 : c = '"'
                  · rw [if_pos h8] at h
                    split at h
                    · simp only [Except.ok.injEq, NextRes.tok.injEq] at h
                      obtain ⟨ha, hb⟩ := h
                      subst ha
                      exact fun m k heq2 => by simp at heq2
                    · simp at h
                  · rw [if_neg h8] at h
                    by_cases h9 : c = '\''
                    · rw [if_pos h9] at h
                      repeat' split at h
                      all_goals first
                        | (simp at h
                           done)
                        | (simp only [Except.ok.injEq, NextRes.tok.injEq] at h
                           obtain ⟨ha, hb⟩ := h
                           subst ha
                           exact fun m k heq2 => by simp at heq2)
                    · rw [if_neg h9] at h
                      by_cases h10 : c = '/'
                      · rw [if_pos h10] at h
                        repeat' split at h
                        all_goals simp at h
                      · rw [if_neg h10] at h
                        by_cases h11 : isDigitC c = true ∨ c = '-'
                        · rw [if_pos h11] at h
                          split at h
                          · next t' rest' heq2 =>
                            simp only [Except.ok.injEq, NextRes.tok.injEq] at h
                            obtain ⟨ha, hb⟩ := h
                            subst ha
                            exact readNumber_floatNorm heq2
                          · simp at h
                        · rw [if_neg h11] at h
                          by_cases h12 : isIdentStart c = true
                          · rw [if_pos h12] at h
                            repeat' split at h
                            all_goals first
                              | (simp at h
                                 done)
                              | (simp only [Except.ok.injEq, NextRes.tok.injEq] at h
                                 obtain ⟨ha, hb⟩ := h
                                 subst ha
                                 exact fun m k heq2 => by simp at heq2)
                          · rw [if_neg h12] at h
                            simp at h

theorem tokenizeAux_TokNorm (o : Options) :
    ∀ fuel cs ts, tokenizeAux o fuel cs = .ok ts → TokNorm ts := by
  intro fuel
  induction fuel with
  | zero =>
    intro cs ts h
    simp [tokenizeAux] at h
  | succ f ih =>
    intro cs ts h
    simp only [tokenizeAux] at h
    split at h
    · simp only [Except.ok.injEq] at h
      subst h
      exact TokNorm_nil
    · next t rest heq =>
      split at h
      · next ts' heq2 =>
        simp only [Except.ok.injEq] at h
        subst h
        intro m k hm
        rcases List.mem_cons.mp hm with h1 | h2
        · exact nextTok_floatNorm heq m k h1.symm
        · exact ih rest ts' heq2 m k h2
      · simp at h
    · exact ih _ _ h
    · simp at h

theorem tokenize_TokNorm {o : Options} {s : String} {ts : List Tok}
    (h : tokenize o s = .ok ts) : TokNorm ts :=
  tokenizeAux_TokNorm o _ _ _ h

/-- The canonical token sequence of a value re-lexes cleanly in any closer
context. -/
def SVtok (v : Value) : Prop :=
  ∀ after, tokOK after → headCloser after → tokOK (tokensOfValue v ++ after)

theorem tokOK_elems (xs : List Value) (hx : ∀ x ∈ xs, SVtok x) :
    ∀ after, tokOK after → headCloser after → tokOK (tokensOfElems xs ++ after) := by
  induction xs with
  | nil =>
    intro after hok hc
    simpa [tokensOfElems] using hok
  | cons x ys ih =>
    intro after hok hc
    cases ys with
    | nil =>
      rw [show tokensOfElems [x] = tokensOfValue x from by simp [tokensOfElems]]
      exact hx x (by simp) after hok hc
    | cons y zs =>
      rw [show tokensOfElems (x :: y :: zs) =
        tokensOfValue x ++ .comma :: tokensOfElems (y :: zs) from by simp [tokensOfElems]]
      simp only [List.cons_append, List.append_assoc]
      apply hx x (by simp)
      · refine ⟨trivial, fun hcl => by simp [needsCloser] at hcl, ?_⟩
        exact ih (fun z hz => hx z (by simp [hz])) after hok hc
      · exact Or.inl rfl

theorem tokOK_pairs (ps : List (String × Value)) (hx : ∀ kv ∈ ps, SVtok kv.2) :
    ∀ after, tokOK after → headCloser after → tokOK (tokensOfPairs ps ++ after) := by
  induction ps with
  | nil =>
    intro after hok hc
    simpa [tokensOfPairs] using hok
  | cons kv qs ih =>
    obtain ⟨k, v⟩ := kv
    intro after hok hc
    cases qs with
    | nil =>
      rw [show tokensOfPairs [(k, v)] = .str k :: .colon :: tokensOfValue v from by
        simp [tokensOfPairs]]
      refine ⟨trivial, fun hcl => by simp [needsCloser] at hcl,
        trivial, fun hcl => by simp [needsCloser] at hcl, ?_⟩
      exact hx (k, v) (by simp) after hok hc
    | cons p rs =>
      rw [show tokensOfPairs ((k, v) :: p :: rs) =
        .str k :: .colon :: tokensOfValue v ++ .comma :: tokensOfPairs (p :: rs) from by
        simp [tokensOfPairs]]
      simp only [List.cons_append, List.append_assoc]
      refine ⟨trivial, fun hcl => by simp [needsCloser] at hcl,
        trivial, fun hcl => by simp [needsCloser] at hcl, ?_⟩
      apply hx (k, v) (by simp)
      · refine ⟨trivial, fun hcl => by simp [needsCloser] at hcl, ?_⟩
        exact ih (fun q hq => hx q (by simp [hq])) after hok hc
      · exact Or.inl rfl

theorem tokOK_tokensOf : ∀ v : Value, WFV v → SVtok v := by
  intro v
  induction v using Value.myInduction with
  | hnull =>
    intro _ after hok hc
    rw [show tokensOfValue .null = [.null] from by simp [tokensOfValue]]
    exact ⟨trivial, fun _ => hc, hok⟩
  | hbool b =>
    intro _ after hok hc
    cases b
    · rw [show tokensOfValue (.bool false) = [.fals] from by simp [tokensOfValue]]
      exact ⟨trivial, fun _ => hc, hok⟩
    · rw [show tokensOfValue (.bool true) = [.tru] from by simp [tokensOfValue]]
      exact ⟨trivial, fun _ => hc, hok⟩
  | hint n =>
    intro _ after hok hc
    rw [show tokensOfValue (.int n) = [.int n] from by simp [tokensOfValue]]
    exact ⟨trivial, fun _ => hc, hok⟩
  | hfloat m k =>
    intro hwf after hok hc
    rw [show tokensOfValue (.float m k) = [.float m k] from by simp [tokensOfValue]]
    refine ⟨?_, fun _ => hc, hok⟩
    cases hwf
    assumption
  | hstr s =>
    intro _ after hok hc
    rw [show tokensOfValue (.str s) = [.str s] from by simp [tokensOfValue]]
    exact ⟨trivial, fun hcl => by simp [needsCloser] at hcl, hok⟩
  | harr items ihx =>
    intro hwf after hok hc
    have hwf' : ∀ x ∈ items, WFV x := by
      cases hwf
      assumption
    rw [show tokensOfValue (.arr items) =
      .lbracket :: tokensOfElems items ++ [.rbracket] from by simp [tokensOfValue]]
    simp only [List.cons_append, List.append_assoc, List.singleton_append]
    refine ⟨trivial, fun hcl => by simp [needsCloser] at hcl, ?_⟩
    apply tokOK_elems items (fun x hxm => ihx x hxm (hwf' x hxm))
    · exact ⟨trivial, fun _ => hc, hok⟩
    · exact Or.inr (Or.inr (Or.inl rfl))
  | hobj ps ihx =>
    intro hwf after hok hc
    have hwf' : ∀ kv ∈ ps, WFV kv.2 := by
      cases hwf
      assumption
    rw [show tokensOfValue (.obj ps) =
      .lbrace :: tokensOfPairs ps ++ [.rbrace] from by simp [tokensOfValue]]
    simp only [List.cons_append, List.append_assoc, List.singleton_append]
    refine ⟨trivial, fun hcl => by simp [needsCloser] at hcl, ?_⟩
    apply tokOK_pairs ps (fun kv hkv => ihx kv hkv (hwf' kv hkv))
    · exact ⟨trivial, fun _ => hc, hok⟩
    · exact Or.inr (Or.inl rfl)

/-- The canonical token sequence of a well-formed, depth-bounded value parses
back as a whole document. -/
theorem parseDoc_tokensOf (o : Options) (v : Value) (hdep : DepthOK o.max_depth 0 v) :
    parseDoc o (tokensOfValue v) = .ok (v, []) := by
  obtain ⟨t, tl, hts, hvs⟩ := tokensOfValue_head v
  have hnl : noNLHead (tokensOfValue v) := by
    rw [hts]
    cases t <;> first | exact hvs.elim | simp [noNLHead]
  have hskip : skipNL (tokensOfValue v) = (false, tokensOfValue v) := skipNL_no _ hnl
  have hpv : parseValue o (pFuel (tokensOfValue v)) 0 (tokensOfValue v) [] =
      .ok (v, [], []) := by
    have h := parseValue_tokensOf o v (pFuel (tokensOfValue v)) 0 [] [] hdep
      (by simp only [pFuel]; omega)
    simpa using h
  rw [hts] at hskip hpv ⊢
  simp only [parseDoc, hskip, hpv]
  simp [skipNL]

/-- Serialize-then-parse is the identity on well-formed, depth-bounded
values, under every Options. -/
theorem parse_with_options_serialize (o : Options) (v : Value) (hwf : WFV v)
    (hdep : DepthOK o.max_depth 0 v) :
    parse_with_options o (serialize v) = .ok (v, []) := by
  have htokOK : tokOK (tokensOfValue v) := by
    have h := tokOK_tokensOf v hwf [] trivial trivial
    simpa using h
  have htok : tokenize o (serialize v) = .ok (tokensOfValue v) :=
    tokenize_render o (tokensOfValue v) htokOK
  simp only [parse_with_options, htok]
  exact parseDoc_tokensOf o v hdep

/-! ### Soundness of the implicit top-level parsers -/

def IImpPstmt (fuel : Nat) : Prop :=
  ∀ (o : Options) (ts : List Tok) (reps : List Repair) (acc : List (String × Value))
    (ps : List (String × Value)) (reps2 : List Repair),
    TokNorm ts → (∀ kv ∈ acc, WFV kv.2 ∧ DepthOK o.max_depth 1 kv.2) →
    parseImpPairs o fuel ts reps acc = .ok (ps, reps2) →
    ∀ kv ∈ ps, WFV kv.2 ∧ DepthOK o.max_depth 1 kv.2

def IImpPVstmt (fuel : Nat) : Prop :=
  ∀ (o : Options) (k : String) (ts : List Tok) (reps : List Repair)
    (acc : List (String × Value)) (ps : List (String × Value)) (reps2 : List Repair),
    TokNorm ts → (∀ kv ∈ acc, WFV kv.2 ∧ DepthOK o.max_depth 1 kv.2) →
    parseImpPairVal o fuel k ts reps acc = .ok (ps, reps2) →
    ∀ kv ∈ ps, WFV kv.2 ∧ DepthOK o.max_depth 1 kv.2

def IImpPSstmt (fuel : Nat) : Prop :=
  ∀ (o : Options) (kv0 : String × Value) (ts : List Tok) (reps : List Repair)
    (acc : List (String × Value)) (ps : List (String × Value)) (reps2 : List Repair),
    TokNorm ts → WFV kv0.2 ∧ DepthOK o.max_depth 1 kv0.2 →
    (∀ kv ∈ acc, WFV kv.2 ∧ DepthOK o.max_depth 1 kv.2) →
    parseImpPairSep o fuel kv0 ts reps acc = .ok (ps, reps2) →
    ∀ kv ∈ ps, WFV kv.2 ∧ DepthOK o.max_depth 1 kv.2

theorem impPairs_inv : ∀ fuel, IImpPstmt fuel ∧ IImpPVstmt fuel ∧ IImpPSstmt fuel := by
  intro fuel
  induction fuel with
  | zero =>
    refine ⟨fun o ts reps acc ps reps2 hn ha h => ?_,
      fun o k ts reps acc ps reps2 hn ha h => ?_,
      fun o kv0 ts reps acc ps reps2 hn hkv ha h => ?_⟩ <;>
    simp [parseImpPairs, parseImpPairVal, parseImpPairSep] at h
  | succ f ih =>
    obtain ⟨ipp, ippv, ipps⟩ := ih
    refine ⟨?_, ?_, ?_⟩
    · intro o ts reps acc ps reps2 hn ha h
      have hn0 : TokNorm (skipNL ts).2 := TokNorm_skipNL hn
      simp only [parseImpPairs] at h
      split at h
      · next k r heq =>
        rw [heq] at hn0
        exact ippv o k r reps acc ps reps2 (TokNorm_tail hn0) ha h
      · next k r heq =>
        rw [heq] at hn0
        exact ippv o k r reps acc ps reps2 (TokNorm_tail hn0) ha h
      · simp at h
      · simp at h
    · intro o k ts reps acc ps reps2 hn ha h
      have hn0 : TokNorm (skipNL ts).2 := TokNorm_skipNL hn
      simp only [parseImpPairVal] at h
      split at h
      · next r heq =>
        rw [heq] at hn0
        have hnr : TokNorm (skipNL r).2 := TokNorm_skipNL (TokNorm_tail hn0)
        split at h
        · split at h
          · split at h
            · exact ipps o (k, .null) [] _ acc ps reps2 TokNorm_nil
                ⟨WFV.null, DepthOK.null 1⟩ ha h
            · simp at h
          · simp at h
        · next s r2 heq2 =>
          rw [heq2] at hnr
          exact ipps o (k, .str s) r2 reps acc ps reps2 (TokNorm_tail hnr)
            ⟨WFV.str s, DepthOK.str 1 s⟩ ha h
        · split at h
          · simp at h
          · next v' r2 reps3 heq3 =>
            obtain ⟨hwf', hdep', hnr2⟩ := (parser_inv f).1 o 1 _ reps v' r2 reps3 hnr heq3
            exact ipps o (k, v') r2 reps3 acc ps reps2 hnr2 ⟨hwf', hdep'⟩ ha h
      · simp at h
    · intro o kv0 ts reps acc ps reps2 hn hkv ha h
      have hn0 : TokNorm (skipNL ts).2 := TokNorm_skipNL hn
      have hacc : ∀ kv ∈ kv0 :: acc, WFV kv.2 ∧ DepthOK o.max_depth 1 kv.2 := by
        intro kv hkv2
        rcases List.mem_cons.mp hkv2 with h1 | h2
        · subst h1
          exact hkv
        · exact ha kv h2
      simp only [parseImpPairSep] at h
      split at h
      · simp only [Except.ok.injEq, Prod.mk.injEq] at h
        obtain ⟨h1, h2⟩ := h
        subst h1
        exact fun kv hkv2 => hacc kv (List.mem_reverse.mp hkv2)
      · next r2 heq =>
        rw [heq] at hn0
        have hnr2 : TokNorm (skipNL r2).2 := TokNorm_skipNL (TokNorm_tail hn0)
        split at h
        · split at h
          · simp only [Except.ok.injEq, Prod.mk.injEq] at h
            obtain ⟨h1, h2⟩ := h
            subst h1
            exact fun kv hkv2 => hacc kv (List.mem_reverse.mp hkv2)
          · simp at h
        · exact ipp o _ reps (kv0 :: acc) ps reps2 hnr2 hacc h
      · split at h
        · exact ipp o _ reps (kv0 :: acc) ps reps2 hn0 hacc h
        · simp at h

def IImpEstmt (fuel : Nat) : Prop :=
  ∀ (o : Options) (ts : List Tok) (reps : List Repair) (acc : List Value)
    (vs : List Value) (reps2 : List Repair),
    TokNorm ts → (∀ x ∈ acc, WFV x ∧ DepthOK o.max_depth 1 x) →
    parseImpElems o fuel ts reps acc = .ok (vs, reps2) →
    ∀ x ∈ vs, WFV x ∧ DepthOK o.max_depth 1 x

def IImpESstmt (fuel : Nat) : Prop :=
  ∀ (o : Options) (ts : List Tok) (reps : List Repair) (acc : List Value)
    (vs : List Value) (reps2 : List Repair),
    TokNorm ts → (∀ x ∈ acc, WFV x ∧ DepthOK o.max_depth 1 x) →
    parseImpElemSep o fuel ts reps acc = .ok (vs, reps2) →
    ∀ x ∈ vs, WFV x ∧ DepthOK o.max_depth 1 x

theorem impElems_inv : ∀ fuel, IImpEstmt fuel ∧ IImpESstmt fuel := by
  intro fuel
  induction fuel with
  | zero =>
    refine ⟨fun o ts reps acc vs reps2 hn ha h => ?_,
      fun o ts reps acc vs reps2 hn ha h => ?_⟩ <;>
    simp [parseImpElems, parseImpElemSep] at h
  | succ f ih =>
    obtain ⟨ipe, ipes⟩ := ih
    refine ⟨?_, ?_⟩
    · intro o ts reps acc vs reps2 hn ha h
      have hn0 : TokNorm (skipNL ts).2 := TokNorm_skipNL hn
      simp only [parseImpElems] at h
      split at h
      · simp at h
      · split at h
        · simp at h
        · next v' r1 reps1 heq2 =>
          obtain ⟨hwf', hdep', hnr1⟩ := (parser_inv f).1 o 1 _ reps v' r1 reps1 hn0 heq2
          refine ipes o r1 reps1 (v' :: acc) vs reps2 hnr1 ?_ h
          intro x hx
          rcases List.mem_cons.mp hx with hx1 | hx2
          · subst hx1
            exact ⟨hwf', hdep'⟩
          · exact ha x hx2
    · intro o ts reps acc vs reps2 hn ha h
      have hn0 : TokNorm (skipNL ts).2 := TokNorm_skipNL hn
      simp only [parseImpElemSep] at h
      split at h
      · simp only [Except.ok.injEq, Prod.mk.injEq] at h
        obtain ⟨h1, h2⟩ := h
        subst h1
        exact fun x hx => ha x (List.mem_reverse.mp hx)
      · next r2 heq =>
        rw [heq] at hn0
        have hnr2 : TokNorm (skipNL r2).2 := TokNorm_skipNL (TokNorm_tail hn0)
        split at h
        · split at h
          · simp only [Except.ok.injEq, Prod.mk.injEq] at h
            obtain ⟨h1, h2⟩ := h
            subst h1
            exact fun x hx => ha x (List.mem_reverse.mp hx)
          · simp at h
        · exact ipe o _ reps acc vs reps2 hnr2 ha h
      · split at h
        · exact ipe o _ reps acc vs reps2 hn0 ha h
        · simp at h

/-- Document-level soundness: a successful `parseDoc` yields a well-formed
value within the depth limit (the limit must admit depth 1, which every
preset does). -/
theorem parseDoc_sound (o : Options) (ts : List Tok) (v : Value) (reps : List Repair)
    (hmd : 1 ≤ o.max_depth) (hn : TokNorm ts) (h : parseDoc o ts = .ok (v, reps)) :
    WFV v ∧ DepthOK o.max_depth 0 v := by
  simp only [parseDoc] at h
  split at h
  · simp at h
  · split at h
    · next v' rest' reps' heq =>
      split at h
      · simp only [Except.ok.injEq, Prod.mk.injEq] at h
        obtain ⟨h1, h2⟩ := h
        subst h1
        have hs := (parser_inv (pFuel ts)).1 o 0 ts [] v' rest' reps' hn heq
        exact ⟨hs.1, hs.2.1⟩
      · split at h
        · split at h
          · next ps reps3 heqp =>
            simp only [Except.ok.injEq, Prod.mk.injEq] at h
            obtain ⟨h1, h2⟩ := h
            subst h1
            have hm := (impPairs_inv (pFuel ts)).1 o ts [] [] ps reps3 hn (by simp) heqp
            exact ⟨WFV.obj ps (fun kv hkv => (hm kv hkv).1),
              DepthOK.obj 0 ps hmd (fun kv hkv => (hm kv hkv).2)⟩
          · split at h
            · simp at h
            · split at h
              · next vs reps3 heqe =>
                simp only [Except.ok.injEq, Prod.mk.injEq] at h
                obtain ⟨h1, h2⟩ := h
                subst h1
                have hm := (impElems_inv (pFuel ts)).1 o ts [] [] vs reps3 hn (by simp) heqe
                exact ⟨WFV.arr vs (fun x hx => (hm x hx).1),
                  DepthOK.arr 0 vs hmd (fun x hx => (hm x hx).2)⟩
              · simp at h
        · simp at h
    · split at h
      · simp at h
      · split at h
        · split at h
          · next ps reps3 heqp =>
            simp only [Except.ok.injEq, Prod.mk.injEq] at h
            obtain ⟨h1, h2⟩ := h
            subst h1
            have hm := (impPairs_inv (pFuel ts)).1 o ts [] [] ps reps3 hn (by simp) heqp
            exact ⟨WFV.obj ps (fun kv hkv => (hm kv hkv).1),
              DepthOK.obj 0 ps hmd (fun kv hkv => (hm kv hkv).2)⟩
          · split at h
            · simp at h
            · split at h
              · next vs reps3 heqe =>
                simp only [Except.ok.injEq, Prod.mk.injEq] at h
                obtain ⟨h1, h2⟩ := h
                subst h1
                have hm := (impElems_inv (pFuel ts)).1 o ts [] [] vs reps3 hn (by simp) heqe
                exact ⟨WFV.arr vs (fun x hx => (hm x hx).1),
                  DepthOK.arr 0 vs hmd (fun x hx => (hm x hx).2)⟩
              · simp at h
        · simp at h

/-- API-level soundness of `parse_with_options`. -/
theorem parse_with_options_sound (o : Options) (s : String) (v : Value)
    (reps : List Repair) (hmd : 1 ≤ o.max_depth)
    (h : parse_with_options o s = .ok (v, reps)) :
    WFV v ∧ DepthOK o.max_depth 0 v := by
  simp only [parse_with_options] at h
  split at h
  · next ts heq => exact parseDoc_sound o ts v reps hmd (tokenize_TokNorm heq) h
  · simp at h

/-- Soundness of the default-options `parse`. -/
theorem parse_sound (s : String) (v : Value) (h : parse s = .ok v) :
    WFV v ∧ DepthOK Options.default.max_depth 0 v := by
  simp only [parse] at h
  cases heq : parse_with_options Options.default s with
  | error e =>
    rw [heq] at h
    simp [Except.map] at h
  | ok p =>
    rw [heq] at h
    simp only [Except.map] at h
    obtain ⟨v', reps⟩ := p
    simp only [Except.ok.injEq] at h
    subst h
    exact parse_with_options_sound Options.default s v' reps (by decide) heq

/-! ### A family of documents of exact nesting depth -/

/-- A value nested to exactly depth `n`: `n` objects around an integer leaf. -/
def deepVal : Nat → Value
  | 0 => .int 1
  | n + 1 => .obj [("a", deepVal n)]

theorem deepVal_WFV : ∀ n, WFV (deepVal n) := by
  intro n
  induction n with
  | zero => exact WFV.int 1
  | succ m ih =>
    refine WFV.obj [("a", deepVal m)] ?_
    intro kv hkv
    simp only [List.mem_singleton] at hkv
    subst hkv
    exact ih

/-! ### The Array/Object nesting depth of a value -/

mutual

/-- The Array/Object nesting depth of a value: leaves are 0, a container is
one more than the deepest of its members. -/
def vdepth : Value → Nat
  | .null => 0
  | .bool _ => 0
  | .int _ => 0
  | .float _ _ => 0
  | .str _ => 0
  | .arr items => 1 + vdepthL items
  | .obj ps => 1 + vdepthP ps

def vdepthL : List Value → Nat
  | [] => 0
  | x :: xs => max (vdepth x) (vdepthL xs)

def vdepthP : List (String × Value) → Nat
  | [] => 0
  | (_, v) :: ps => max (vdepth v) (vdepthP ps)

end

theorem vdepthL_mem (x : Value) : ∀ items : List Value,
    x ∈ items → vdepth x ≤ vdepthL items := by
  intro items
  induction items with
  | nil =>
    intro h
    simp at h
  | cons y ys ih =>
    intro h
    rw [show vdepthL (y :: ys) = max (vdepth y) (vdepthL ys) from by simp [vdepthL]]
    rcases List.mem_cons.mp h with rfl | h2
    · exact Nat.le_max_left _ _
    · exact Nat.le_trans (ih h2) (Nat.le_max_right _ _)

theorem vdepthP_mem (kv : String × Value) : ∀ ps : List (String × Value),
    kv ∈ ps → vdepth kv.2 ≤ vdepthP ps := by
  intro ps
  induction ps with
  | nil =>
    intro h
    simp at h
  | cons q qs ih =>
    intro h
    obtain ⟨k, v⟩ := q
    rw [show vdepthP ((k, v) :: qs) = max (vdepth v) (vdepthP qs) from by simp [vdepthP]]
    rcases List.mem_cons.mp h with rfl | h2
    · exact Nat.le_max_left _ _
    · exact Nat.le_trans (ih h2) (Nat.le_max_right _ _)

/-- A value whose nesting depth fits under the limit from its start depth is
depth-admissible. -/
theorem vdepth_DepthOK (md : Nat) : ∀ v : Value, ∀ d : Nat,
    d + vdepth v ≤ md → DepthOK md d v := by
  intro v
  induction v using Value.myInduction with
  | hnull =>
    intro d _
    exact DepthOK.null d
  | hbool b =>
    intro d _
    exact DepthOK.bool d b
  | hint n =>
    intro d _
    exact DepthOK.int d n
  | hfloat m k =>
    intro d _
    exact DepthOK.float d m k
  | hstr s =>
    intro d _
    exact DepthOK.str d s
  | harr items ih =>
    intro d h
    rw [show vdepth (Value.arr items) = 1 + vdepthL items from by simp [vdepth]] at h
    refine DepthOK.arr d items (by omega) ?_
    intro x hx
    have hm := vdepthL_mem x items hx
    exact ih x hx (d + 1) (by omega)
  | hobj ps ih =>
    intro d h
    rw [show vdepth (Value.obj ps) = 1 + vdepthP ps from by simp [vdepth]] at h
    refine DepthOK.obj d ps (by omega) ?_
    intro kv hkv
    have hm := vdepthP_mem kv ps hkv
    exact ih kv hkv (d + 1) (by omega)

theorem vdepth_deepVal : ∀ n, vdepth (deepVal n) = n := by
  intro n
  induction n with
  | zero =>
    rw [show deepVal 0 = Value.int 1 from rfl]
    simp [vdepth]
  | succ m ih =>
    rw [show deepVal (m + 1) = Value.obj [("a", deepVal m)] from rfl]
    have h2 : vdepth (Value.obj [("a", deepVal m)]) = 1 + max (vdepth (deepVal m)) 0 := by
      simp [vdepth, vdepthP]
    rw [h2, ih]
    omega

/-! ### Over-deep documents always fail with MaxDepthExceeded -/

/-- The statement of the depth-failure lemma on the canonical tokens of an
over-deep value. -/
def VFail (o : Options) (x : Value) : Prop :=
  ∀ (fuel d : Nat) (rest : List Tok) (reps : List Repair),
    d ≤ o.max_depth → o.max_depth < d + vdepth x →
    2 * (tokensOfValue x).length ≤ fuel →
    parseValue o fuel d (tokensOfValue x ++ rest) reps = .error .MaxDepthExceeded

/-- Walking an element list whose deepest member overflows the limit: the
members before the first over-deep one parse successfully, and that member's
`MaxDepthExceeded` propagates out of the loop. -/
theorem P_elems_fail (o : Options) (items : List Value)
    (IHf : ∀ x ∈ items, VFail o x) :
    ∀ (fuel d : Nat) (rest : List Tok) (reps : List Repair) (acc : List Value),
      d ≤ o.max_depth → o.max_depth < d + vdepthL items →
      2 * (tokensOfElems items).length + 2 ≤ fuel →
      parseElems o fuel d (tokensOfElems items ++ rest) reps acc
        = .error .MaxDepthExceeded := by
  induction items with
  | nil =>
    intro fuel d rest reps acc hdle hdeep _
    rw [show vdepthL ([] : List Value) = 0 from by simp [vdepthL]] at hdeep
    omega
  | cons x xs ih =>
    intro fuel d rest reps acc hdle hdeep hfuel
    obtain ⟨t, tr, htv, hstart⟩ := tokensOfValue_head x
    have hlenx : 1 ≤ (tokensOfValue x).length := by
      rw [htv]
      simp
    have hnbt : t ≠ Tok.rbracket := by
      cases t <;> first | exact hstart.elim | simp
    rw [show vdepthL (x :: xs) = max (vdepth x) (vdepthL xs) from by simp [vdepthL]]
      at hdeep
    by_cases hbad : o.max_depth < d + vdepth x
    · cases xs with
      | nil =>
        have hE : tokensOfElems [x] = tokensOfValue x := by simp [tokensOfElems]
        rw [hE] at hfuel ⊢
        cases fuel with
        | zero => omega
        | succ f =>
          rw [htv, List.cons_append]
          rw [parseElems_cons_val o f d t _ reps acc hstart hnbt]
          have hx := IHf x (List.mem_cons_self _ _) f d rest reps hdle hbad (by omega)
          rw [show t :: (tr ++ rest) = tokensOfValue x ++ rest from by rw [htv]; rfl, hx]
      | cons y ys =>
        have hE : tokensOfElems (x :: y :: ys)
            = tokensOfValue x ++ .comma :: tokensOfElems (y :: ys) := by
          simp [tokensOfElems]
        rw [hE] at hfuel ⊢
        simp only [List.length_append, List.length_cons] at hfuel
        cases fuel with
        | zero => omega
        | succ f =>
          rw [List.append_assoc, List.cons_append, htv, List.cons_append]
          rw [parseElems_cons_val o f d t _ reps acc hstart hnbt]
          have hx := IHf x (List.mem_cons_self _ _) f d
            (.comma :: (tokensOfElems (y :: ys) ++ rest)) reps hdle hbad (by omega)
          rw [show t :: (tr ++ (Tok.comma :: (tokensOfElems (y :: ys) ++ rest)))
            = tokensOfValue x ++ (Tok.comma :: (tokensOfElems (y :: ys) ++ rest))
            from by rw [htv]; rfl, hx]
    · have hxle : d + vdepth x ≤ o.max_depth := by omega
      have hdeep2 : o.max_depth < d + vdepthL xs := by
        rcases Nat.le_total (vdepth x) (vdepthL xs) with hm | hm
        · rw [Nat.max_eq_right hm] at hdeep
          exact hdeep
        · rw [Nat.max_eq_left hm] at hdeep
          omega
      cases xs with
      | nil =>
        rw [show vdepthL ([] : List Value) = 0 from by simp [vdepthL]] at hdeep2
        omega
      | cons y ys =>
        have hE : tokensOfElems (x :: y :: ys)
            = tokensOfValue x ++ .comma :: tokensOfElems (y :: ys) := by
          simp [tokensOfElems]
        rw [hE] at hfuel ⊢
        simp only [List.length_append, List.length_cons] at hfuel
        cases fuel with
        | zero => omega
        | succ f =>
          rw [List.append_assoc, List.cons_append, htv, List.cons_append]
          rw [parseElems_cons_val o f d t _ reps acc hstart hnbt]
          have hx := parseValue_tokensOf o x f d
            (.comma :: (tokensOfElems (y :: ys) ++ rest)) reps
            (vdepth_DepthOK o.max_depth x d hxle) (by omega)
          rw [show t :: (tr ++ (Tok.comma :: (tokensOfElems (y :: ys) ++ rest)))
            = tokensOfValue x ++ (Tok.comma :: (tokensOfElems (y :: ys) ++ rest))
            from by rw [htv]; rfl, hx]
          cases f with
          | zero => omega
          | succ f2 =>
            show parseElemSep o (f2 + 1) d
              (Tok.comma :: (tokensOfElems (y :: ys) ++ rest)) reps (x :: acc) = _
            obtain ⟨t2, tr2, htv2, hstart2⟩ := tokensOfValue_head y
            obtain ⟨tl2, htl2⟩ := tokensOfElems_cons y ys
            have hnbt2 : t2 ≠ Tok.rbracket := by
              cases t2 <;> first | exact hstart2.elim | simp
            have hshape : tokensOfElems (y :: ys) ++ rest
                = t2 :: (tr2 ++ (tl2 ++ rest)) := by
              rw [htl2, htv2]
              simp
            rw [hshape]
            rw [parseElemSep_comma_val o f2 d t2 _ reps (x :: acc) hstart2 hnbt2]
            rw [← hshape]
            exact ih (fun z hz => IHf z (List.mem_cons_of_mem _ hz)) f2 d rest reps
              (x :: acc) hdle hdeep2 (by omega)

/-- The pair-list version of `P_elems_fail`. -/
theorem P_pairs_fail (o : Options) (ps : List (String × Value))
    (IHf : ∀ kv ∈ ps, VFail o kv.2) :
    ∀ (fuel d : Nat) (rest : List Tok) (reps : List Repair) (acc : List (String × Value)),
      d ≤ o.max_depth → o.max_depth < d + vdepthP ps →
      2 * (tokensOfPairs ps).length + 2 ≤ fuel →
      parsePairs o fuel d (tokensOfPairs ps ++ rest) reps acc
        = .error .MaxDepthExceeded := by
  induction ps with
  | nil =>
    intro fuel d rest reps acc hdle hdeep _
    rw [show vdepthP ([] : List (String × Value)) = 0 from by simp [vdepthP]] at hdeep
    omega
  | cons kv ps' ih =>
    obtain ⟨k, v⟩ := kv
    intro fuel d rest reps acc hdle hdeep hfuel
    obtain ⟨t, tr, htv, hstart⟩ := tokensOfValue_head v
    have hlenv : 1 ≤ (tokensOfValue v).length := by
      rw [htv]
      simp
    rw [show vdepthP ((k, v) :: ps') = max (vdepth v) (vdepthP ps') from by simp [vdepthP]]
      at hdeep
    by_cases hbad : o.max_depth < d + vdepth v
    · cases ps' with
      | nil =>
        have hE : tokensOfPairs [(k, v)] = .str k :: .colon :: tokensOfValue v := by
          simp [tokensOfPairs]
        rw [hE] at hfuel ⊢
        have hflen : 2 * (tokensOfValue v).length + 6 ≤ fuel := by
          simp only [List.length_cons] at hfuel
          omega
        cases fuel with
        | zero => omega
        | succ f =>
          rw [show (Tok.str k :: Tok.colon :: tokensOfValue v) ++ rest
            = Tok.str k :: (Tok.colon :: (tokensOfValue v ++ rest)) from by simp]
          show parsePairVal o f d k (Tok.colon :: (tokensOfValue v ++ rest)) reps acc = _
          cases f with
          | zero => omega
          | succ f2 =>
            rw [htv, List.cons_append]
            rw [parsePairVal_colon_val o f2 d k t _ reps acc hstart]
            have hx := IHf (k, v) (List.mem_cons_self _ _) f2 d rest reps hdle hbad
              (by show 2 * (tokensOfValue v).length ≤ f2; omega)
            rw [show t :: (tr ++ rest) = tokensOfValue v ++ rest from by rw [htv]; rfl, hx]
      | cons p ps'' =>
        have hE : tokensOfPairs ((k, v) :: p :: ps'')
            = .str k :: .colon :: (tokensOfValue v ++ .comma :: tokensOfPairs (p :: ps'')) := by
          simp [tokensOfPairs]
        rw [hE] at hfuel ⊢
        have hflen : 2 * ((tokensOfValue v).length + (tokensOfPairs (p :: ps'')).length) + 8
            ≤ fuel := by
          simp only [List.length_cons, List.length_append] at hfuel
          omega
        cases fuel with
        | zero => omega
        | succ f =>
          rw [show (Tok.str k :: Tok.colon ::
              (tokensOfValue v ++ Tok.comma :: tokensOfPairs (p :: ps''))) ++ rest
            = Tok.str k :: (Tok.colon :: (tokensOfValue v ++
              (Tok.comma :: (tokensOfPairs (p :: ps'') ++ rest)))) from by simp]
          show parsePairVal o f d k (Tok.colon :: (tokensOfValue v ++
            (Tok.comma :: (tokensOfPairs (p :: ps'') ++ rest)))) reps acc = _
          cases f with
          | zero => omega
          | succ f2 =>
            rw [htv, List.cons_append]
            rw [parsePairVal_colon_val o f2 d k t _ reps acc hstart]
            have hx := IHf (k, v) (List.mem_cons_self _ _) f2 d
              (.comma :: (tokensOfPairs (p :: ps'') ++ rest)) reps hdle hbad
              (by show 2 * (tokensOfValue v).length ≤ f2; omega)
            rw [show t :: (tr ++ (Tok.comma :: (tokensOfPairs (p :: ps'') ++ rest)))
              = tokensOfValue v ++ (Tok.comma :: (tokensOfPairs (p :: ps'') ++ rest))
              from by rw [htv]; rfl, hx]
    · have hvle : d + vdepth v ≤ o.max_depth := by omega
      have hdeep2 : o.max_depth < d + vdepthP ps' := by
        rcases Nat.le_total (vdepth v) (vdepthP ps') with hm | hm
        · rw [Nat.max_eq_right hm] at hdeep
          exact hdeep
        · rw [Nat.max_eq_left hm] at hdeep
          omega
      cases ps' with
      | nil =>
        rw [show vdepthP ([] : List (String × Value)) = 0 from by simp [vdepthP]] at hdeep2
        omega
      | cons p ps'' =>
        have hE : tokensOfPairs ((k, v) :: p :: ps'')
            = .str k :: .colon :: (tokensOfValue v ++ .comma :: tokensOfPairs (p :: ps'')) := by
          simp [tokensOfPairs]
        rw [hE] at hfuel ⊢
        have hflen : 2 * ((tokensOfValue v).length + (tokensOfPairs (p :: ps'')).length) + 8
            ≤ fuel := by
          simp only [List.length_cons, List.length_append] at hfuel
          omega
        cases fuel with
        | zero => omega
        | succ f =>
          rw [show (Tok.str k :: Tok.colon ::
              (tokensOfValue v ++ Tok.comma :: tokensOfPairs (p :: ps''))) ++ rest
            = Tok.str k :: (Tok.colon :: (tokensOfValue v ++
              (Tok.comma :: (tokensOfPairs (p :: ps'') ++ rest)))) from by simp]
          show parsePairVal o f d k (Tok.colon :: (tokensOfValue v ++
            (Tok.comma :: (tokensOfPairs (p :: ps'') ++ rest)))) reps acc = _
          cases f with
          | zero => omega
          | succ f2 =>
            rw [htv, List.cons_append]
            rw [parsePairVal_colon_val o f2 d k t _ reps acc hstart]
            have hx := parseValue_tokensOf o v f2 d
              (.comma :: (tokensOfPairs (p :: ps'') ++ rest)) reps
              (vdepth_DepthOK o.max_depth v d hvle)
              (by show 2 * (tokensOfValue v).length ≤ f2; omega)
            rw [show t :: (tr ++ (Tok.comma :: (tokensOfPairs (p :: ps'') ++ rest)))
              = tokensOfValue v ++ (Tok.comma :: (tokensOfPairs (p :: ps'') ++ rest))
              from by rw [htv]; rfl, hx]
            cases f2 with
            | zero => omega
            | succ f3 =>
              obtain ⟨tl2, htl2⟩ := tokensOfPairs_cons p ps''
              rw [show tokensOfPairs (p :: ps'') ++ rest
                = Tok.str p.1 :: (Tok.colon :: (tokensOfValue p.2 ++ (tl2 ++ rest)))
                from by rw [htl2]; simp]
              show parsePairs o f3 d
                (Tok.str p.1 :: (Tok.colon :: (tokensOfValue p.2 ++ (tl2 ++ rest))))
                reps ((k, v) :: acc) = _
              rw [show Tok.str p.1 :: (Tok.colon ::
                  (tokensOfValue p.2 ++ (tl2 ++ rest)))
                = tokensOfPairs (p :: ps'') ++ rest from by rw [htl2]; simp]
              exact ih (fun z hz => IHf z (List.mem_cons_of_mem _ hz)) f3 d rest reps
                ((k, v) :: acc) hdle hdeep2 (by omega)

/-- A value nested beyond the limit always parses to `MaxDepthExceeded`,
whatever its shape and whatever the repair setting: the parser errors the
first time it enters a container below the limit. -/
theorem parseValue_deep_fail (o : Options) : ∀ v : Value, VFail o v := by
  intro v
  induction v using Value.myInduction with
  | hnull =>
    intro fuel d rest reps hdle hdeep _
    rw [show vdepth Value.null = 0 from by simp [vdepth]] at hdeep
    omega
  | hbool b =>
    intro fuel d rest reps hdle hdeep _
    rw [show vdepth (Value.bool b) = 0 from by simp [vdepth]] at hdeep
    omega
  | hint n =>
    intro fuel d rest reps hdle hdeep _
    rw [show vdepth (Value.int n) = 0 from by simp [vdepth]] at hdeep
    omega
  | hfloat m k =>
    intro fuel d rest reps hdle hdeep _
    rw [show vdepth (Value.float m k) = 0 from by simp [vdepth]] at hdeep
    omega
  | hstr s =>
    intro fuel d rest reps hdle hdeep _
    rw [show vdepth (Value.str s) = 0 from by simp [vdepth]] at hdeep
    omega
  | harr items ih =>
    intro fuel d rest reps hdle hdeep hfuel
    rw [show vdepth (Value.arr items) = 1 + vdepthL items from by simp [vdepth]] at hdeep
    rw [show tokensOfValue (.arr items) = .lbracket :: (tokensOfElems items ++ [.rbracket])
      from by simp [tokensOfValue]] at hfuel ⊢
    have hflen : 2 * (tokensOfElems items).length + 4 ≤ fuel := by
      simp only [List.length_cons, List.length_append, List.length_singleton] at hfuel
      omega
    cases fuel with
    | zero => omega
    | succ f =>
      rw [show (Tok.lbracket :: (tokensOfElems items ++ [Tok.rbracket])) ++ rest
        = Tok.lbracket :: (tokensOfElems items ++ Tok.rbracket :: rest) from by simp]
      show (if o.max_depth < d + 1 then (Except.error .MaxDepthExceeded : PRes)
        else parseElems o f (d + 1) (tokensOfElems items ++ Tok.rbracket :: rest) reps []) = _
      by_cases hd1 : o.max_depth < d + 1
      · rw [if_pos hd1]
      · rw [if_neg hd1]
        exact P_elems_fail o items ih f (d + 1) (Tok.rbracket :: rest) reps []
          (by omega) (by omega) (by omega)
  | hobj ps ih =>
    intro fuel d rest reps hdle hdeep hfuel
    rw [show vdepth (Value.obj ps) = 1 + vdepthP ps from by simp [vdepth]] at hdeep
    rw [show tokensOfValue (.obj ps) = .lbrace :: (tokensOfPairs ps ++ [.rbrace])
      from by simp [tokensOfValue]] at hfuel ⊢
    have hflen : 2 * (tokensOfPairs ps).length + 4 ≤ fuel := by
      simp only [List.length_cons, List.length_append, List.length_singleton] at hfuel
      omega
    cases fuel with
    | zero => omega
    | succ f =>
      rw [show (Tok.lbrace :: (tokensOfPairs ps ++ [Tok.rbrace])) ++ rest
        = Tok.lbrace :: (tokensOfPairs ps ++ Tok.rbrace :: rest) from by simp]
      show (if o.max_depth < d + 1 then (Except.error .MaxDepthExceeded : PRes)
        else parsePairs o f (d + 1) (tokensOfPairs ps ++ Tok.rbrace :: rest) reps []) = _
      by_cases hd1 : o.max_depth < d + 1
      · rw [if_pos hd1]
      · rw [if_neg hd1]
        exact P_pairs_fail o ps ih f (d + 1) (Tok.rbrace :: rest) reps []
          (by omega) (by omega) (by omega)

/-- Any well-formed document nested beyond the limit fails at the API with
`MaxDepthExceeded`, for every Options: `MaxDepthExceeded` is fatal, so
neither `enable_repair` nor the implicit-top-level fallback can mask it. -/
theorem parse_with_options_deep_fail (o : Options) (v : Value) (hwf : WFV v)
    (h : o.max_depth < vdepth v) :
    parse_with_options o (serialize v) = .error .MaxDepthExceeded := by
  have htokOK : tokOK (tokensOfValue v) := by
    have h2 := tokOK_tokensOf v hwf [] trivial trivial
    simpa using h2
  have htok : tokenize o (serialize v) = .ok (tokensOfValue v) :=
    tokenize_render o (tokensOfValue v) htokOK
  obtain ⟨t, tl, hts, hvs⟩ := tokensOfValue_head v
  have hnl : noNLHead (tokensOfValue v) := by
    rw [hts]
    cases t <;> first | exact hvs.elim | simp [noNLHead]
  have hskip : skipNL (tokensOfValue v) = (false, tokensOfValue v) := skipNL_no _ hnl
  have hfail := parseValue_deep_fail o v (pFuel (tokensOfValue v)) 0 [] []
    (by omega) (by omega) (by simp only [pFuel]; omega)
  rw [List.append_nil] at hfail
  simp only [parse_with_options, htok]
  rw [hts] at hskip hfail ⊢
  simp only [parseDoc, hskip, hfail]
  rw [if_pos trivial]

/-- The implicit-object parser rejects a `{`-headed stream outright. -/
theorem impPairs_lbrace_err (o : Options) (f : Nat) (R : List Tok) :
    parseImpPairs o (f + 1) (.lbrace :: R) [] [] = .error .UnexpectedToken := rfl

/-- The implicit-array parser surfaces the inner parse error of a `{`-headed
stream. -/
theorem impElems_lbrace_err (o : Options) (f : Nat) (R : List Tok) (e : ParseError)
    (h : parseValue o f 1 (.lbrace :: R) [] = .error e) :
    parseImpElems o (f + 1) (.lbrace :: R) [] [] = .error e := by
  show (match parseValue o f 1 (.lbrace :: R) [] with
    | .error e => Except.error e
    | .ok (v, r1, reps1) => parseImpElemSep o f r1 reps1 [v]) = Except.error e
  rw [h]

/-! ### The claims -/

/-- C1: for every Value `v` that is the result of a successful `parse`,
serializing `v` and parsing the serialized text again returns a Value
structurally equal to `v` (`parse (serialize v) = .ok v`). -/
theorem C1_round_trip (s : String) (v : Value) (h : parse s = .ok v) :
    parse (serialize v) = .ok v := by
  obtain ⟨hwf, hdep⟩ := parse_sound s v h
  have h2 := parse_with_options_serialize Options.default v hwf hdep
  simp [parse, h2, Except.map]

/-- Witness for C1: the round trip at the concrete parse result of `"42"`. -/
theorem C1_round_trip_witness : parse (serialize (Value.int 42)) = .ok (.int 42) :=
  C1_round_trip "42" (.int 42) (by rfl)

/-- C3: `is_valid text` is true iff `parse text` (default Options) succeeds;
in particular it is false for the empty string, a lone brace or bracket on
either side, an object with a missing pair value, and `undefined`. -/
theorem C3_is_valid (s : String) :
    (is_valid s = true ↔ ∃ v, parse s = .ok v) ∧
    is_valid "" = false ∧ is_valid "\x7b" = false ∧ is_valid "[" = false ∧
    is_valid "\x7d" = false ∧ is_valid "]" = false ∧
    is_valid "\x7b\"key\":\x7d" = false ∧ is_valid "undefined" = false := by
  refine ⟨⟨?_, ?_⟩, rfl, rfl, rfl, rfl, rfl, rfl, rfl⟩
  · intro hv
    cases heq : parse s with
    | ok v => exact ⟨v, rfl⟩
    | error e =>
      rw [is_valid, heq] at hv
      simp at hv
  · rintro ⟨v, heq⟩
    rw [is_valid, heq]

/-- C4: for every Options value and every well-formed document, nesting
deeper than `max_depth` fails with a `MaxDepthExceeded` error — whatever
`enable_repair` and the other flags are — while a document whose nesting
stays within `max_depth` parses successfully and so never fails for depth
reasons; the implicit-top-level fallback surfaces `MaxDepthExceeded` too, as
on the over-deep implicit documents `a: [[1]]` and `"a": [[1]]` at
`max_depth := 1`. -/
theorem C4_max_depth (o : Options) (v : Value) (hwf : WFV v) :
    (o.max_depth < vdepth v →
      parse_with_options o (serialize v) = .error .MaxDepthExceeded) ∧
    (vdepth v ≤ o.max_depth →
      parse_with_options o (serialize v) = .ok (v, [])) ∧
    parse_with_options { Options.default with max_depth := 1 } "a: [[1]]" =
      .error .MaxDepthExceeded ∧
    parse_with_options { Options.default with max_depth := 1 } "\"a\": [[1]]" =
      .error .MaxDepthExceeded := by
  refine ⟨?_, ?_, by rfl, by rfl⟩
  · intro h
    exact parse_with_options_deep_fail o v hwf h
  · intro h
    exact parse_with_options_serialize o v hwf
      (vdepth_DepthOK o.max_depth v 0 (by omega))

/-- Witness for C4 at the chain documents of nesting depth 3 and 2 with the
limit set to 2: depth 3 fails with `MaxDepthExceeded` (with repair enabled)
and depth 2 succeeds. -/
theorem C4_max_depth_witness :
    parse_with_options { Options.default with max_depth := 2 } (serialize (deepVal 3)) =
      .error .MaxDepthExceeded ∧
    parse_with_options { Options.default with max_depth := 2 } (serialize (deepVal 2)) =
      .ok (deepVal 2, []) :=
  ⟨(C4_max_depth { Options.default with max_depth := 2 } (deepVal 3) (deepVal_WFV 3)).1
     (by simp [vdepth_deepVal]),
   (C4_max_depth { Options.default with max_depth := 2 } (deepVal 2) (deepVal_WFV 2)).2.1
     (by simp [vdepth_deepVal])⟩

/-- C5: the truncated input `{"broken":` parses under default (repair-enabled)
Options to the object `{"broken": null}` with the two Repairs recording the
inserted value and closing brace; with repair disabled the same input fails
with `MissingValue`. -/
theorem C5_repair :
    parse_with_options Options.default "\x7b\"broken\":" =
      .ok (.obj [("broken", .null)], [.insertedNull, .insertedRBrace]) ∧
    parse_with_options { Options.default with enable_repair := false }
      "\x7b\"broken\":" = .error .MissingValue := by
  constructor
  · rfl
  · rfl

/-- C9: the streaming `parse_lines` yields exactly one result per unit, in
source order, and each unit's result is independent of the others — in
particular a failing unit `bad` yields its own error while the units before
and after it are parsed exactly as they would be alone. -/
theorem C9_parse_lines (pre : List String) (bad : String) (post : List String) :
    (parse_lines (pre ++ bad :: post)).length = (pre ++ bad :: post).length ∧
    parse_lines (pre ++ bad :: post) =
      parse_lines pre ++ parse bad :: parse_lines post := by
  constructor
  · simp [parse_lines]
  · simp [parse_lines]

/-- C10: `loads` is the same function as `parse`: on every input the two
agree exactly (same Value or same error). -/
theorem C10_loads (s : String) : loads s = parse s := rfl

/-! ### Completeness of the implicit top-level parsers (C7) -/

theorem DepthOK_down {md : Nat} {d' d : Nat} {x : Value} (hle : d' ≤ d)
    (h : DepthOK md d x) : DepthOK md d' x := by
  induction h generalizing d' with
  | null d => exact .null d'
  | bool d b => exact .bool d' b
  | int d n => exact .int d' n
  | float d m k => exact .float d' m k
  | str d s => exact .str d' s
  | arr d items hd2 hmem ih =>
    refine .arr d' items (by omega) ?_
    intro x hx
    exact ih x hx (by omega)
  | obj d ps hd2 hmem ih =>
    refine .obj d' ps (by omega) ?_
    intro kv hkv
    exact ih kv hkv (by omega)

theorem impElems_cons_val (o : Options) (fuel : Nat) (t : Tok) (tl : List Tok)
    (reps : List Repair) (acc : List Value) (hv : valueStart t) :
    parseImpElems o (fuel + 1) (t :: tl) reps acc =
      (match parseValue o fuel 1 (t :: tl) reps with
       | .error e => .error e
       | .ok (v, r1, reps1) => parseImpElemSep o fuel r1 reps1 (v :: acc)) := by
  cases t <;> first | exact hv.elim | rfl

theorem impElemSep_end (o : Options) (fuel : Nat) (reps : List Repair)
    (acc : List Value) :
    parseImpElemSep o (fuel + 1) [] reps acc = .ok (acc.reverse, reps) := rfl

theorem impElemSep_comma_val (o : Options) (fuel : Nat) (t : Tok) (tl : List Tok)
    (reps : List Repair) (acc : List Value) (hv : valueStart t) :
    parseImpElemSep o (fuel + 1) (.comma :: (t :: tl)) reps acc =
      parseImpElems o fuel (t :: tl) reps acc := by
  cases t <;> first | exact hv.elim | rfl

theorem impPairVal_colon_val (o : Options) (fuel : Nat) (k : String) (t : Tok)
    (tl : List Tok) (reps : List Repair) (acc : List (String × Value))
    (hv : valueStart t) :
    parseImpPairVal o (fuel + 1) k (.colon :: (t :: tl)) reps acc =
      (match parseValue o fuel 1 (t :: tl) reps with
       | .error e => .error e
       | .ok (v, r2, reps2) => parseImpPairSep o fuel (k, v) r2 reps2 acc) := by
  cases t <;> first | exact hv.elim | rfl

theorem impPairSep_end (o : Options) (fuel : Nat) (kv : String × Value)
    (reps : List Repair) (acc : List (String × Value)) :
    parseImpPairSep o (fuel + 1) kv [] reps acc = .ok ((kv :: acc).reverse, reps) := rfl

theorem impPairSep_comma_str (o : Options) (fuel : Nat) (kv : String × Value)
    (k2 : String) (tl : List Tok) (reps : List Repair) (acc : List (String × Value)) :
    parseImpPairSep o (fuel + 1) kv (.comma :: (.str k2 :: tl)) reps acc =
      parseImpPairs o fuel (.str k2 :: tl) reps (kv :: acc) := rfl

/-- Completeness of the implicit array: a bare comma-separated token sequence
of values is consumed in full. -/
theorem impElems_tokensOf (o : Options) (vs : List Value) (IH : ∀ x ∈ vs, PVal o x) :
    ∀ (fuel : Nat) (reps : List Repair) (acc : List Value),
      (∀ x ∈ vs, DepthOK o.max_depth 1 x) →
      2 * (tokensOfElems vs).length + 2 ≤ fuel → vs ≠ [] →
      parseImpElems o fuel (tokensOfElems vs) reps acc = .ok (acc.reverse ++ vs, reps) := by
  induction vs with
  | nil =>
    intro fuel reps acc _ _ hne
    exact absurd rfl hne
  | cons x xs ih =>
    intro fuel reps acc hdep hfuel _
    obtain ⟨t, tr, htv, hstart⟩ := tokensOfValue_head x
    have hlenx : 1 ≤ (tokensOfValue x).length := by
      rw [htv]
      simp
    cases xs with
    | nil =>
      have hE : tokensOfElems [x] = tokensOfValue x := by simp [tokensOfElems]
      rw [hE] at hfuel ⊢
      cases fuel with
      | zero => omega
      | succ f =>
        rw [htv]
        rw [impElems_cons_val o f t tr reps acc hstart]
        have hx := IH x (List.mem_cons_self _ _) f 1 [] reps
          (hdep x (List.mem_cons_self _ _)) (by omega)
        rw [List.append_nil, htv] at hx
        rw [hx]
        cases f with
        | zero => omega
        | succ f2 =>
          show Except.ok ((x :: acc).reverse, reps) = _
          rw [List.reverse_cons]
    | cons y ys =>
      have hE : tokensOfElems (x :: y :: ys)
          = tokensOfValue x ++ .comma :: tokensOfElems (y :: ys) := by
        simp [tokensOfElems]
      rw [hE] at hfuel ⊢
      simp only [List.length_append, List.length_cons] at hfuel
      cases fuel with
      | zero => omega
      | succ f =>
        rw [htv, List.cons_append]
        rw [impElems_cons_val o f t _ reps acc hstart]
        have hx := IH x (List.mem_cons_self _ _) f 1 (.comma :: tokensOfElems (y :: ys))
          reps (hdep x (List.mem_cons_self _ _)) (by omega)
        rw [show t :: (tr ++ (Tok.comma :: tokensOfElems (y :: ys)))
          = tokensOfValue x ++ (Tok.comma :: tokensOfElems (y :: ys))
          from by rw [htv]; rfl, hx]
        cases f with
        | zero => omega
        | succ f2 =>
          show parseImpElemSep o (f2 + 1) (Tok.comma :: tokensOfElems (y :: ys)) reps
            (x :: acc) = _
          obtain ⟨t2, tr2, htv2, hstart2⟩ := tokensOfValue_head y
          obtain ⟨tl2, htl2⟩ := tokensOfElems_cons y ys
          have hshape : tokensOfElems (y :: ys) = t2 :: (tr2 ++ tl2) := by
            rw [htl2, htv2]
            simp
          rw [hshape]
          rw [impElemSep_comma_val o f2 t2 _ reps (x :: acc) hstart2]
          rw [← hshape]
          have hrec := ih (fun z hz => IH z (List.mem_cons_of_mem _ hz)) f2 reps
            (x :: acc) (fun z hz => hdep z (List.mem_cons_of_mem _ hz)) (by omega)
            (by simp)
          rw [hrec, List.reverse_cons, List.append_assoc]
          rfl

/-- Completeness of the implicit object: a bare comma-separated token
sequence of `key: value` pairs is consumed in full. -/
theorem impPairs_tokensOf (o : Options) (ps : List (String × Value))
    (IH : ∀ kv ∈ ps, PVal o kv.2) :
    ∀ (fuel : Nat) (reps : List Repair) (acc : List (String × Value)),
      (∀ kv ∈ ps, DepthOK o.max_depth 1 kv.2) →
      2 * (tokensOfPairs ps).length + 2 ≤ fuel → ps ≠ [] →
      parseImpPairs o fuel (tokensOfPairs ps) reps acc = .ok (acc.reverse ++ ps, reps) := by
  induction ps with
  | nil =>
    intro fuel reps acc _ _ hne
    exact absurd rfl hne
  | cons kv ps' ih =>
    obtain ⟨k, v⟩ := kv
    intro fuel reps acc hdep hfuel _
    obtain ⟨t, tr, htv, hstart⟩ := tokensOfValue_head v
    have hlenv : 1 ≤ (tokensOfValue v).length := by
      rw [htv]
      simp
    cases ps' with
    | nil =>
      have hE : tokensOfPairs [(k, v)] = .str k :: .colon :: tokensOfValue v := by
        simp [tokensOfPairs]
      rw [hE] at hfuel ⊢
      simp only [List.length_cons] at hfuel
      cases fuel with
      | zero => omega
      | succ f =>
        show parseImpPairVal o f k (Tok.colon :: tokensOfValue v) reps acc = _
        cases f with
        | zero => omega
        | succ f2 =>
          rw [htv]
          rw [impPairVal_colon_val o f2 k t tr reps acc hstart]
          have hx := IH (k, v) (List.mem_cons_self _ _) f2 1 [] reps
            (hdep (k, v) (List.mem_cons_self _ _))
            (by show 2 * (tokensOfValue v).length ≤ f2; omega)
          rw [List.append_nil, htv] at hx
          rw [hx]
          cases f2 with
          | zero => omega
          | succ f3 =>
            show Except.ok (((k, v) :: acc).reverse, reps) = _
            rw [List.reverse_cons]
    | cons p ps'' =>
      have hE : tokensOfPairs ((k, v) :: p :: ps'')
          = .str k :: .colon :: (tokensOfValue v ++ .comma :: tokensOfPairs (p :: ps'')) := by
        simp [tokensOfPairs]
      rw [hE] at hfuel ⊢
      simp only [List.length_cons, List.length_append] at hfuel
      cases fuel with
      | zero => omega
      | succ f =>
        show parseImpPairVal o f k
          (Tok.colon :: (tokensOfValue v ++ Tok.comma :: tokensOfPairs (p :: ps'')))
          reps acc = _
        cases f with
        | zero => omega
        | succ f2 =>
          rw [htv, List.cons_append]
          rw [impPairVal_colon_val o f2 k t _ reps acc hstart]
          have hx := IH (k, v) (List.mem_cons_self _ _) f2 1
            (.comma :: tokensOfPairs (p :: ps'')) reps
            (hdep (k, v) (List.mem_cons_self _ _))
            (by show 2 * (tokensOfValue v).length ≤ f2; omega)
          rw [show t :: (tr ++ (Tok.comma :: tokensOfPairs (p :: ps'')))
            = tokensOfValue v ++ (Tok.comma :: tokensOfPairs (p :: ps''))
            from by rw [htv]; rfl, hx]
          cases f2 with
          | zero => omega
          | succ f3 =>
            show parseImpPairSep o (f3 + 1) (k, v)
              (Tok.comma :: tokensOfPairs (p :: ps'')) reps acc = _
            obtain ⟨tl2, htl2⟩ := tokensOfPairs_cons p ps''
            rw [htl2]
            rw [impPairSep_comma_str o f3 (k, v) p.1 _ reps acc]
            rw [← htl2]
            have hrec := ih (fun z hz => IH z (List.mem_cons_of_mem _ hz)) f3 reps
              ((k, v) :: acc) (fun z hz => hdep z (List.mem_cons_of_mem _ hz)) (by omega)
              (by simp)
            rw [hrec, List.reverse_cons, List.append_assoc]
            rfl

/-! ### Trailing separators (C6) -/

theorem parsePairSep_comma_str (o : Options) (fuel d : Nat) (kv : String × Value)
    (k2 : String) (tl : List Tok) (reps : List Repair) (acc : List (String × Value)) :
    parsePairSep o (fuel + 1) d kv (.comma :: (.str k2 :: tl)) reps acc =
      parsePairs o fuel d (.str k2 :: tl) reps (kv :: acc) := rfl

/-- A nonempty element list followed by one extra comma before the closing
bracket: accepted exactly under `allow_trailing_commas`, else `MissingValue`. -/
theorem P_elems_trail (o : Options) (items : List Value) (IH : ∀ x ∈ items, PVal o x) :
    ∀ (fuel d : Nat) (rest : List Tok) (reps : List Repair) (acc : List Value),
      (∀ x ∈ items, DepthOK o.max_depth d x) →
      2 * (tokensOfElems items).length + 4 ≤ fuel → items ≠ [] →
      parseElems o fuel d (tokensOfElems items ++ .comma :: .rbracket :: rest) reps acc
        = (if o.allow_trailing_commas then .ok (.arr (acc.reverse ++ items), rest, reps)
           else .error .MissingValue) := by
  induction items with
  | nil =>
    intro fuel d rest reps acc _ _ hne
    exact absurd rfl hne
  | cons x xs ih =>
    intro fuel d rest reps acc hdep hfuel _
    obtain ⟨t, tr, htv, hstart⟩ := tokensOfValue_head x
    have hlenx : 1 ≤ (tokensOfValue x).length := by
      rw [htv]
      simp
    have hnbt : t ≠ Tok.rbracket := by
      cases t <;> first | exact hstart.elim | simp
    cases xs with
    | nil =>
      have hE : tokensOfElems [x] = tokensOfValue x := by simp [tokensOfElems]
      rw [hE] at hfuel ⊢
      cases fuel with
      | zero => omega
      | succ f =>
        rw [htv, List.cons_append]
        rw [parseElems_cons_val o f d t _ reps acc hstart hnbt]
        have hx := IH x (List.mem_cons_self _ _) f d (.comma :: .rbracket :: rest) reps
          (hdep x (List.mem_cons_self _ _)) (by omega)
        rw [show t :: (tr ++ Tok.comma :: Tok.rbracket :: rest)
          = tokensOfValue x ++ Tok.comma :: Tok.rbracket :: rest from by rw [htv]; rfl, hx]
        cases f with
        | zero => omega
        | succ f2 =>
          show (if o.allow_trailing_commas then
              Except.ok (Value.arr (x :: acc).reverse, rest, reps)
            else Except.error ParseError.MissingValue) = _
          rw [List.reverse_cons]
    | cons y ys =>
      have hE : tokensOfElems (x :: y :: ys)
          = tokensOfValue x ++ .comma :: tokensOfElems (y :: ys) := by
        simp [tokensOfElems]
      rw [hE] at hfuel ⊢
      simp only [List.length_append, List.length_cons] at hfuel
      cases fuel with
      | zero => omega
      | succ f =>
        rw [List.append_assoc, List.cons_append, htv, List.cons_append]
        rw [parseElems_cons_val o f d t _ reps acc hstart hnbt]
        have hx := IH x (List.mem_cons_self _ _) f d
          (.comma :: (tokensOfElems (y :: ys) ++ .comma :: .rbracket :: rest)) reps
          (hdep x (List.mem_cons_self _ _)) (by omega)
        rw [show t :: (tr ++ (Tok.comma :: (tokensOfElems (y :: ys) ++
            Tok.comma :: Tok.rbracket :: rest)))
          = tokensOfValue x ++ (Tok.comma :: (tokensOfElems (y :: ys) ++
            Tok.comma :: Tok.rbracket :: rest))
          from by rw [htv]; rfl, hx]
        cases f with
        | zero => omega
        | succ f2 =>
          show parseElemSep o (f2 + 1) d (Tok.comma :: (tokensOfElems (y :: ys) ++
            Tok.comma :: Tok.rbracket :: rest)) reps (x :: acc) = _
          obtain ⟨t2, tr2, htv2, hstart2⟩ := tokensOfValue_head y
          obtain ⟨tl2, htl2⟩ := tokensOfElems_cons y ys
          have hnbt2 : t2 ≠ Tok.rbracket := by
            cases t2 <;> first | exact hstart2.elim | simp
          have hshape : tokensOfElems (y :: ys) ++ Tok.comma :: Tok.rbracket :: rest
              = t2 :: (tr2 ++ (tl2 ++ Tok.comma :: Tok.rbracket :: rest)) := by
            rw [htl2, htv2]
            simp
          rw [hshape]
          rw [parseElemSep_comma_val o f2 d t2 _ reps (x :: acc) hstart2 hnbt2]
          rw [← hshape]
          have hrec := ih (fun z hz => IH z (List.mem_cons_of_mem _ hz)) f2 d rest reps
            (x :: acc) (fun z hz => hdep z (List.mem_cons_of_mem _ hz)) (by omega)
            (by simp)
          rw [hrec, List.reverse_cons, List.append_assoc]
          rfl

/-- A nonempty pair list followed by one extra comma before the closing brace:
accepted exactly under `allow_trailing_commas`, else `MissingValue`. -/
theorem P_pairs_trail (o : Options) (ps : List (String × Value))
    (IH : ∀ kv ∈ ps, PVal o kv.2) :
    ∀ (fuel d : Nat) (rest : List Tok) (reps : List Repair) (acc : List (String × Value)),
      (∀ kv ∈ ps, DepthOK o.max_depth d kv.2) →
      2 * (tokensOfPairs ps).length + 6 ≤ fuel → ps ≠ [] →
      parsePairs o fuel d (tokensOfPairs ps ++ .comma :: .rbrace :: rest) reps acc
        = (if o.allow_trailing_commas then .ok (.obj (acc.reverse ++ ps), rest, reps)
           else .error .MissingValue) := by
  induction ps with
  | nil =>
    intro fuel d rest reps acc _ _ hne
    exact absurd rfl hne
  | cons kv ps' ih =>
    obtain ⟨k, v⟩ := kv
    intro fuel d rest reps acc hdep hfuel _
    obtain ⟨t, tr, htv, hstart⟩ := tokensOfValue_head v
    have hlenv : 1 ≤ (tokensOfValue v).length := by
      rw [htv]
      simp
    cases ps' with
    | nil =>
      have hE : tokensOfPairs [(k, v)] = .str k :: .colon :: tokensOfValue v := by
        simp [tokensOfPairs]
      rw [hE] at hfuel ⊢
      simp only [List.length_cons] at hfuel
      cases fuel with
      | zero => omega
      | succ f =>
        show parsePairVal o f d k
          (Tok.colon :: (tokensOfValue v ++ Tok.comma :: Tok.rbrace :: rest)) reps acc = _
        cases f with
        | zero => omega
        | succ f2 =>
          rw [htv, List.cons_append]
          rw [parsePairVal_colon_val o f2 d k t _ reps acc hstart]
          have hx := IH (k, v) (List.mem_cons_self _ _) f2 d
            (.comma :: .rbrace :: rest) reps (hdep (k, v) (List.mem_cons_self _ _))
            (by show 2 * (tokensOfValue v).length ≤ f2; omega)
          rw [show t :: (tr ++ Tok.comma :: Tok.rbrace :: rest)
            = tokensOfValue v ++ Tok.comma :: Tok.rbrace :: rest from by rw [htv]; rfl, hx]
          cases f2 with
          | zero => omega
          | succ f3 =>
            show (if o.allow_trailing_commas then
                Except.ok (Value.obj ((k, v) :: acc).reverse, rest, reps)
              else Except.error ParseError.MissingValue) = _
            rw [List.reverse_cons]
    | cons p ps'' =>
      have hE : tokensOfPairs ((k, v) :: p :: ps'')
          = .str k :: .colon :: (tokensOfValue v ++ .comma :: tokensOfPairs (p :: ps'')) := by
        simp [tokensOfPairs]
      rw [hE] at hfuel ⊢
      simp only [List.length_cons, List.length_append] at hfuel
      cases fuel with
      | zero => omega
      | succ f =>
        show parsePairVal o f d k (Tok.colon :: ((tokensOfValue v ++
          Tok.comma :: tokensOfPairs (p :: ps'')) ++ Tok.comma :: Tok.rbrace :: rest))
          reps acc = _
        cases f with
        | zero => omega
        | succ f2 =>
          rw [List.append_assoc, List.cons_append, htv, List.cons_append]
          rw [parsePairVal_colon_val o f2 d k t _ reps acc hstart]
          have hx := IH (k, v) (List.mem_cons_self _ _) f2 d
            (.comma :: (tokensOfPairs (p :: ps'') ++ .comma :: .rbrace :: rest)) reps
            (hdep (k, v) (List.mem_cons_self _ _))
            (by show 2 * (tokensOfValue v).length ≤ f2; omega)
          rw [show t :: (tr ++ (Tok.comma :: (tokensOfPairs (p :: ps'') ++
              Tok.comma :: Tok.rbrace :: rest)))
            = tokensOfValue v ++ (Tok.comma :: (tokensOfPairs (p :: ps'') ++
              Tok.comma :: Tok.rbrace :: rest))
            from by rw [htv]; rfl, hx]
          cases f2 with
          | zero => omega
          | succ f3 =>
            show parsePairSep o (f3 + 1) d (k, v) (Tok.comma :: (tokensOfPairs (p :: ps'') ++
              Tok.comma :: Tok.rbrace :: rest)) reps acc = _
            obtain ⟨tl2, htl2⟩ := tokensOfPairs_cons p ps''
            have hshape : tokensOfPairs (p :: ps'') ++ Tok.comma :: Tok.rbrace :: rest
                = Tok.str p.1 :: (Tok.colon :: (tokensOfValue p.2 ++
                  (tl2 ++ Tok.comma :: Tok.rbrace :: rest))) := by
              rw [htl2]
              simp
            rw [hshape]
            rw [parsePairSep_comma_str o f3 d (k, v) p.1 _ reps acc]
            rw [← hshape]
            have hrec := ih (fun z hz => IH z (List.mem_cons_of_mem _ hz)) f3 d rest reps
              ((k, v) :: acc) (fun z hz => hdep z (List.mem_cons_of_mem _ hz)) (by omega)
              (by simp)
            rw [hrec, List.reverse_cons, List.append_assoc]
            rfl

theorem impPairs_lbracket_err (o : Options) (f : Nat) (R : List Tok) :
    parseImpPairs o (f + 1) (.lbracket :: R) [] [] = .error .UnexpectedToken := rfl

theorem impElems_lbracket_err (o : Options) (f : Nat) (R : List Tok) (e : ParseError)
    (h : parseValue o f 1 (.lbracket :: R) [] = .error e) :
    parseImpElems o (f + 1) (.lbracket :: R) [] [] = .error e := by
  show (match parseValue o f 1 (.lbracket :: R) [] with
    | .error e => Except.error e
    | .ok (v, r1, reps1) => parseImpElemSep o f r1 reps1 [v]) = Except.error e
  rw [h]

/-- A bare pair sequence as a document: implicit Object when enabled,
`UnexpectedToken` otherwise. -/
theorem parseDoc_impPairs (o : Options) (ps : List (String × Value)) (hps : ps ≠ [])
    (hdep : ∀ kv ∈ ps, DepthOK o.max_depth 1 kv.2) :
    parseDoc o (tokensOfPairs ps) =
      if o.implicit_top_level then .ok (.obj ps, []) else .error .UnexpectedToken := by
  obtain ⟨kv, ps', rfl⟩ : ∃ kv ps', ps = kv :: ps' := by
    cases ps with
    | nil => exact absurd rfl hps
    | cons kv ps' => exact ⟨kv, ps', rfl⟩
  obtain ⟨tl, htl⟩ := tokensOfPairs_cons kv ps'
  have hskip : skipNL (tokensOfPairs (kv :: ps')) = (false, tokensOfPairs (kv :: ps')) := by
    apply skipNL_no
    rw [htl]
    simp [noNLHead]
  have hImp := impPairs_tokensOf o (kv :: ps') (fun z _ => parseValue_tokensOf o z.2)
    (pFuel (tokensOfPairs (kv :: ps'))) [] [] hdep (by simp only [pFuel]; omega) hps
  simp only [List.reverse_nil, List.nil_append] at hImp
  obtain ⟨f, hf⟩ : ∃ f, pFuel (tokensOfPairs (kv :: ps')) = f + 1 :=
    ⟨pFuel (tokensOfPairs (kv :: ps')) - 1, by simp only [pFuel]; omega⟩
  have hprobe : parseValue o (pFuel (tokensOfPairs (kv :: ps'))) 0
      (tokensOfPairs (kv :: ps')) [] =
      .ok (.str kv.1, .colon :: (tokensOfValue kv.2 ++ tl), []) := by
    rw [hf, htl]
    rfl
  have hsk2 : skipNL (Tok.colon :: (tokensOfValue kv.2 ++ tl)) =
      (false, Tok.colon :: (tokensOfValue kv.2 ++ tl)) := by
    apply skipNL_no
    simp [noNLHead]
  simp only [parseDoc, hskip]
  rw [htl] at hprobe hImp ⊢
  simp only [hprobe, hsk2]
  by_cases himp : o.implicit_top_level = true
  · simp only [himp, if_true, List.isEmpty_cons, Bool.false_eq_true, if_false, hImp]
  · have hfalse : o.implicit_top_level = false := by
      revert himp
      cases o.implicit_top_level <;> simp
    simp only [hfalse, Bool.false_eq_true, if_false, List.isEmpty_cons]

/-- The implicit-object parser rejects a bare value followed by a comma, with
an error that is never `MaxDepthExceeded`. -/
theorem impPairs_err_head (o : Options) (fuel : Nat) (x : Value) (E : List Tok) :
    ∃ e, parseImpPairs o fuel (tokensOfValue x ++ .comma :: E) [] [] = .error e ∧
      e ≠ ParseError.MaxDepthExceeded := by
  cases fuel with
  | zero => exact ⟨.UnexpectedToken, rfl, by decide⟩
  | succ f =>
    cases x with
    | null =>
      rw [show tokensOfValue .null = [.null] from by simp [tokensOfValue]]
      exact ⟨.UnexpectedToken, rfl, by decide⟩
    | bool b =>
      cases b
      · rw [show tokensOfValue (.bool false) = [.fals] from by simp [tokensOfValue]]
        exact ⟨.UnexpectedToken, rfl, by decide⟩
      · rw [show tokensOfValue (.bool true) = [.tru] from by simp [tokensOfValue]]
        exact ⟨.UnexpectedToken, rfl, by decide⟩
    | int n =>
      rw [show tokensOfValue (.int n) = [.int n] from by simp [tokensOfValue]]
      exact ⟨.UnexpectedToken, rfl, by decide⟩
    | float m k =>
      rw [show tokensOfValue (.float m k) = [.float m k] from by simp [tokensOfValue]]
      exact ⟨.UnexpectedToken, rfl, by decide⟩
    | arr items =>
      rw [show tokensOfValue (.arr items)
        = .lbracket :: tokensOfElems items ++ [.rbracket] from by simp [tokensOfValue]]
      exact ⟨.UnexpectedToken, rfl, by decide⟩
    | obj ps2 =>
      rw [show tokensOfValue (.obj ps2)
        = .lbrace :: tokensOfPairs ps2 ++ [.rbrace] from by simp [tokensOfValue]]
      exact ⟨.UnexpectedToken, rfl, by decide⟩
    | str s =>
      rw [show tokensOfValue (.str s) = [.str s] from by simp [tokensOfValue]]
      cases f with
      | zero => exact ⟨.UnexpectedToken, rfl, by decide⟩
      | succ f2 => exact ⟨.MissingSeparator, rfl, by decide⟩

/-- A bare sequence of at least two values as a document: implicit Array when
enabled, `UnexpectedToken` otherwise. -/
theorem parseDoc_impElems (o : Options) (x y : Value) (ys : List Value)
    (hdep : ∀ z ∈ x :: y :: ys, DepthOK o.max_depth 1 z) :
    parseDoc o (tokensOfElems (x :: y :: ys)) =
      if o.implicit_top_level then .ok (.arr (x :: y :: ys), [])
      else .error .UnexpectedToken := by
  have hE : tokensOfElems (x :: y :: ys)
      = tokensOfValue x ++ .comma :: tokensOfElems (y :: ys) := by
    simp [tokensOfElems]
  obtain ⟨t, tr, htv, hstart⟩ := tokensOfValue_head x
  have hskip : skipNL (tokensOfElems (x :: y :: ys)) =
      (false, tokensOfElems (x :: y :: ys)) := by
    apply skipNL_no
    rw [hE, htv, List.cons_append]
    cases t <;> first | exact hstart.elim | simp [noNLHead]
  have hprobe := parseValue_tokensOf o x (pFuel (tokensOfElems (x :: y :: ys))) 0
    (.comma :: tokensOfElems (y :: ys)) []
    (DepthOK_down (by omega) (hdep x (List.mem_cons_self _ _)))
    (by simp only [pFuel, hE, List.length_append, List.length_cons]; omega)
  have hImp := impElems_tokensOf o (x :: y :: ys) (fun z _ => parseValue_tokensOf o z)
    (pFuel (tokensOfElems (x :: y :: ys))) [] [] hdep (by simp only [pFuel]; omega)
    (by simp)
  simp only [List.reverse_nil, List.nil_append] at hImp
  have hsk2 : skipNL (Tok.comma :: tokensOfElems (y :: ys)) =
      (false, Tok.comma :: tokensOfElems (y :: ys)) := by
    apply skipNL_no
    simp [noNLHead]
  obtain ⟨e, hImpP, hne⟩ := impPairs_err_head o (pFuel (tokensOfElems (x :: y :: ys))) x
    (tokensOfElems (y :: ys))
  simp only [parseDoc, hskip]
  rw [hE] at hprobe hImp hImpP ⊢
  rw [htv] at hprobe hImp hImpP ⊢
  rw [List.cons_append] at hprobe hImp hImpP ⊢
  simp only [hprobe, hsk2]
  by_cases himp : o.implicit_top_level = true
  · simp only [himp, if_true, List.isEmpty_cons, Bool.false_eq_true, if_false, hImpP]
    rw [if_neg hne]
    simp only [hImp]
  · have hfalse : o.implicit_top_level = false := by
      revert himp
      cases o.implicit_top_level <;> simp
    simp only [hfalse, Bool.false_eq_true, if_false, List.isEmpty_cons]

/-- C7: with `implicit_top_level` on, a bare comma-separated pair sequence
parses to the corresponding Object and a bare sequence of two or more values
to the corresponding Array; with it off both inputs fail with a ParseError —
as on `key: "value", number: 42` and `1, 2, 3`. -/
theorem C7_implicit_top_level (o : Options) (ps : List (String × Value))
    (x y : Value) (ys : List Value)
    (hps : ps ≠ []) (hpwf : ∀ kv ∈ ps, WFV kv.2)
    (hpdep : ∀ kv ∈ ps, DepthOK o.max_depth 1 kv.2)
    (hvwf : ∀ z ∈ x :: y :: ys, WFV z)
    (hvdep : ∀ z ∈ x :: y :: ys, DepthOK o.max_depth 1 z) :
    ((o.implicit_top_level = true →
      parse_with_options o (String.mk (renderToks (tokensOfPairs ps))) =
        .ok (.obj ps, []) ∧
      parse_with_options o (String.mk (renderToks (tokensOfElems (x :: y :: ys)))) =
        .ok (.arr (x :: y :: ys), [])) ∧
    (o.implicit_top_level = false →
      parse_with_options o (String.mk (renderToks (tokensOfPairs ps))) =
        .error .UnexpectedToken ∧
      parse_with_options o (String.mk (renderToks (tokensOfElems (x :: y :: ys)))) =
        .error .UnexpectedToken)) ∧
    parse "key: \"value\", number: 42" =
      .ok (.obj [("key", .str "value"), ("number", .int 42)]) ∧
    parse "1, 2, 3" = .ok (.arr [.int 1, .int 2, .int 3]) ∧
    parse_with_options { Options.default with implicit_top_level := false }
      "key: \"value\", number: 42" = .error .UnexpectedToken ∧
    parse_with_options { Options.default with implicit_top_level := false }
      "1, 2, 3" = .error .UnexpectedToken := by
  have htokP : tokenize o (String.mk (renderToks (tokensOfPairs ps))) =
      .ok (tokensOfPairs ps) := by
    apply tokenize_render
    have h := tokOK_pairs ps (fun kv hkv => tokOK_tokensOf kv.2 (hpwf kv hkv)) []
      trivial trivial
    simpa using h
  have htokE : tokenize o (String.mk (renderToks (tokensOfElems (x :: y :: ys)))) =
      .ok (tokensOfElems (x :: y :: ys)) := by
    apply tokenize_render
    have h := tokOK_elems (x :: y :: ys) (fun z hz => tokOK_tokensOf z (hvwf z hz)) []
      trivial trivial
    simpa using h
  refine ⟨⟨?_, ?_⟩, by rfl, by rfl, by rfl, by rfl⟩
  · intro himp
    constructor
    · simp only [parse_with_options, htokP]
      rw [parseDoc_impPairs o ps hps hpdep, if_pos himp]
    · simp only [parse_with_options, htokE]
      rw [parseDoc_impElems o x y ys hvdep, if_pos himp]
  · intro himp
    constructor
    · simp only [parse_with_options, htokP]
      rw [parseDoc_impPairs o ps hps hpdep, if_neg (by simp [himp])]
    · simp only [parse_with_options, htokE]
      rw [parseDoc_impElems o x y ys hvdep, if_neg (by simp [himp])]

/-- Witness for C7: a one-pair implicit object and a two-value implicit array
under default Options. -/
theorem C7_implicit_top_level_witness :
    parse_with_options Options.default
      (String.mk (renderToks (tokensOfPairs [("a", Value.int 1)]))) =
      .ok (.obj [("a", Value.int 1)], []) ∧
    parse_with_options Options.default
      (String.mk (renderToks (tokensOfElems [Value.int 1, Value.int 2]))) =
      .ok (.arr [Value.int 1, Value.int 2], []) :=
  (C7_implicit_top_level Options.default [("a", .int 1)] (.int 1) (.int 2) []
    (by simp)
    (fun kv hkv => by
      simp only [List.mem_singleton] at hkv
      subst hkv
      exact WFV.int 1)
    (fun kv hkv => by
      simp only [List.mem_singleton] at hkv
      subst hkv
      exact DepthOK.int 1 1)
    (fun z hz => by
      rcases List.mem_cons.mp hz with rfl | hz2
      · exact WFV.int 1
      · rcases List.mem_cons.mp hz2 with rfl | hz3
        · exact WFV.int 2
        · exact absurd hz3 (by simp))
    (fun z hz => by
      rcases List.mem_cons.mp hz with rfl | hz2
      · exact DepthOK.int 1 1
      · rcases List.mem_cons.mp hz2 with rfl | hz3
        · exact DepthOK.int 1 2
        · exact absurd hz3 (by simp))).1.1 rfl

/-- C6 (amended to nonempty literals): for every valid nonempty Array or
Object literal, appending one extra comma right before the closing bracket
yields, under default Options, the same Value as without it; with
`allow_trailing_commas` off the same input fails with `MissingValue`.  (The
original claim over all literals is refuted by the empty literals, see the
counterexample.) -/
theorem C6_trailing_comma (x : Value) (xs : List Value) (kv : String × Value)
    (ps : List (String × Value))
    (hvwf : ∀ z ∈ x :: xs, WFV z)
    (hvdep : ∀ z ∈ x :: xs, DepthOK Options.default.max_depth 2 z)
    (hpwf : ∀ q ∈ kv :: ps, WFV q.2)
    (hpdep : ∀ q ∈ kv :: ps, DepthOK Options.default.max_depth 2 q.2) :
    (parse_with_options Options.default (serialize (.arr (x :: xs))) =
        .ok (.arr (x :: xs), []) ∧
      parse_with_options Options.default (String.mk (renderToks
        (.lbracket :: tokensOfElems (x :: xs) ++ [.comma, .rbracket]))) =
        .ok (.arr (x :: xs), []) ∧
      parse_with_options { Options.default with allow_trailing_commas := false }
        (String.mk (renderToks
        (.lbracket :: tokensOfElems (x :: xs) ++ [.comma, .rbracket]))) =
        .error .MissingValue) ∧
    (parse_with_options Options.default (serialize (.obj (kv :: ps))) =
        .ok (.obj (kv :: ps), []) ∧
      parse_with_options Options.default (String.mk (renderToks
        (.lbrace :: tokensOfPairs (kv :: ps) ++ [.comma, .rbrace]))) =
        .ok (.obj (kv :: ps), []) ∧
      parse_with_options { Options.default with allow_trailing_commas := false }
        (String.mk (renderToks
        (.lbrace :: tokensOfPairs (kv :: ps) ++ [.comma, .rbrace]))) =
        .error .MissingValue) := by
  constructor
  · -- arrays
    have hwfA : WFV (.arr (x :: xs)) := WFV.arr _ hvwf
    have hdepA : DepthOK Options.default.max_depth 0 (.arr (x :: xs)) :=
      DepthOK.arr 0 _ (by decide) (fun z hz => DepthOK_down (by omega) (hvdep z hz))
    refine ⟨parse_with_options_serialize _ _ hwfA hdepA, ?_⟩
    have htokOK : tokOK (Tok.lbracket :: tokensOfElems (x :: xs) ++ [.comma, .rbracket]) := by
      refine ⟨trivial, fun hcl => by simp [needsCloser] at hcl, ?_⟩
      apply tokOK_elems (x :: xs) (fun z hz => tokOK_tokensOf z (hvwf z hz))
      · exact ⟨trivial, fun hcl => by simp [needsCloser] at hcl,
          trivial, fun hcl => by simp [needsCloser] at hcl, trivial⟩
      · exact Or.inl rfl
    have hskipT : skipNL (Tok.lbracket :: tokensOfElems (x :: xs) ++
        [Tok.comma, Tok.rbracket]) = (false, Tok.lbracket :: tokensOfElems (x :: xs) ++
        [Tok.comma, Tok.rbracket]) := skipNL_no _ (by simp [noNLHead])
    obtain ⟨f2, hf2⟩ : ∃ f2, pFuel (Tok.lbracket :: tokensOfElems (x :: xs) ++
        [Tok.comma, Tok.rbracket]) = f2 + 2 :=
      ⟨pFuel (Tok.lbracket :: tokensOfElems (x :: xs) ++ [Tok.comma, Tok.rbracket]) - 2,
        by simp only [pFuel]; omega⟩
    have hlen : pFuel (Tok.lbracket :: tokensOfElems (x :: xs) ++
        [Tok.comma, Tok.rbracket]) = 2 * (tokensOfElems (x :: xs)).length + 10 := by
      simp only [pFuel, List.length_cons, List.length_append, List.length_nil]
      omega
    constructor
    · -- default options accept the trailing comma
      have htokD := tokenize_render Options.default _ htokOK
      have hET := P_elems_trail Options.default (x :: xs)
        (fun z _ => parseValue_tokensOf _ z) (f2 + 1) 1 [] [] []
        (fun z hz => DepthOK_down (by omega) (hvdep z hz)) (by omega) (by simp)
      rw [if_pos (show Options.default.allow_trailing_commas = true from rfl)] at hET
      simp only [List.reverse_nil, List.nil_append] at hET
      have hprobeD : parseValue Options.default (pFuel (Tok.lbracket ::
          tokensOfElems (x :: xs) ++ [Tok.comma, Tok.rbracket])) 0
          (Tok.lbracket :: tokensOfElems (x :: xs) ++ [Tok.comma, Tok.rbracket]) [] =
          .ok (.arr (x :: xs), [], []) := by
        rw [hf2]
        show parseElems Options.default (f2 + 1) 1
          (tokensOfElems (x :: xs) ++ Tok.comma :: Tok.rbracket :: []) [] [] = _
        exact hET
      simp only [parse_with_options, htokD]
      simp only [parseDoc, hskipT, hprobeD]
      simp [skipNL]
    · -- allow_trailing_commas off rejects it
      have htokN := tokenize_render
        { Options.default with allow_trailing_commas := false } _ htokOK
      have hETn := P_elems_trail { Options.default with allow_trailing_commas := false }
        (x :: xs) (fun z _ => parseValue_tokensOf _ z) (f2 + 1) 1 [] [] []
        (fun z hz => DepthOK_down (by omega) (hvdep z hz)) (by omega) (by simp)
      rw [if_neg (by decide)] at hETn
      have hET2n := P_elems_trail { Options.default with allow_trailing_commas := false }
        (x :: xs) (fun z _ => parseValue_tokensOf _ z) f2 2 [] [] []
        (fun z hz => hvdep z hz) (by omega) (by simp)
      rw [if_neg (by decide)] at hET2n
      have hprobeN : parseValue { Options.default with allow_trailing_commas := false }
          (pFuel (Tok.lbracket :: tokensOfElems (x :: xs) ++ [Tok.comma, Tok.rbracket])) 0
          (Tok.lbracket :: tokensOfElems (x :: xs) ++ [Tok.comma, Tok.rbracket]) [] =
          .error .MissingValue := by
        rw [hf2]
        show parseElems { Options.default with allow_trailing_commas := false } (f2 + 1) 1
          (tokensOfElems (x :: xs) ++ Tok.comma :: Tok.rbracket :: []) [] [] = _
        exact hETn
      have hInnerN : parseValue { Options.default with allow_trailing_commas := false }
          (f2 + 1) 1
          (Tok.lbracket :: tokensOfElems (x :: xs) ++ [Tok.comma, Tok.rbracket]) [] =
          .error .MissingValue := by
        show parseElems { Options.default with allow_trailing_commas := false } f2 2
          (tokensOfElems (x :: xs) ++ Tok.comma :: Tok.rbracket :: []) [] [] = _
        exact hET2n
      have hImpPn : parseImpPairs { Options.default with allow_trailing_commas := false }
          (pFuel (Tok.lbracket :: tokensOfElems (x :: xs) ++ [Tok.comma, Tok.rbracket]))
          (Tok.lbracket :: tokensOfElems (x :: xs) ++ [Tok.comma, Tok.rbracket]) [] [] =
          .error .UnexpectedToken := by
        rw [hf2]
        exact impPairs_lbracket_err _ (f2 + 1) _
      have hImpEn : parseImpElems { Options.default with allow_trailing_commas := false }
          (pFuel (Tok.lbracket :: tokensOfElems (x :: xs) ++ [Tok.comma, Tok.rbracket]))
          (Tok.lbracket :: tokensOfElems (x :: xs) ++ [Tok.comma, Tok.rbracket]) [] [] =
          .error .MissingValue := by
        rw [hf2]
        exact impElems_lbracket_err _ (f2 + 1) _ _ hInnerN
      simp only [parse_with_options, htokN]
      simp only [parseDoc, hskipT, hprobeN]
      rw [if_neg (show ¬(ParseError.MissingValue = ParseError.MaxDepthExceeded) from by decide)]
      rw [if_pos (show ({ Options.default with
        allow_trailing_commas := false } : Options).implicit_top_level = true from rfl)]
      simp only [hImpPn, hImpEn]
      rfl
  · -- objects
    have hwfO : WFV (.obj (kv :: ps)) := WFV.obj _ hpwf
    have hdepO : DepthOK Options.default.max_depth 0 (.obj (kv :: ps)) :=
      DepthOK.obj 0 _ (by decide) (fun q hq => DepthOK_down (by omega) (hpdep q hq))
    refine ⟨parse_with_options_serialize _ _ hwfO hdepO, ?_⟩
    have htokOK : tokOK (Tok.lbrace :: tokensOfPairs (kv :: ps) ++ [.comma, .rbrace]) := by
      refine ⟨trivial, fun hcl => by simp [needsCloser] at hcl, ?_⟩
      apply tokOK_pairs (kv :: ps) (fun q hq => tokOK_tokensOf q.2 (hpwf q hq))
      · exact ⟨trivial, fun hcl => by simp [needsCloser] at hcl,
          trivial, fun hcl => by simp [needsCloser] at hcl, trivial⟩
      · exact Or.inl rfl
    have hskipT : skipNL (Tok.lbrace :: tokensOfPairs (kv :: ps) ++
        [Tok.comma, Tok.rbrace]) = (false, Tok.lbrace :: tokensOfPairs (kv :: ps) ++
        [Tok.comma, Tok.rbrace]) := skipNL_no _ (by simp [noNLHead])
    obtain ⟨f2, hf2⟩ : ∃ f2, pFuel (Tok.lbrace :: tokensOfPairs (kv :: ps) ++
        [Tok.comma, Tok.rbrace]) = f2 + 2 :=
      ⟨pFuel (Tok.lbrace :: tokensOfPairs (kv :: ps) ++ [Tok.comma, Tok.rbrace]) - 2,
        by simp only [pFuel]; omega⟩
    have hlen : pFuel (Tok.lbrace :: tokensOfPairs (kv :: ps) ++
        [Tok.comma, Tok.rbrace]) = 2 * (tokensOfPairs (kv :: ps)).length + 10 := by
      simp only [pFuel, List.length_cons, List.length_append, List.length_nil]
      omega
    constructor
    · have htokD := tokenize_render Options.default _ htokOK
      have hPT := P_pairs_trail Options.default (kv :: ps)
        (fun q _ => parseValue_tokensOf _ q.2) (f2 + 1) 1 [] [] []
        (fun q hq => DepthOK_down (by omega) (hpdep q hq)) (by omega) (by simp)
      rw [if_pos (show Options.default.allow_trailing_commas = true from rfl)] at hPT
      simp only [List.reverse_nil, List.nil_append] at hPT
      have hprobeD : parseValue Options.default (pFuel (Tok.lbrace ::
          tokensOfPairs (kv :: ps) ++ [Tok.comma, Tok.rbrace])) 0
          (Tok.lbrace :: tokensOfPairs (kv :: ps) ++ [Tok.comma, Tok.rbrace]) [] =
          .ok (.obj (kv :: ps), [], []) := by
        rw [hf2]
        show parsePairs Options.default (f2 + 1) 1
          (tokensOfPairs (kv :: ps) ++ Tok.comma :: Tok.rbrace :: []) [] [] = _
        exact hPT
      simp only [parse_with_options, htokD]
      simp only [parseDoc, hskipT, hprobeD]
      simp [skipNL]
    · have htokN := tokenize_render
        { Options.default with allow_trailing_commas := false } _ htokOK
      have hPTn := P_pairs_trail { Options.default with allow_trailing_commas := false }
        (kv :: ps) (fun q _ => parseValue_tokensOf _ q.2) (f2 + 1) 1 [] [] []
        (fun q hq => DepthOK_down (by omega) (hpdep q hq)) (by omega) (by simp)
      rw [if_neg (by decide)] at hPTn
      have hPT2n := P_pairs_trail { Options.default with allow_trailing_commas := false }
        (kv :: ps) (fun q _ => parseValue_tokensOf _ q.2) f2 2 [] [] []
        (fun q hq => hpdep q hq) (by omega) (by simp)
      rw [if_neg (by decide)] at hPT2n
      have hprobeN : parseValue { Options.default with allow_trailing_commas := false }
          (pFuel (Tok.lbrace :: tokensOfPairs (kv :: ps) ++ [Tok.comma, Tok.rbrace])) 0
          (Tok.lbrace :: tokensOfPairs (kv :: ps) ++ [Tok.comma, Tok.rbrace]) [] =
          .error .MissingValue := by
        rw [hf2]
        show parsePairs { Options.default with allow_trailing_commas := false } (f2 + 1) 1
          (tokensOfPairs (kv :: ps) ++ Tok.comma :: Tok.rbrace :: []) [] [] = _
        exact hPTn
      have hInnerN : parseValue { Options.default with allow_trailing_commas := false }
          (f2 + 1) 1
          (Tok.lbrace :: tokensOfPairs (kv :: ps) ++ [Tok.comma, Tok.rbrace]) [] =
          .error .MissingValue := by
        show parsePairs { Options.default with allow_trailing_commas := false } f2 2
          (tokensOfPairs (kv :: ps) ++ Tok.comma :: Tok.rbrace :: []) [] [] = _
        exact hPT2n
      have hImpPn : parseImpPairs { Options.default with allow_trailing_commas := false }
          (pFuel (Tok.lbrace :: tokensOfPairs (kv :: ps) ++ [Tok.comma, Tok.rbrace]))
          (Tok.lbrace :: tokensOfPairs (kv :: ps) ++ [Tok.comma, Tok.rbrace]) [] [] =
          .error .UnexpectedToken := by
        rw [hf2]
        exact impPairs_lbrace_err _ (f2 + 1) _
      have hImpEn : parseImpElems { Options.default with allow_trailing_commas := false }
          (pFuel (Tok.lbrace :: tokensOfPairs (kv :: ps) ++ [Tok.comma, Tok.rbrace]))
          (Tok.lbrace :: tokensOfPairs (kv :: ps) ++ [Tok.comma, Tok.rbrace]) [] [] =
          .error .MissingValue := by
        rw [hf2]
        exact impElems_lbrace_err _ (f2 + 1) _ _ hInnerN
      simp only [parse_with_options, htokN]
      simp only [parseDoc, hskipT, hprobeN]
      rw [if_neg (show ¬(ParseError.MissingValue = ParseError.MaxDepthExceeded) from by decide)]
      rw [if_pos (show ({ Options.default with
        allow_trailing_commas := false } : Options).implicit_top_level = true from rfl)]
      simp only [hImpPn, hImpEn]
      rfl

/-- Counterexample to C6 as stated over all literals: the empty Array and
Object literals are valid, yet adding one separator before their closing
bracket fails even under default Options. -/
theorem C6_trailing_comma_cex :
    parse "[]" = .ok (.arr []) ∧ parse "[,]" = .error .UnexpectedToken ∧
    parse "\x7b\x7d" = .ok (.obj []) ∧ parse "\x7b,\x7d" = .error .UnexpectedToken :=
  ⟨rfl, rfl, rfl, rfl⟩

/-- Witness for C6 at the one-element literals `[1,]` and `{"a":1,}`. -/
theorem C6_trailing_comma_witness :
    parse_with_options Options.default (String.mk (renderToks
      (.lbracket :: tokensOfElems [Value.int 1] ++ [.comma, .rbracket]))) =
      .ok (.arr [Value.int 1], []) ∧
    parse_with_options { Options.default with allow_trailing_commas := false }
      (String.mk (renderToks
      (.lbrace :: tokensOfPairs [("a", Value.int 1)] ++ [.comma, .rbrace]))) =
      .error .MissingValue := by
  have h := C6_trailing_comma (Value.int 1) [] ("a", Value.int 1) []
    (fun z hz => by
      simp only [List.mem_singleton] at hz
      subst hz
      exact WFV.int 1)
    (fun z hz => by
      simp only [List.mem_singleton] at hz
      subst hz
      exact DepthOK.int 2 1)
    (fun q hq => by
      simp only [List.mem_singleton] at hq
      subst hq
      exact WFV.int 1)
    (fun q hq => by
      simp only [List.mem_singleton] at hq
      subst hq
      exact DepthOK.int 2 1)
  exact ⟨h.1.2.1, h.2.2.2⟩

/-! ### Strict mode refines default mode (C2) -/

/-- `insNL ts ts'`: `ts'` is `ts` with newline tokens inserted anywhere (and
`ts` itself carries no newline tokens). -/
inductive insNL : List Tok → List Tok → Prop where
  | nil : insNL [] []
  | cons (t : Tok) (ts ts' : List Tok) : t ≠ .newline → insNL ts ts' →
      insNL (t :: ts) (t :: ts')
  | nl (ts ts' : List Tok) : insNL ts ts' → insNL ts (.newline :: ts')

theorem insNL_len {ts ts' : List Tok} (h : insNL ts ts') : ts.length ≤ ts'.length := by
  induction h with
  | nil => exact Nat.le_refl _
  | cons t ts ts' hne hrel ih => simpa using ih
  | nl ts ts' hrel ih => simp only [List.length_cons]; omega

theorem insNL_head_ne {t : Tok} {tl ts' : List Tok} (h : insNL (t :: tl) ts') :
    t ≠ .newline := by
  generalize hg : t :: tl = a at h
  induction h with
  | nil => exact absurd hg (by simp)
  | cons t2 ts ts' hne hrel ih =>
    injection hg with h1 h2
    subst h1
    exact hne
  | nl ts ts' hrel ih => exact ih hg

theorem insNL_skipNL_left {ts ts' : List Tok} (h : insNL ts ts') :
    skipNL ts = (false, ts) := by
  cases ts with
  | nil => rfl
  | cons t tl =>
    have hne := insNL_head_ne h
    cases t <;> first | rfl | exact absurd rfl hne

theorem insNL_nil_skip {ts' : List Tok} (h : insNL [] ts') : (skipNL ts').2 = [] := by
  generalize hg : ([] : List Tok) = a at h
  induction h with
  | nil => rfl
  | cons t ts ts' hne hrel ih => exact absurd hg (by simp)
  | nl ts ts' hrel ih => exact ih hg

theorem insNL_cons_skip {t : Tok} {tl ts' : List Tok} (h : insNL (t :: tl) ts') :
    ∃ tl', (skipNL ts').2 = t :: tl' ∧ insNL tl tl' := by
  generalize hg : t :: tl = a at h
  induction h with
  | nil => exact absurd hg (by simp)
  | cons t2 ts ts' hne hrel ih =>
    injection hg with h1 h2
    subst h1
    subst h2
    have hsk : skipNL (t :: ts') = (false, t :: ts') := by
      cases t <;> first | rfl | exact absurd rfl hne
    exact ⟨ts', by rw [hsk], hrel⟩
  | nl ts ts' hrel ih =>
    obtain ⟨tl', h1, h2⟩ := ih hg
    exact ⟨tl', by show (skipNL ts').2 = _; exact h1, h2⟩

theorem insNL_skip_right {ts ts' : List Tok} (h : insNL ts ts') :
    insNL ts (skipNL ts').2 := by
  cases ts with
  | nil =>
    rw [insNL_nil_skip h]
    exact insNL.nil
  | cons t tl =>
    obtain ⟨tl', h1, h2⟩ := insNL_cons_skip h
    rw [h1]
    exact insNL.cons t tl tl' (insNL_head_ne h) h2

/-- Number tokens are integers or scaled decimals. -/
def numShaped (t : Tok) : Prop := (∃ n, t = Tok.int n) ∨ (∃ m k, t = Tok.float m k)

theorem mkNumTok_numShaped (neg : Bool) (ids fds : List Char) (hd he : Bool) (e : Int) :
    numShaped (mkNumTok neg ids fds hd he e) := by
  simp only [mkNumTok]
  split
  · right
    exact ⟨_, _, rfl⟩
  · left
    exact ⟨_, rfl⟩

theorem readExpPart_numShaped {neg : Bool} {ids fds : List Char} {hd : Bool}
    {rest : List Char} {t : Tok} {r : List Char}
    (h : readExpPart neg ids fds hd rest = .ok (t, r)) : numShaped t := by
  simp only [readExpPart] at h
  repeat' split at h
  all_goals first
    | (simp at h
       done)
    | (simp only [Except.ok.injEq, Prod.mk.injEq] at h
       obtain ⟨h1, h2⟩ := h
       subst h1
       exact mkNumTok_numShaped _ _ _ _ _ _)

theorem readFracPart_numShaped {neg : Bool} {ids : List Char}
    {rest : List Char} {t : Tok} {r : List Char}
    (h : readFracPart neg ids rest = .ok (t, r)) : numShaped t := by
  simp only [readFracPart] at h
  repeat' split at h
  all_goals first
    | (simp at h
       done)
    | exact readExpPart_numShaped h

theorem readNumber_numShaped {cs : List Char} {t : Tok} {r : List Char}
    (h : readNumber cs = .ok (t, r)) : numShaped t := by
  simp only [readNumber] at h
  repeat' split at h
  all_goals first
    | (simp at h
       done)
    | exact readFracPart_numShaped h

theorem numShaped_ne_newline {t : Tok} (h : numShaped t) : t ≠ Tok.newline := by
  rcases h with ⟨n, rfl⟩ | ⟨m, k, rfl⟩ <;> simp

/-- One lexical step: whatever the strict tokenizer accepts, the default
tokenizer accepts identically, except that a newline skipped by strict mode
becomes a newline token. -/
theorem nextTok_strict_default {cs : List Char} {res : NextRes}
    (h : nextTok Options.strict cs = .ok res) :
    (res = .eoi ∧ nextTok Options.default cs = .ok .eoi) ∨
    (∃ t r, res = .tok t r ∧ t ≠ .newline ∧
      nextTok Options.default cs = .ok (.tok t r)) ∨
    (∃ r, res = .skip r ∧ nextTok Options.default cs = .ok (.tok .newline r)) := by
  cases hcs : skipWs cs with
  | nil =>
    left
    simp only [nextTok, hcs] at h
    simp only [Except.ok.injEq] at h
    exact ⟨h.symm, by simp only [nextTok, hcs]⟩
  | cons c r =>
    simp only [nextTok, hcs] at h
    by_cases h1 : c = '\n'
    · rw [if_pos h1, if_neg (by decide : ¬ (Options.strict.newline_as_comma = true))] at h
      simp only [Except.ok.injEq] at h
      right
      right
      refine ⟨r, h.symm, ?_⟩
      simp only [nextTok, hcs]
      rw [if_pos h1, if_pos (show Options.default.newline_as_comma = true from rfl)]
    · rw [if_neg h1] at h
      by_cases h2 : c = '{'
      · rw [if_pos h2] at h
        simp only [Except.ok.injEq] at h
        right
        left
        refine ⟨.lbrace, r, h.symm, by simp, ?_⟩
        simp only [nextTok, hcs]
        rw [if_neg h1, if_pos h2]
      · rw [if_neg h2] at h
        by_cases h3 : c = '}'
        · rw [if_pos h3] at h
          simp only [Except.ok.injEq] at h
          right
          left
          refine ⟨.rbrace, r, h.symm, by simp, ?_⟩
          simp only [nextTok, hcs]
          rw [if_neg h1, if_neg h2, if_pos h3]
        · rw [if_neg h3] at h
          by_cases h4 : c = '['
          · rw [if_pos h4] at h
            simp only [Except.ok.injEq] at h
            right
            left
            refine ⟨.lbracket, r, h.symm, by simp, ?_⟩
            simp only [nextTok, hcs]
            rw [if_neg h1, if_neg h2, if_neg h3, if_pos h4]
          · rw [if_neg h4] at h
            by_cases h5 : c = ']'
            · rw [if_pos h5] at h
              simp only [Except.ok.injEq] at h
              right
              left
              refine ⟨.rbracket, r, h.symm, by simp, ?_⟩
              simp only [nextTok, hcs]
              rw [if_neg h1, if_neg h2, if_neg h3, if_neg h4, if_pos h5]
            · rw [if_neg h5] at h
              by_cases h6 : c = ':'
              · rw [if_pos h6] at h
                simp only [Except.ok.injEq] at h
                right
                left
                refine ⟨.colon, r, h.symm, by simp, ?_⟩
                simp only [nextTok, hcs]
                rw [if_neg h1, if_neg h2, if_neg h3, if_neg h4, if_neg h5, if_pos h6]
              · rw [if_neg h6] at h
                by_cases h7 : c = ','
                · rw [if_pos h7] at h
                  simp only [Except.ok.injEq] at h
                  right
                  left
                  refine ⟨.comma, r, h.symm, by simp, ?_⟩
                  simp only [nextTok, hcs]
                  rw [if_neg h1, if_neg h2, if_neg h3, if_neg h4, if_neg h5, if_neg h6,
                    if_pos h7]
                · rw [if_neg h7] at h
                  by_cases h8 : c = '"'
                  · rw [if_pos h8] at h
                    split at h
                    · next content rest2 heq =>
                      simp only [Except.ok.injEq] at h
                      right
                      left
                      refine ⟨.str (String.mk content), rest2, h.symm, by simp, ?_⟩
                      simp only [nextTok, hcs]
                      rw [if_neg h1, if_neg h2, if_neg h3, if_neg h4, if_neg h5, if_neg h6,
                        if_neg h7, if_pos h8]
                      simp only [heq]
                    · simp at h
                  · rw [if_neg h8] at h
                    by_cases h9 : c = '\''
                    · rw [if_pos h9,
                        if_neg (by decide : ¬ (Options.strict.allow_single_quotes = true))]
                        at h
                      simp at h
                    · rw [if_neg h9] at h
                      by_cases h10 : c = '/'
                      · rw [if_pos h10,
                          if_neg (by decide : ¬ (Options.strict.allow_comments = true))] at h
                        simp at h
                      · rw [if_neg h10] at h
                        by_cases h11 : isDigitC c = true ∨ c = '-'
                        · rw [if_pos h11] at h
                          split at h
                          · next t2 rest2 heq =>
                            simp only [Except.ok.injEq] at h
                            right
                            left
                            refine ⟨t2, rest2, h.symm,
                              numShaped_ne_newline (readNumber_numShaped heq), ?_⟩
                            simp only [nextTok, hcs]
                            rw [if_neg h1, if_neg h2, if_neg h3, if_neg h4, if_neg h5,
                              if_neg h6, if_neg h7, if_neg h8, if_neg h9, if_neg h10,
                              if_pos h11]
                            simp only [heq]
                          · simp at h
                        · rw [if_neg h11] at h
                          by_cases h12 : isIdentStart c = true
                          · rw [if_pos h12] at h
                            by_cases hw1 : String.mk (readIdentRun (c :: r)).1 = "true"
                            · rw [if_pos hw1] at h
                              simp only [Except.ok.injEq] at h
                              right
                              left
                              refine ⟨.tru, (readIdentRun (c :: r)).2, h.symm, by simp, ?_⟩
                              simp only [nextTok, hcs]
                              rw [if_neg h1, if_neg h2, if_neg h3, if_neg h4, if_neg h5,
                                if_neg h6, if_neg h7, if_neg h8, if_neg h9, if_neg h10,
                                if_neg h11, if_pos h12, if_pos hw1]
                            · rw [if_neg hw1] at h
                              by_cases hw2 : String.mk (readIdentRun (c :: r)).1 = "false"
                              · rw [if_pos hw2] at h
                                simp only [Except.ok.injEq] at h
                                right
                                left
                                refine ⟨.fals, (readIdentRun (c :: r)).2, h.symm,
                                  by simp, ?_⟩
                                simp only [nextTok, hcs]
                                rw [if_neg h1, if_neg h2, if_neg h3, if_neg h4, if_neg h5,
                                  if_neg h6, if_neg h7, if_neg h8, if_neg h9, if_neg h10,
                                  if_neg h11, if_pos h12, if_neg hw1, if_pos hw2]
                              · rw [if_neg hw2] at h
                                by_cases hw3 : String.mk (readIdentRun (c :: r)).1 = "null"
                                · rw [if_pos hw3] at h
                                  simp only [Except.ok.injEq] at h
                                  right
                                  left
                                  refine ⟨.null, (readIdentRun (c :: r)).2, h.symm,
                                    by simp, ?_⟩
                                  simp only [nextTok, hcs]
                                  rw [if_neg h1, if_neg h2, if_neg h3, if_neg h4, if_neg h5,
                                    if_neg h6, if_neg h7, if_neg h8, if_neg h9, if_neg h10,
                                    if_neg h11, if_pos h12, if_neg hw1, if_neg hw2,
                                    if_pos hw3]
                                · rw [if_neg hw3,
                                    if_neg (by decide :
                                      ¬ (Options.strict.allow_unquoted_keys = true))] at h
                                  simp at h
                          · rw [if_neg h12] at h
                            simp at h

theorem tokenizeAux_strict_default :
    ∀ fuel cs ts, tokenizeAux Options.strict fuel cs = .ok ts →
    ∃ ts', tokenizeAux Options.default fuel cs = .ok ts' ∧ insNL ts ts' := by
  intro fuel
  induction fuel with
  | zero =>
    intro cs ts h
    simp [tokenizeAux] at h
  | succ f ih =>
    intro cs ts h
    simp only [tokenizeAux] at h
    split at h
    · next heq =>
      simp only [Except.ok.injEq] at h
      subst h
      rcases nextTok_strict_default heq with ⟨_, hD⟩ | ⟨t, r, habs, _, _⟩ | ⟨r, habs, _⟩
      · refine ⟨[], ?_, insNL.nil⟩
        simp only [tokenizeAux, hD]
      · exact absurd habs (by simp)
      · exact absurd habs (by simp)
    · next t rest heq =>
      split at h
      · next ts1 heq2 =>
        simp only [Except.ok.injEq] at h
        subst h
        obtain ⟨ts1', hD2, hrel⟩ := ih rest ts1 heq2
        rcases nextTok_strict_default heq with ⟨habs, _⟩ | ⟨t2, r2, hres, hne, hD⟩ |
          ⟨r2, habs, _⟩
        · exact absurd habs (by simp)
        · injection hres with hres1 hres2
          subst hres1
          subst hres2
          refine ⟨t :: ts1', ?_, insNL.cons t ts1 ts1' hne hrel⟩
          simp only [tokenizeAux, hD, hD2]
        · exact absurd habs (by simp)
      · simp at h
    · next rest heq =>
      obtain ⟨ts', hD2, hrel⟩ := ih rest ts h
      rcases nextTok_strict_default heq with ⟨habs, _⟩ | ⟨t2, r2, habs, _, _⟩ |
        ⟨r2, hres, hD⟩
      · exact absurd habs (by simp)
      · exact absurd habs (by simp)
      · injection hres with hres1
        subst hres1
        refine ⟨.newline :: ts', ?_, insNL.nl ts ts' hrel⟩
        simp only [tokenizeAux, hD, hD2]
    · simp at h

/-- Tokenizer lockstep: strict-accepted text tokenizes under default Options
to the same tokens with newline tokens inserted. -/
theorem tokenize_strict_default {s : String} {ts : List Tok}
    (h : tokenize Options.strict s = .ok ts) :
    ∃ ts', tokenize Options.default s = .ok ts' ∧ insNL ts ts' :=
  tokenizeAux_strict_default _ _ _ h

theorem insNL_nil_right {ts : List Tok} (h : insNL ts []) : ts = [] := by
  cases h
  rfl

theorem insNL_cons_right {ts : List Tok} {c : Tok} {tl' : List Tok}
    (h : insNL ts (c :: tl')) (hc : c ≠ .newline) : ∃ tl, ts = c :: tl ∧ insNL tl tl' := by
  cases h with
  | cons t ts0 ts0' hne hrel => exact ⟨ts0, rfl, hrel⟩
  | nl ts0 ts0' hrel => exact absurd rfl hc

def SimVstmt (fuel' : Nat) : Prop :=
  ∀ fuel, fuel ≤ fuel' → ∀ (d : Nat) (ts ts' : List Tok) (reps : List Repair)
    (v : Value) (rest : List Tok) (reps2 : List Repair),
    insNL ts ts' → parseValue Options.strict fuel d ts reps = .ok (v, rest, reps2) →
    ∃ rest', insNL rest rest' ∧
      parseValue Options.default fuel' d ts' reps = .ok (v, rest', reps2)

def SimEstmt (fuel' : Nat) : Prop :=
  ∀ fuel, fuel ≤ fuel' → ∀ (d : Nat) (ts ts' : List Tok) (reps : List Repair)
    (acc : List Value) (v : Value) (rest : List Tok) (reps2 : List Repair),
    insNL ts ts' → parseElems Options.strict fuel d ts reps acc = .ok (v, rest, reps2) →
    ∃ rest', insNL rest rest' ∧
      parseElems Options.default fuel' d ts' reps acc = .ok (v, rest', reps2)

def SimESstmt (fuel' : Nat) : Prop :=
  ∀ fuel, fuel ≤ fuel' → ∀ (d : Nat) (ts ts' : List Tok) (reps : List Repair)
    (acc : List Value) (v : Value) (rest : List Tok) (reps2 : List Repair),
    insNL ts ts' → parseElemSep Options.strict fuel d ts reps acc = .ok (v, rest, reps2) →
    ∃ rest', insNL rest rest' ∧
      parseElemSep Options.default fuel' d ts' reps acc = .ok (v, rest', reps2)

def SimPstmt (fuel' : Nat) : Prop :=
  ∀ fuel, fuel ≤ fuel' → ∀ (d : Nat) (ts ts' : List Tok) (reps : List Repair)
    (acc : List (String × Value)) (v : Value) (rest : List Tok) (reps2 : List Repair),
    insNL ts ts' → parsePairs Options.strict fuel d ts reps acc = .ok (v, rest, reps2) →
    ∃ rest', insNL rest rest' ∧
      parsePairs Options.default fuel' d ts' reps acc = .ok (v, rest', reps2)

def SimPVstmt (fuel' : Nat) : Prop :=
  ∀ fuel, fuel ≤ fuel' → ∀ (d : Nat) (k : String) (ts ts' : List Tok)
    (reps : List Repair) (acc : List (String × Value)) (v : Value) (rest : List Tok)
    (reps2 : List Repair),
    insNL ts ts' → parsePairVal Options.strict fuel d k ts reps acc = .ok (v, rest, reps2) →
    ∃ rest', insNL rest rest' ∧
      parsePairVal Options.default fuel' d k ts' reps acc = .ok (v, rest', reps2)

def SimPSstmt (fuel' : Nat) : Prop :=
  ∀ fuel, fuel ≤ fuel' → ∀ (d : Nat) (kv : String × Value) (ts ts' : List Tok)
    (reps : List Repair) (acc : List (String × Value)) (v : Value) (rest : List Tok)
    (reps2 : List Repair),
    insNL ts ts' →
    parsePairSep Options.strict fuel d kv ts reps acc = .ok (v, rest, reps2) →
    ∃ rest', insNL rest rest' ∧
      parsePairSep Options.default fuel' d kv ts' reps acc = .ok (v, rest', reps2)

/-- The parser simulation: every strict-mode success is reproduced verbatim by
the default-mode parser on the newline-enriched token stream, with at least as
much fuel and the same (empty-growth) repair log. -/
theorem parser_sim : ∀ fuel', SimVstmt fuel' ∧ SimEstmt fuel' ∧ SimESstmt fuel' ∧
    SimPstmt fuel' ∧ SimPVstmt fuel' ∧ SimPSstmt fuel' := by
  intro fuel'
  induction fuel' with
  | zero =>
    refine ⟨fun fuel hle d ts ts' reps v rest reps2 hrel h => ?_,
      fun fuel hle d ts ts' reps acc v rest reps2 hrel h => ?_,
      fun fuel hle d ts ts' reps acc v rest reps2 hrel h => ?_,
      fun fuel hle d ts ts' reps acc v rest reps2 hrel h => ?_,
      fun fuel hle d k ts ts' reps acc v rest reps2 hrel h => ?_,
      fun fuel hle d kv ts ts' reps acc v rest reps2 hrel h => ?_⟩ <;>
    (have : fuel = 0 := by omega
     subst this
     simp [parseValue, parseElems, parseElemSep, parsePairs, parsePairVal,
       parsePairSep] at h)
  | succ f' ih =>
    obtain ⟨sv, se, ses, sp, spv, sps⟩ := ih
    refine ⟨?_, ?_, ?_, ?_, ?_, ?_⟩
    · -- parseValue
      intro fuel hle d ts ts' reps v rest reps2 hrel h
      cases fuel with
      | zero => simp [parseValue] at h
      | succ g =>
        have hgle : g ≤ f' := by omega
        have hskL : skipNL ts = (false, ts) := insNL_skipNL_left hrel
        have hts : (skipNL ts).2 = ts := by rw [hskL]
        simp only [parseValue] at h
        split at h
        · simp at h
        · next r heq =>
          have heq2 : ts = Tok.lbrace :: r := by rw [hts] at heq; exact heq
          subst heq2
          obtain ⟨r2, hsk', hrel2⟩ := insNL_cons_skip hrel
          split at h
          · simp at h
          · next hdok =>
            obtain ⟨rest', hrelR, hD⟩ := sp g hgle (d + 1) r r2 reps [] v rest reps2
              hrel2 h
            refine ⟨rest', hrelR, ?_⟩
            simp only [parseValue, hsk']
            rw [if_neg (show ¬ (Options.default.max_depth < d + 1) from hdok)]
            exact hD
        · next r heq =>
          have heq2 : ts = Tok.lbracket :: r := by rw [hts] at heq; exact heq
          subst heq2
          obtain ⟨r2, hsk', hrel2⟩ := insNL_cons_skip hrel
          split at h
          · simp at h
          · next hdok =>
            obtain ⟨rest', hrelR, hD⟩ := se g hgle (d + 1) r r2 reps [] v rest reps2
              hrel2 h
            refine ⟨rest', hrelR, ?_⟩
            simp only [parseValue, hsk']
            rw [if_neg (show ¬ (Options.default.max_depth < d + 1) from hdok)]
            exact hD
        · next s r heq =>
          have heq2 : ts = Tok.str s :: r := by rw [hts] at heq; exact heq
          subst heq2
          obtain ⟨r2, hsk', hrel2⟩ := insNL_cons_skip hrel
          simp only [Except.ok.injEq, Prod.mk.injEq] at h
          obtain ⟨h1, h2, h3⟩ := h
          subst h1
          subst h2
          subst h3
          refine ⟨r2, hrel2, ?_⟩
          simp only [parseValue, hsk']
        · next n r heq =>
          have heq2 : ts = Tok.int n :: r := by rw [hts] at heq; exact heq
          subst heq2
          obtain ⟨r2, hsk', hrel2⟩ := insNL_cons_skip hrel
          simp only [Except.ok.injEq, Prod.mk.injEq] at h
          obtain ⟨h1, h2, h3⟩ := h
          subst h1
          subst h2
          subst h3
          refine ⟨r2, hrel2, ?_⟩
          simp only [parseValue, hsk']
        · next m k r heq =>
          have heq2 : ts = Tok.float m k :: r := by rw [hts] at heq; exact heq
          subst heq2
          obtain ⟨r2, hsk', hrel2⟩ := insNL_cons_skip hrel
          simp only [Except.ok.injEq, Prod.mk.injEq] at h
          obtain ⟨h1, h2, h3⟩ := h
          subst h1
          subst h2
          subst h3
          refine ⟨r2, hrel2, ?_⟩
          simp only [parseValue, hsk']
        · next r heq =>
          have heq2 : ts = Tok.tru :: r := by rw [hts] at heq; exact heq
          subst heq2
          obtain ⟨r2, hsk', hrel2⟩ := insNL_cons_skip hrel
          simp only [Except.ok.injEq, Prod.mk.injEq] at h
          obtain ⟨h1, h2, h3⟩ := h
          subst h1
          subst h2
          subst h3
          refine ⟨r2, hrel2, ?_⟩
          simp only [parseValue, hsk']
        · next r heq =>
          have heq2 : ts = Tok.fals :: r := by rw [hts] at heq; exact heq
          subst heq2
          obtain ⟨r2, hsk', hrel2⟩ := insNL_cons_skip hrel
          simp only [Except.ok.injEq, Prod.mk.injEq] at h
          obtain ⟨h1, h2, h3⟩ := h
          subst h1
          subst h2
          subst h3
          refine ⟨r2, hrel2, ?_⟩
          simp only [parseValue, hsk']
        · next r heq =>
          have heq2 : ts = Tok.null :: r := by rw [hts] at heq; exact heq
          subst heq2
          obtain ⟨r2, hsk', hrel2⟩ := insNL_cons_skip hrel
          simp only [Except.ok.injEq, Prod.mk.injEq] at h
          obtain ⟨h1, h2, h3⟩ := h
          subst h1
          subst h2
          subst h3
          refine ⟨r2, hrel2, ?_⟩
          simp only [parseValue, hsk']
        · simp at h
        · simp at h
        · simp at h
        · simp at h
        · simp at h
        · simp at h
    · -- parseElems
      intro fuel hle d ts ts' reps acc v rest reps2 hrel h
      cases fuel with
      | zero => simp [parseElems] at h
      | succ g =>
        have hgle : g ≤ f' := by omega
        have hskL : skipNL ts = (false, ts) := insNL_skipNL_left hrel
        have hts : (skipNL ts).2 = ts := by rw [hskL]
        simp only [parseElems] at h
        split at h
        · next r heq =>
          have heq2 : ts = Tok.rbracket :: r := by rw [hts] at heq; exact heq
          subst heq2
          obtain ⟨r2, hsk', hrel2⟩ := insNL_cons_skip hrel
          simp only [Except.ok.injEq, Prod.mk.injEq] at h
          obtain ⟨h1, h2, h3⟩ := h
          subst h1
          subst h2
          subst h3
          refine ⟨r2, hrel2, ?_⟩
          simp only [parseElems, hsk']
        · next hne =>
          rw [hts] at h hne
          split at h
          · simp at h
          · next v1 r1 reps1 heq2 =>
            obtain ⟨r1', hrel1, hDv⟩ := sv g hgle d ts (skipNL ts').2 reps v1 r1 reps1
              (insNL_skip_right hrel) heq2
            obtain ⟨rest', hrelR, hDs⟩ := ses g hgle d r1 r1' reps1 (v1 :: acc) v rest
              reps2 hrel1 h
            refine ⟨rest', hrelR, ?_⟩
            simp only [parseElems]
            split
            · next rg heqg =>
              exfalso
              obtain ⟨tl, htl, _⟩ :=
                insNL_cons_right (heqg ▸ insNL_skip_right hrel) (by simp)
              exact hne tl htl
            · simp only [hDv]
              exact hDs
    · -- parseElemSep
      intro fuel hle d ts ts' reps acc v rest reps2 hrel h
      cases fuel with
      | zero => simp [parseElemSep] at h
      | succ g =>
        have hgle : g ≤ f' := by omega
        have hskL : skipNL ts = (false, ts) := insNL_skipNL_left hrel
        have hts : (skipNL ts).2 = ts := by rw [hskL]
        simp only [parseElemSep] at h
        split at h
        · next r heq =>
          have heq2 : ts = Tok.rbracket :: r := by rw [hts] at heq; exact heq
          subst heq2
          obtain ⟨r2, hsk', hrel2⟩ := insNL_cons_skip hrel
          simp only [Except.ok.injEq, Prod.mk.injEq] at h
          obtain ⟨h1, h2, h3⟩ := h
          subst h1
          subst h2
          subst h3
          refine ⟨r2, hrel2, ?_⟩
          simp only [parseElemSep, hsk']
        · next r2c heq =>
          have heq2 : ts = Tok.comma :: r2c := by rw [hts] at heq; exact heq
          subst heq2
          obtain ⟨tl2, hsk', hrel2⟩ := insNL_cons_skip hrel
          have hts2 : (skipNL r2c).2 = r2c := by rw [insNL_skipNL_left hrel2]
          rw [hts2] at h
          split at h
          · rw [if_neg (by decide : ¬ (Options.strict.allow_trailing_commas = true))] at h
            simp at h
          · next hne3 =>
            obtain ⟨rest', hrelR, hDe⟩ := se g hgle d r2c (skipNL tl2).2 reps acc v rest
              reps2 (insNL_skip_right hrel2) h
            refine ⟨rest', hrelR, ?_⟩
            simp only [parseElemSep, hsk']
            split
            · next r3g heqg =>
              exfalso
              obtain ⟨tl3, htl3, _⟩ :=
                insNL_cons_right (heqg ▸ insNL_skip_right hrel2) (by simp)
              exact hne3 tl3 htl3
            · exact hDe
        · rw [if_neg (fun hc => absurd hc.1 (by decide))] at h
          simp at h
        · rw [if_neg (fun hc => absurd hc.1 (by decide))] at h
          simp at h
    · -- parsePairs
      intro fuel hle d ts ts' reps acc v rest reps2 hrel h
      cases fuel with
      | zero => simp [parsePairs] at h
      | succ g =>
        have hgle : g ≤ f' := by omega
        have hskL : skipNL ts = (false, ts) := insNL_skipNL_left hrel
        have hts : (skipNL ts).2 = ts := by rw [hskL]
        simp only [parsePairs] at h
        split at h
        · next r heq =>
          have heq2 : ts = Tok.rbrace :: r := by rw [hts] at heq; exact heq
          subst heq2
          obtain ⟨r2, hsk', hrel2⟩ := insNL_cons_skip hrel
          simp only [Except.ok.injEq, Prod.mk.injEq] at h
          obtain ⟨h1, h2, h3⟩ := h
          subst h1
          subst h2
          subst h3
          refine ⟨r2, hrel2, ?_⟩
          simp only [parsePairs, hsk']
        · next k r heq =>
          have heq2 : ts = Tok.str k :: r := by rw [hts] at heq; exact heq
          subst heq2
          obtain ⟨r2, hsk', hrel2⟩ := insNL_cons_skip hrel
          obtain ⟨rest', hrelR, hD⟩ := spv g hgle d k r r2 reps acc v rest reps2 hrel2 h
          refine ⟨rest', hrelR, ?_⟩
          simp only [parsePairs, hsk']
          exact hD
        · next k r heq =>
          have heq2 : ts = Tok.ident k :: r := by rw [hts] at heq; exact heq
          subst heq2
          obtain ⟨r2, hsk', hrel2⟩ := insNL_cons_skip hrel
          obtain ⟨rest', hrelR, hD⟩ := spv g hgle d k r r2 reps acc v rest reps2 hrel2 h
          refine ⟨rest', hrelR, ?_⟩
          simp only [parsePairs, hsk']
          exact hD
        · simp at h
        · simp at h
    · -- parsePairVal
      intro fuel hle d k ts ts' reps acc v rest reps2 hrel h
      cases fuel with
      | zero => simp [parsePairVal] at h
      | succ g =>
        have hgle : g ≤ f' := by omega
        have hskL : skipNL ts = (false, ts) := insNL_skipNL_left hrel
        have hts : (skipNL ts).2 = ts := by rw [hskL]
        simp only [parsePairVal] at h
        split at h
        · next r heq =>
          have heq2 : ts = Tok.colon :: r := by rw [hts] at heq; exact heq
          subst heq2
          obtain ⟨tl2, hsk', hrel2⟩ := insNL_cons_skip hrel
          have hts2 : (skipNL r).2 = r := by rw [insNL_skipNL_left hrel2]
          rw [hts2] at h
          split at h
          · rw [if_neg (by decide : ¬ (Options.strict.enable_repair = true))] at h
            simp at h
          · next s r2i =>
            obtain ⟨tl3, hsk2', hrel3⟩ := insNL_cons_skip hrel2
            obtain ⟨rest', hrelR, hD⟩ := sps g hgle d (k, .str s) r2i tl3 reps acc v
              rest reps2 hrel3 h
            refine ⟨rest', hrelR, ?_⟩
            simp only [parsePairVal, hsk', hsk2']
            exact hD
          · next hne1 hne2 =>
            split at h
            · simp at h
            · next v1 r2v reps1 heq4 =>
              obtain ⟨r1', hrel1, hDv⟩ := sv g hgle d r (skipNL tl2).2 reps v1 r2v reps1
                (insNL_skip_right hrel2) heq4
              obtain ⟨rest', hrelR, hDs⟩ := sps g hgle d (k, v1) r2v r1' reps1 acc v
                rest reps2 hrel1 h
              refine ⟨rest', hrelR, ?_⟩
              simp only [parsePairVal, hsk']
              split
              · next heqg =>
                exfalso
                have h0 : insNL r ([] : List Tok) := heqg ▸ insNL_skip_right hrel2
                exact hne1 (insNL_nil_right h0)
              · next sg r2g heqg =>
                exfalso
                obtain ⟨tl, htl, _⟩ :=
                  insNL_cons_right (heqg ▸ insNL_skip_right hrel2) (by simp)
                exact hne2 sg tl htl
              · simp only [hDv]
                exact hDs
        · simp at h
    · -- parsePairSep
      intro fuel hle d kv ts ts' reps acc v rest reps2 hrel h
      cases fuel with
      | zero => simp [parsePairSep] at h
      | succ g =>
        have hgle : g ≤ f' := by omega
        have hskL : skipNL ts = (false, ts) := insNL_skipNL_left hrel
        have hts : (skipNL ts).2 = ts := by rw [hskL]
        simp only [parsePairSep] at h
        split at h
        · next r heq =>
          have heq2 : ts = Tok.rbrace :: r := by rw [hts] at heq; exact heq
          subst heq2
          obtain ⟨r2, hsk', hrel2⟩ := insNL_cons_skip hrel
          simp only [Except.ok.injEq, Prod.mk.injEq] at h
          obtain ⟨h1, h2, h3⟩ := h
          subst h1
          subst h2
          subst h3
          refine ⟨r2, hrel2, ?_⟩
          simp only [parsePairSep, hsk']
        · next r2c heq =>
          have heq2 : ts = Tok.comma :: r2c := by rw [hts] at heq; exact heq
          subst heq2
          obtain ⟨tl2, hsk', hrel2⟩ := insNL_cons_skip hrel
          have hts2 : (skipNL r2c).2 = r2c := by rw [insNL_skipNL_left hrel2]
          rw [hts2] at h
          split at h
          · rw [if_neg (by decide : ¬ (Options.strict.allow_trailing_commas = true))] at h
            simp at h
          · next hne3 =>
            obtain ⟨rest', hrelR, hDp⟩ := sp g hgle d r2c (skipNL tl2).2 reps
              (kv :: acc) v rest reps2 (insNL_skip_right hrel2) h
            refine ⟨rest', hrelR, ?_⟩
            simp only [parsePairSep, hsk']
            split
            · next r3g heqg =>
              exfalso
              obtain ⟨tl3, htl3, _⟩ :=
                insNL_cons_right (heqg ▸ insNL_skip_right hrel2) (by simp)
              exact hne3 tl3 htl3
            · exact hDp
        · rw [if_neg (fun hc => absurd hc.1 (by decide))] at h
          simp at h
        · rw [if_neg (fun hc => absurd hc.1 (by decide))] at h
          simp at h

/-- C2: every input accepted under strict Options is accepted under default
Options with a structurally equal Value (the forgiving grammar is a superset
of strict JSON). -/
theorem C2_strict_subset (s : String) (v : Value) (reps : List Repair)
    (h : parse_with_options Options.strict s = .ok (v, reps)) :
    parse s = .ok v := by
  cases heqt : tokenize Options.strict s with
  | error e =>
    simp only [parse_with_options, heqt] at h
    simp at h
  | ok ts =>
    simp only [parse_with_options, heqt] at h
    obtain ⟨ts', heqt', hrel⟩ := tokenize_strict_default heqt
    have hskL : skipNL ts = (false, ts) := insNL_skipNL_left hrel
    have hts : (skipNL ts).2 = ts := by rw [hskL]
    simp only [parseDoc] at h
    split at h
    · simp at h
    · next hneE =>
      split at h
      · next v0 rest0 reps0 heqp =>
        split at h
        · next hemp =>
          simp only [Except.ok.injEq, Prod.mk.injEq] at h
          obtain ⟨h1, h2⟩ := h
          subst h1
          subst h2
          have hfle : pFuel ts ≤ pFuel ts' := by
            have hl := insNL_len hrel
            simp only [pFuel]
            omega
          obtain ⟨rest', hrelR, hD⟩ := (parser_sim (pFuel ts')).1 (pFuel ts) hfle 0
            ts ts' [] v0 rest0 reps0 hrel heqp
          have hrest0 : rest0 = [] := by
            have hx : (skipNL rest0).2 = rest0 := by rw [insNL_skipNL_left hrelR]
            rw [hx] at hemp
            simpa using hemp
          subst hrest0
          have hempD : ((skipNL rest').2).isEmpty = true := by
            rw [insNL_nil_skip hrelR]
            rfl
          obtain ⟨t, tl, htts⟩ : ∃ t tl, ts = t :: tl := by
            cases ts with
            | nil => exact absurd hts hneE
            | cons t tl => exact ⟨t, tl, rfl⟩
          subst htts
          obtain ⟨tl2, hskts', hrelts⟩ := insNL_cons_skip hrel
          simp only [parse, parse_with_options, heqt']
          simp only [parseDoc, hskts', hD, hempD]
          rfl
        · rw [if_neg (by decide : ¬ (Options.strict.implicit_top_level = true))] at h
          simp at h
      · split at h
        · simp at h
        · rw [if_neg (by decide : ¬ (Options.strict.implicit_top_level = true))] at h
          simp at h

/-- Witness for C2: the strict-valid text `true`. -/
theorem C2_strict_subset_witness : parse "true" = .ok (.bool true) :=
  C2_strict_subset "true" (.bool true) [] (by rfl)

/-! ### The numeric grammar and the int/float tag (C8) -/

/-- The optional fraction text of a numeric literal. -/
def fracText (frac : List Char) : List Char :=
  if frac.isEmpty then [] else '.' :: frac

/-- The optional exponent text of a numeric literal. -/
def expText : Option (Bool × List Char) → List Char
  | none => []
  | some (eneg, eds) => 'e' :: ((if eneg then ['-'] else []) ++ eds)

/-- A literal of the standard JSON numeric grammar: optional sign, integer
digits, optional fraction, optional exponent. -/
def numLit (neg : Bool) (ids frac : List Char) (ex : Option (Bool × List Char)) :
    List Char :=
  (if neg then ['-'] else []) ++ (ids ++ (fracText frac ++ expText ex))

theorem mkNumTok_intTag (neg : Bool) (ids fds : List Char) (e : Int) :
    ∃ n, mkNumTok neg ids fds false false e = .int n := by
  simp only [mkNumTok, Bool.or_self]
  rw [if_neg (by simp)]
  exact ⟨_, rfl⟩

theorem mkNumTok_floatTag (neg : Bool) (ids fds : List Char) (e : Int) {hd he : Bool}
    (h : hd = true ∨ he = true) :
    ∃ m k, mkNumTok neg ids fds hd he e = .float m k := by
  have hb : (hd || he) = true := by
    rcases h with h | h
    · simp [h]
    · simp [h]
  simp only [mkNumTok, hb]
  rw [if_pos trivial]
  exact ⟨_, _, rfl⟩

theorem readFracPart_nodot (neg : Bool) (ids : List Char) (c3 : Char) (cs3 : List Char)
    (hc3 : ¬ c3 = '.') :
    readFracPart neg ids (c3 :: cs3) = readExpPart neg ids [] false (c3 :: cs3) := by
  simp only [readFracPart]
  rw [if_neg hc3]

theorem readFracPart_dot (neg : Bool) (ids frac tail2 : List Char) (hne : frac ≠ [])
    (hfr : ∀ c ∈ frac, isDigitC c = true) (htail : noDigitHead tail2) :
    readFracPart neg ids ('.' :: (frac ++ tail2)) = readExpPart neg ids frac true tail2 := by
  have hrd : readDigits (frac ++ tail2) = (frac, tail2) := readDigits_exact _ _ hfr htail
  have hfe : frac.isEmpty = false := by
    cases frac with
    | nil => exact absurd rfl hne
    | cons c cs => rfl
  have key : readFracPart neg ids ('.' :: (frac ++ tail2)) =
      (if (readDigits (frac ++ tail2)).1.isEmpty then
        Except.error ParseError.InvalidNumberLiteral
       else readExpPart neg ids (readDigits (frac ++ tail2)).1 true
        (readDigits (frac ++ tail2)).2) := rfl
  rw [key]
  simp only [hrd]
  simp [hfe]

theorem readExpPart_exp (neg : Bool) (ids fds : List Char) (hd : Bool) (eneg : Bool)
    (eds : List Char) (hne : eds ≠ []) (heds : ∀ c ∈ eds, isDigitC c = true) :
    ∃ e : Int, readExpPart neg ids fds hd ('e' :: ((if eneg then ['-'] else []) ++ eds)) =
      .ok (mkNumTok neg ids fds hd true e, []) := by
  obtain ⟨d, eds', rfl⟩ : ∃ d eds', eds = d :: eds' := by
    cases eds with
    | nil => exact absurd rfl hne
    | cons d eds' => exact ⟨d, eds', rfl⟩
  have hd0 : isDigitC d = true := heds d (List.mem_cons_self _ _)
  have hrd : readDigits (d :: eds') = (d :: eds', []) := by
    have h2 := readDigits_exact (d :: eds') [] heds trivial
    simpa using h2
  cases eneg with
  | true =>
    refine ⟨-(natOfDigits (d :: eds') : Int), ?_⟩
    have key : readExpPart neg ids fds hd ('e' :: (['-'] ++ (d :: eds'))) =
        (if (readDigits (d :: eds')).1.isEmpty then
          Except.error ParseError.InvalidNumberLiteral
         else Except.ok (mkNumTok neg ids fds hd true
           (-(natOfDigits (readDigits (d :: eds')).1 : Int)),
           (readDigits (d :: eds')).2)) := rfl
    rw [show ((if true then ['-'] else []) ++ (d :: eds') : List Char) =
      ['-'] ++ (d :: eds') from rfl]
    rw [key]
    simp only [hrd]
    simp
  | false =>
    refine ⟨(natOfDigits (d :: eds') : Int), ?_⟩
    have hdm : ¬ d = '-' := isDigit_ne hd0 (by decide)
    have hdp : ¬ d = '+' := isDigit_ne hd0 (by decide)
    have key : readExpPart neg ids fds hd ('e' :: ([] ++ (d :: eds'))) =
        (let sp : Bool × List Char :=
          if d = '-' then (true, eds') else if d = '+' then (false, eds')
          else (false, d :: eds');
         if (readDigits sp.2).1.isEmpty then
          Except.error ParseError.InvalidNumberLiteral
         else Except.ok (mkNumTok neg ids fds hd true
           (if sp.1 then -(natOfDigits (readDigits sp.2).1 : Int)
            else (natOfDigits (readDigits sp.2).1 : Int)), (readDigits sp.2).2)) := rfl
    rw [show ((if false then ['-'] else []) ++ (d :: eds') : List Char) =
      [] ++ (d :: eds') from rfl]
    rw [key]
    simp only [if_neg hdm, if_neg hdp]
    simp only [hrd]
    simp

/-- C8: every literal of the standard JSON numeric grammar is accepted by the
number reader in full; it is tagged as an integer token exactly when it has no
fraction and no exponent, and as a floating-point token otherwise — as on
`42`, `-42`, `3.14` and `1e5`. -/
theorem C8_numbers (neg : Bool) (ids frac : List Char) (ex : Option (Bool × List Char))
    (hids : ids ≠ [] ∧ ∀ c ∈ ids, isDigitC c = true)
    (hfrac : ∀ c ∈ frac, isDigitC c = true)
    (hex : ∀ p, ex = some p → p.2 ≠ [] ∧ ∀ c ∈ p.2, isDigitC c = true) :
    (∃ t, readNumber (numLit neg ids frac ex) = .ok (t, []) ∧
      ((frac = [] ∧ ex = none) → ∃ n, t = .int n) ∧
      (¬(frac = [] ∧ ex = none) → ∃ m k, t = .float m k)) ∧
    parse "42" = .ok (.int 42) ∧ parse "-42" = .ok (.int (-42)) ∧
    parse "3.14" = .ok (.float 314 2) ∧ parse "1e5" = .ok (.float 100000 0) := by
  refine ⟨?_, rfl, rfl, rfl, rfl⟩
  have htail : noDigitHead (fracText frac ++ expText ex) := by
    by_cases hfr : frac = []
    · subst hfr
      rw [show fracText [] = [] from rfl, List.nil_append]
      cases ex with
      | none => trivial
      | some p =>
        obtain ⟨eneg, eds⟩ := p
        rw [show expText (some (eneg, eds)) =
          'e' :: ((if eneg then ['-'] else []) ++ eds) from rfl]
        exact (by decide : isDigitC 'e' = false)
    · have hfe : frac.isEmpty = false := by
        cases frac with
        | nil => exact absurd rfl hfr
        | cons c cs => rfl
      rw [show fracText frac = '.' :: frac from by simp [fracText, hfe], List.cons_append]
      exact (by decide : isDigitC '.' = false)
  simp only [numLit]
  rw [readNumber_signDigits neg ids (fracText frac ++ expText ex) hids.2 hids.1 htail]
  by_cases hfr : frac = []
  · subst hfr
    rw [show fracText [] = [] from rfl, List.nil_append]
    cases ex with
    | none =>
      rw [show expText none = [] from rfl]
      rw [readFracPart_none neg ids [] trivial]
      refine ⟨mkNumTok neg ids [] false false 0, rfl, ?_, ?_⟩
      · intro _
        exact mkNumTok_intTag neg ids [] 0
      · intro hcon
        exact absurd ⟨rfl, rfl⟩ hcon
    | some p =>
      obtain ⟨eneg, eds⟩ := p
      obtain ⟨hene, heds⟩ := hex (eneg, eds) rfl
      rw [show expText (some (eneg, eds)) =
        'e' :: ((if eneg then ['-'] else []) ++ eds) from rfl]
      rw [readFracPart_nodot neg ids 'e' _ (by decide)]
      obtain ⟨e, he⟩ := readExpPart_exp neg ids [] false eneg eds hene heds
      rw [he]
      refine ⟨_, rfl, ?_, ?_⟩
      · rintro ⟨-, hexn⟩
        simp at hexn
      · intro _
        exact mkNumTok_floatTag neg ids [] e (Or.inr rfl)
  · have hfe : frac.isEmpty = false := by
      cases frac with
      | nil => exact absurd rfl hfr
      | cons c cs => rfl
    rw [show fracText frac = '.' :: frac from by simp [fracText, hfe], List.cons_append]
    have hexphead : noDigitHead (expText ex) := by
      cases ex with
      | none => trivial
      | some p =>
        obtain ⟨eneg, eds⟩ := p
        rw [show expText (some (eneg, eds)) =
          'e' :: ((if eneg then ['-'] else []) ++ eds) from rfl]
        exact (by decide : isDigitC 'e' = false)
    rw [readFracPart_dot neg ids frac (expText ex) hfr hfrac hexphead]
    cases ex with
    | none =>
      rw [show expText none = [] from rfl]
      rw [readExpPart_none neg ids frac true [] trivial]
      refine ⟨_, rfl, ?_, ?_⟩
      · rintro ⟨hf, -⟩
        exact absurd hf hfr
      · intro _
        exact mkNumTok_floatTag neg ids frac 0 (Or.inl rfl)
    | some p =>
      obtain ⟨eneg, eds⟩ := p
      obtain ⟨hene, heds⟩ := hex (eneg, eds) rfl
      rw [show expText (some (eneg, eds)) =
        'e' :: ((if eneg then ['-'] else []) ++ eds) from rfl]
      obtain ⟨e, he⟩ := readExpPart_exp neg ids frac true eneg eds hene heds
      rw [he]
      refine ⟨_, rfl, ?_, ?_⟩
      · rintro ⟨hf, -⟩
        exact absurd hf hfr
      · intro _
        exact mkNumTok_floatTag neg ids frac e (Or.inl rfl)

/-- Witness for C8: the literal `1e5` of the grammar (no sign, digits `1`,
no fraction, exponent `5`) and the concrete numeric parses. -/
theorem C8_numbers_witness :
    (∃ t, readNumber (numLit false ['1'] [] (some (false, ['5']))) = .ok (t, []) ∧
      ((([] : List Char) = [] ∧ (some (false, ['5']) : Option (Bool × List Char)) = none) →
        ∃ n, t = .int n) ∧
      (¬(([] : List Char) = [] ∧ (some (false, ['5']) : Option (Bool × List Char)) = none) →
        ∃ m k, t = .float m k)) ∧
    parse "42" = .ok (.int 42) ∧ parse "-42" = .ok (.int (-42)) ∧
    parse "3.14" = .ok (.float 314 2) ∧ parse "1e5" = .ok (.float 100000 0) :=
  C8_numbers false ['1'] [] (some (false, ['5'])) ⟨by decide, by decide⟩ (by decide)
    (fun p hp => by
      cases hp
      exact ⟨by decide, by decide⟩)

end VexyJson
